import Mathlib

/-!
Verification of the wpdocs Symbol Registry and Cross-Reference Resolution
Engine (`internal/model/model.go`, `internal/resolver/resolver.go`,
`internal/parser/php_hooks.go`, `internal/parser/parser.go`).

The Go code stores `*Symbol` pointers in one primary map plus two secondary
append-only indices; the resolver mutates symbols in place through those
pointers.  The embedding makes the pointer structure explicit: a `Registry`
holds a heap (`List Symbol`, addressed by allocation index) and the three
indices hold heap addresses.  Go map iteration order is arbitrary, so every
resolver pass is parameterised by the enumeration order (a list of heap
addresses) that `Registry.All()` produced for it.
-/

namespace WPDocs

/-- Symbol kinds (Go `model.SymbolKind`, a string type). -/
def KindFunction : String := "function"

def KindClass : String := "class"

def KindMethod : String := "method"

def KindProperty : String := "property"

def KindConstant : String := "constant"

def KindInterface : String := "interface"

def KindTrait : String := "trait"

def KindEnum : String := "enum"

def KindHook : String := "hook"

def KindComponent : String := "component"

/-- Hook types (Go `model.HookType`, a string type). -/
def HookAction : String := "action"

def HookFilter : String := "filter"

/-- Go `model.Param`. -/
structure Param where
  name : String := ""
  type : String := ""
  description : String := ""
  default : String := ""
  isVariadic : Bool := false
  isNullable : Bool := false
  isPassByRef : Bool := false
deriving DecidableEq

/-- Go `model.ReturnValue`. -/
structure ReturnValue where
  type : String := ""
  description : String := ""
deriving DecidableEq

/-- Go `model.DocBlock`.  The `Tags` map is embedded as an association list. -/
structure DocBlock where
  summary : String := ""
  description : String := ""
  tags : List (String × List String) := []
  since : String := ""
  deprecated : String := ""
  seeAlso : List String := []
  links : List String := []
  access : String := ""
deriving DecidableEq

/-- Go `model.SourceLocation`. -/
structure SourceLocation where
  file : String := ""
  startLine : Int := 0
  endLine : Int := 0
deriving DecidableEq

/-- Go `model.Symbol`.  `ns` is the Go `Namespace` field; `extends_` and
`implements_` are the Go `Extends` and `Implements` fields (both are Lean
keywords). -/
structure Symbol where
  id : String := ""
  name : String := ""
  kind : String := ""
  language : String := ""
  ns : String := ""
  doc : DocBlock := {}
  params : List Param := []
  returns : Option ReturnValue := none
  extends_ : List String := []
  implements_ : List String := []
  members : List String := []
  parentID : String := ""
  hookType : String := ""
  hookTag : String := ""
  callSites : List String := []
  usedBy : List String := []
  uses : List String := []
  overrides : String := ""
  location : SourceLocation := {}
deriving DecidableEq

/-- The zero value of `model.Symbol`. -/
def defaultSymbol : Symbol := {}

/-! ### Association lists

Go maps are embedded as association lists with insert-or-replace update.
Iteration order over a Go map is arbitrary; wherever the code iterates a
map, the embedding takes the order as a parameter. -/

/-- Map lookup (`m[k]` with the ok flag). -/
def lookupA {α : Type} : List (String × α) → String → Option α
  | [], _ => none
  | p :: rest, k => if p.1 = k then some p.2 else lookupA rest k

/-- Map store `m[k] = v`: replace the existing entry or add a new one. -/
def setA {α : Type} : List (String × α) → String → α → List (String × α)
  | [], k, v => [(k, v)]
  | p :: rest, k, v => if p.1 = k then (k, v) :: rest else p :: setA rest k v

/-- `m[k] = append(m[k], v)` on a map of slices (a missing key is an empty
slice). -/
def appendA : List (String × List Nat) → String → Nat → List (String × List Nat)
  | [], k, v => [(k, [v])]
  | p :: rest, k, v =>
    if p.1 = k then (p.1, p.2 ++ [v]) :: rest else p :: appendA rest k v

/-! ### Registry (Go `model.Registry`)

`heap` is the store of symbol records; a `Nat` index into it plays the role
of a `*Symbol` pointer.  `symbols`, `byKind` and `byFile` are the Go maps,
holding heap addresses.  `Add` allocates a fresh record, so an `Add` with an
already-present ID leaves the superseded record in the heap, still referenced
from `byKind`/`byFile` but no longer from `symbols` — exactly the Go aliasing
behaviour. -/

structure Registry where
  heap : List Symbol := []
  symbols : List (String × Nat) := []
  byKind : List (String × List Nat) := []
  byFile : List (String × List Nat) := []
deriving DecidableEq

namespace Registry

/-- Dereference a heap address (a `*Symbol`). -/
def read (r : Registry) (i : Nat) : Symbol := r.heap.getD i defaultSymbol

/-- Overwrite the record a heap address points at (an in-place `*Symbol`
mutation). -/
def setRef (r : Registry) (i : Nat) (s : Symbol) : Registry :=
  { r with heap := r.heap.set i s }

/-- Go `Registry.Add`. -/
def add (r : Registry) (s : Symbol) : Registry :=
  let ref := r.heap.length
  { heap := r.heap ++ [s]
    symbols := setA r.symbols s.id ref
    byKind := appendA r.byKind s.kind ref
    byFile := appendA r.byFile s.location.file ref }

/-- The address `Registry.Get` would return (the pointer identity). -/
def getRef (r : Registry) (id : String) : Option Nat :=
  lookupA r.symbols id

/-- Go `Registry.Get` (a `nil` result is `none`). -/
def get (r : Registry) (id : String) : Option Symbol :=
  (r.getRef id).map r.read

/-- Go `Registry.ByKind`, as heap addresses. -/
def byKindRefs (r : Registry) (k : String) : List Nat :=
  (lookupA r.byKind k).getD []

/-- Go `Registry.ByFile`, as heap addresses. -/
def byFileRefs (r : Registry) (path : String) : List Nat :=
  (lookupA r.byFile path).getD []

/-- The set of addresses `Registry.All` returns, in the order the `symbols`
map entries were created.  Go iterates the map in arbitrary order; theorems
about order sensitivity quantify over permutations of this list. -/
def allRefs (r : Registry) : List Nat :=
  r.symbols.map Prod.snd

/-- The symbol records `Registry.All` returns, in canonical order. -/
def allSyms (r : Registry) : List Symbol :=
  r.allRefs.map r.read

/-- Go `Registry.Count`: the size of the primary map. -/
def count (r : Registry) : Nat :=
  r.symbols.length

/-- The empty registry (Go `NewRegistry`). -/
def empty : Registry := {}

end Registry

/-- A registry built by a sequence of `Add` calls, the only way the program
ever builds one. -/
def ofSymbols (l : List Symbol) : Registry :=
  l.foldl Registry.add Registry.empty

/-- Well-formedness facts that hold for every registry the program builds:
each primary-map entry points into the heap at a record carrying its key as
`ID`, keys are distinct (it is a map) and the stored addresses are distinct
(each `Add` allocates a fresh record). -/
def Registry.WF (r : Registry) : Prop :=
  (∀ p ∈ r.symbols, p.2 < r.heap.length ∧ (r.read p.2).id = p.1) ∧
    (r.symbols.map Prod.fst).Nodup ∧ (r.symbols.map Prod.snd).Nodup

instance (r : Registry) : Decidable r.WF := by
  unfold Registry.WF; infer_instance

/-! ### Hook ingestion (Go `parser/php_hooks.go`, `registerHook`)

`registerHook` works on a tree-sitter AST node: it extracts the tag with
`extractHookTag`, the surrounding docblock with `findDocComment`, and the
declared parameters from the docblock's `@param` tags.  Tag/docblock
extraction is the out-of-scope per-language extractor, so an ingestion event
carries their results; everything `registerHook` does with them — the
early return on an empty tag, the merge-or-create on `hook:`+tag, and the
shape of the created symbol — is embedded verbatim. -/

/-- The extractor-produced data of one hook call site: the hook type of the
firing function, the enclosing caller's ID, the docblock found at the call
site, the parameters parsed from that docblock, and the call's location. -/
structure HookEvent where
  hookType : String := ""
  callerID : String := ""
  doc : DocBlock := {}
  params : List Param := []
  loc : SourceLocation := {}
deriving DecidableEq

/-- Go `registerHook`, after tag/doc extraction: an empty tag returns
without registering; a known tag appends the caller to the existing
symbol's `CallSites`; an unseen tag adds a fresh Hook symbol whose doc,
params and first call site come from this event. -/
def registerHook (tag : String) (e : HookEvent) (r : Registry) : Registry :=
  if tag = "" then r
  else
    let hookID := "hook:" ++ tag
    match r.getRef hookID with
    | some i =>
      let existing := r.read i
      r.setRef i { existing with callSites := existing.callSites ++ [e.callerID] }
    | none =>
      r.add
        { id := hookID
          name := tag
          kind := KindHook
          language := "php"
          hookType := e.hookType
          hookTag := tag
          doc := e.doc
          params := e.params
          callSites := [e.callerID]
          location := e.loc }

/-! ### File ingestion (Go `parser/parser.go`, `ParseFiles`)

`ParseFiles` fills a jobs channel with every file and closes it, then
starts `p.workers` goroutines; each worker drains the channel and, for
every file that fails to parse, sends the error into
`errCh := make(chan error, p.workers)`.  `parseFile`'s failure points
(`os.ReadFile`, `detectLanguage`, `ParseCtx`) all precede symbol
extraction, so each file's outcome is either an error with no symbols or a
list of extracted symbols; `outcome` carries that per-file result.  Nothing
receives from `errCh` before `wg.Wait()` returns, i.e. before every worker
has left its loop: a worker whose error send finds the buffer full
therefore blocks forever, and `wg.Wait()` — and with it `ParseFiles` —
never returns.  The model keeps that channel discipline exactly: the
buffer has capacity `p.workers`, and a blocked worker is absorbing because
the only receives in the code run strictly after all workers are done. -/

/-- What a worker goroutine of `ParseFiles` is doing: still in its
`for file := range ch` loop, blocked on a send to a full `errCh`, or
finished (`wg.Done` ran). -/
inductive WStatus where
  | running
  | blocked
  | done
deriving DecidableEq

/-- The state of a `ParseFiles` worker-pool run: the jobs channel's
remaining content, `errCh`'s buffer contents, its capacity (`p.workers`),
the shared registry, and one status per worker goroutine. -/
structure PFState where
  jobs : List String
  buf : List String
  cap : Nat
  reg : Registry
  ws : List WStatus
deriving DecidableEq

/-- One scheduler step: the chosen worker, if it is in its `range ch`
loop, pulls the next file — leaving the loop (`wg.Done`) when the channel
is exhausted, adding the extracted symbols on a successful parse, and on a
failure sending `fmt.Errorf("%s: %w", file, err)` to `errCh`: into the
buffer if there is room, else blocking for good, since no receive can
happen until every worker is done.  Scheduling a finished, blocked or
nonexistent worker changes nothing. -/
def pstep (outcome : String → Except String (List Symbol))
    (s : PFState) (i : Nat) : PFState :=
  if s.ws.getD i WStatus.done = WStatus.running then
    match s.jobs with
    | [] => { s with ws := s.ws.set i WStatus.done }
    | f :: rest =>
      match outcome f with
      | .ok syms =>
        { s with jobs := rest, reg := syms.foldl Registry.add s.reg }
      | .error e =>
        if s.buf.length < s.cap then
          { s with jobs := rest, buf := s.buf ++ [f ++ ": " ++ e] }
        else { s with jobs := rest, ws := s.ws.set i WStatus.blocked }
  else s

/-- A run of the worker pool under an explicit schedule (the Go scheduler's
choices). -/
def prun (outcome : String → Except String (List Symbol))
    (s : PFState) (sched : List Nat) : PFState :=
  sched.foldl (pstep outcome) s

/-- `wg.Wait()` has returned: every worker goroutine is done.  Only then
does `ParseFiles` drain `errCh`, log, and return `nil`. -/
def pfCompleted (s : PFState) : Bool :=
  s.ws.all (fun w => w = WStatus.done)

/-- The state `ParseFiles` sets up before the workers start: every file in
the closed jobs channel, an empty error buffer of capacity `p.workers`,
and `p.workers` workers in their loops. -/
def ParseFilesInit (workers : Nat) (files : List String) (r : Registry) :
    PFState :=
  { jobs := files, buf := [], cap := workers, reg := r
    ws := List.replicate workers WStatus.running }

/-- `ParseFiles` returns (necessarily with `nil`) precisely when some
schedule drives every worker to `done`. -/
def ParseFilesReturns (outcome : String → Except String (List Symbol))
    (workers : Nat) (files : List String) (r : Registry) : Prop :=
  ∃ sched : List Nat,
    pfCompleted (prun outcome (ParseFilesInit workers files r) sched) = true

/-! ### Resolver (Go `resolver/resolver.go`) -/

/-- Go `resolver.Stats`. -/
structure Stats where
  resolved : Nat := 0
  unresolved : Nat := 0
  inheritance : Nat := 0
  hookBindings : Nat := 0
deriving DecidableEq

/-- The resolver's mutable state: the registry it mutates in place plus its
stats counters. -/
structure RState where
  reg : Registry
  stats : Stats := {}
deriving DecidableEq

/-- Go `appendUnique`: append unless already present. -/
def appendUnique (slice : List String) (val : String) : List String :=
  if val ∈ slice then slice else slice ++ [val]

/-- The short name used by `findSymbol`'s third strategy: the substring
after the last occurrence of a backslash, slash or colon
(Go `strings.LastIndexAny(name, "\x5c/:")`). -/
def shortNameOf (name : String) : String :=
  (name.toList.foldl
    (fun acc c => if c = '\\' ∨ c = '/' ∨ c = ':' then [] else acc ++ [c]) []).asString

/-- Go `strings.ReplaceAll(name, "/", "\x5c")`: with a one-character
pattern, replacing every occurrence is a character map. -/
def slashToBackslash (s : String) : String :=
  (s.toList.map (fun c => if c = '/' then '\\' else c)).asString

/-- Go `Resolver.findSymbol`: direct ID lookup, then the same string with
`/` replaced by `\`, then a scan of all symbols for a unique short-name
match. -/
def findSymbol (r : Registry) (name : String) : Option Symbol :=
  match r.get name with
  | some s => some s
  | none =>
    match r.get (slashToBackslash name) with
    | some s => some s
    | none =>
      let short := shortNameOf name
      let candidates := r.allRefs.filter (fun i => (r.read i).name = short)
      match candidates with
      | [c] => some (r.read c)
      | _ => none

/-! #### Pass 1: `resolveInheritance` -/

/-- One iteration of the `for i, ext := range sym.Extends` loop body:
resolve entry `j` and, on success, rewrite it to the resolved ID and bump
the counters. -/
def inheritExtStep (i : Nat) (st : RState) (j : Nat) : RState :=
  let sym := st.reg.read i
  match findSymbol st.reg (sym.extends_.getD j "") with
  | some s =>
    { reg := st.reg.setRef i { sym with extends_ := sym.extends_.set j s.id }
      stats := { st.stats with
                  inheritance := st.stats.inheritance + 1
                  resolved := st.stats.resolved + 1 } }
  | none => st

/-- One iteration of the `for i, impl := range sym.Implements` loop body. -/
def inheritImplStep (i : Nat) (st : RState) (j : Nat) : RState :=
  let sym := st.reg.read i
  match findSymbol st.reg (sym.implements_.getD j "") with
  | some s =>
    { reg := st.reg.setRef i { sym with implements_ := sym.implements_.set j s.id }
      stats := { st.stats with
                  inheritance := st.stats.inheritance + 1
                  resolved := st.stats.resolved + 1 } }
  | none => st

/-- The body of `resolveInheritance`'s outer loop for one symbol. -/
def inheritStep (st : RState) (i : Nat) : RState :=
  let sym := st.reg.read i
  if sym.kind = KindClass ∨ sym.kind = KindInterface then
    let st1 := (List.range sym.extends_.length).foldl (inheritExtStep i) st
    let sym1 := st1.reg.read i
    (List.range sym1.implements_.length).foldl (inheritImplStep i) st1
  else st

/-- Go `resolveInheritance`, with the `All()` enumeration order explicit. -/
def resolveInheritance (order : List Nat) (st : RState) : RState :=
  order.foldl inheritStep st

/-! #### Pass 2: `resolveHookBindings` -/

/-- The temporary `hooksByTag` map: built from `ByKind(KindHook)` in slice
order, later entries overwriting earlier ones with the same tag.  Values are
heap addresses (the Go map stores `*Symbol`). -/
def hooksByTag (r : Registry) : List (String × Nat) :=
  (r.byKindRefs KindHook).foldl (fun m h => setA m (r.read h).hookTag h) []

/-- The body of the `for _, hookID := range sym.Uses` loop: on a tag match,
append the caller's ID to the hook's `UsedBy` (deduplicated) and bump the
counters. -/
def hookUseStep (tags : List (String × Nat)) (symId : String)
    (st : RState) (use : String) : RState :=
  match lookupA tags use with
  | some href =>
    let hook := st.reg.read href
    { reg := st.reg.setRef href { hook with usedBy := appendUnique hook.usedBy symId }
      stats := { st.stats with
                  hookBindings := st.stats.hookBindings + 1
                  resolved := st.stats.resolved + 1 } }
  | none => st

/-- The body of `resolveHookBindings`'s outer loop for one symbol. -/
def hookStep (tags : List (String × Nat)) (st : RState) (i : Nat) : RState :=
  let sym := st.reg.read i
  if sym.kind = KindFunction ∨ sym.kind = KindMethod then
    sym.uses.foldl (hookUseStep tags sym.id) st
  else st

/-- Go `resolveHookBindings`, with the `All()` enumeration order explicit. -/
def resolveHookBindings (order : List Nat) (st : RState) : RState :=
  let tags := hooksByTag st.reg
  order.foldl (hookStep tags) st

/-! #### Pass 3: `resolveSeeReferences` -/

/-- A character Go `strings.TrimSpace` removes (`unicode.IsSpace`; the
sources contain only ASCII/Latin-1 space characters). -/
def isSpaceChar (c : Char) : Bool :=
  c = ' ' ∨ c = '\t' ∨ c = '\n' ∨ c = '\r' ∨ c = '\x0b' ∨ c = '\x0c' ∨
    c.val = 0x85 ∨ c.val = 0xa0

/-- Go `strings.TrimSpace`: drop whitespace from both ends. -/
def trimSpace (s : String) : String :=
  ((s.toList.dropWhile isSpaceChar).reverse.dropWhile isSpaceChar).reverse.asString

/-- Go `strings.TrimSuffix(ref, "()")`: strip one trailing `()` if
present. -/
def stripCallSuffix (s : String) : String :=
  match s.toList.reverse with
  | ')' :: '(' :: rest => rest.reverse.asString
  | _ => s

/-- The body of the `for i, ref := range sym.Doc.SeeAlso` loop: trim the
reference, skip it when empty, strip a trailing `()`, and either rewrite it
to the resolved ID or leave it and count it unresolved. -/
def seeStep (i : Nat) (st : RState) (j : Nat) : RState :=
  let sym := st.reg.read i
  let ref := trimSpace (sym.doc.seeAlso.getD j "")
  if ref = "" then st
  else
    let cleanRef := stripCallSuffix ref
    match findSymbol st.reg cleanRef with
    | some s =>
      { reg := st.reg.setRef i
          { sym with doc := { sym.doc with seeAlso := sym.doc.seeAlso.set j s.id } }
        stats := { st.stats with resolved := st.stats.resolved + 1 } }
    | none => { st with stats := { st.stats with unresolved := st.stats.unresolved + 1 } }

/-- The body of `resolveSeeReferences`'s outer loop for one symbol. -/
def seeSymStep (st : RState) (i : Nat) : RState :=
  let sym := st.reg.read i
  (List.range sym.doc.seeAlso.length).foldl (seeStep i) st

/-- Go `resolveSeeReferences`, with the `All()` enumeration order explicit. -/
def resolveSeeReferences (order : List Nat) (st : RState) : RState :=
  order.foldl seeSymStep st

/-! #### Pass 4: `resolveMethodOverrides` -/

/-- The `for _, extID := range parent.Extends` loop: skip superclasses that
were never ingested, and on the first superclass owning
`<superclassID>::<methodName>`, set `Overrides` on the method, add the
method's ID to the parent method's `UsedBy`, and stop. -/
def overrideExtLoop (i : Nat) (symName symId : String) :
    RState → List String → RState
  | st, [] => st
  | st, extID :: rest =>
    match st.reg.getRef extID with
    | none => overrideExtLoop i symName symId st rest
    | some _ =>
      let parentMethodID := extID ++ "::" ++ symName
      match st.reg.getRef parentMethodID with
      | some pref =>
        let pm := st.reg.read pref
        let st1 : RState :=
          { reg := st.reg.setRef i { st.reg.read i with overrides := pm.id }
            stats := { st.stats with resolved := st.stats.resolved + 1 } }
        let pm1 := st1.reg.read pref
        { st1 with
            reg := st1.reg.setRef pref { pm1 with usedBy := appendUnique pm1.usedBy symId } }
      | none => overrideExtLoop i symName symId st rest

/-- The body of `resolveMethodOverrides`'s outer loop for one symbol: skip
non-methods, methods without an owner, and methods whose owner was never
ingested. -/
def overrideStep (st : RState) (i : Nat) : RState :=
  let sym := st.reg.read i
  if sym.kind = KindMethod ∧ sym.parentID ≠ "" then
    match st.reg.get sym.parentID with
    | none => st
    | some parent => overrideExtLoop i sym.name sym.id st parent.extends_
  else st

/-- Go `resolveMethodOverrides`, with the `All()` enumeration order
explicit. -/
def resolveMethodOverrides (order : List Nat) (st : RState) : RState :=
  order.foldl overrideStep st

/-- Go `Resolver.ResolveAll`: the four passes in their fixed order.  Each
pass calls `All()` afresh, so each receives its own enumeration order. -/
def ResolveAll (o1 o2 o3 o4 : List Nat) (st : RState) : RState :=
  resolveMethodOverrides o4
    (resolveSeeReferences o3 (resolveHookBindings o2 (resolveInheritance o1 st)))

/-! ## Association-list lemmas -/

theorem lookupA_setA_self {α : Type} (l : List (String × α)) (k : String) (v : α) :
    lookupA (setA l k v) k = some v := by
  induction l with
  | nil => simp [setA, lookupA]
  | cons p rest ih =>
    by_cases h : p.1 = k
    · simp [setA, h, lookupA]
    · simp [setA, h, lookupA, ih]

theorem lookupA_setA_ne {α : Type} (l : List (String × α)) {k k2 : String} (v : α)
    (h : k ≠ k2) : lookupA (setA l k v) k2 = lookupA l k2 := by
  induction l with
  | nil => simp [setA, lookupA, h]
  | cons p rest ih =>
    by_cases hp : p.1 = k
    · subst hp
      simp [setA, lookupA, h]
    · have h2 : k2 ≠ k := Ne.symm h
      by_cases hp2 : p.1 = k2
      · simp [setA, hp, lookupA, hp2, h2]
      · simp [setA, hp, lookupA, hp2, ih]

theorem setA_length_of_mem {α : Type} (l : List (String × α)) (k : String) (v : α)
    (h : (lookupA l k).isSome) : (setA l k v).length = l.length := by
  induction l with
  | nil => simp [lookupA] at h
  | cons p rest ih =>
    by_cases hp : p.1 = k
    · simp [setA, hp]
    · simp [lookupA, hp] at h
      simp [setA, hp, ih h]

theorem setA_length_of_not_mem {α : Type} (l : List (String × α)) (k : String) (v : α)
    (h : lookupA l k = none) : (setA l k v).length = l.length + 1 := by
  induction l with
  | nil => simp [setA]
  | cons p rest ih =>
    by_cases hp : p.1 = k
    · simp [lookupA, hp] at h
    · simp [lookupA, hp] at h
      simp [setA, hp, ih h]

theorem lookupA_appendA_self (l : List (String × List Nat)) (k : String) (v : Nat) :
    lookupA (appendA l k v) k = some ((lookupA l k).getD [] ++ [v]) := by
  induction l with
  | nil => simp [appendA, lookupA]
  | cons p rest ih =>
    by_cases hp : p.1 = k
    · simp [appendA, hp, lookupA]
    · simp [appendA, hp, lookupA, ih]

theorem lookupA_appendA_ne (l : List (String × List Nat)) {k k2 : String} (v : Nat)
    (h : k ≠ k2) : lookupA (appendA l k v) k2 = lookupA l k2 := by
  induction l with
  | nil => simp [appendA, lookupA, h]
  | cons p rest ih =>
    by_cases hp : p.1 = k
    · subst hp
      simp [appendA, lookupA, h]
    · have h2 : k2 ≠ k := Ne.symm h
      by_cases hp2 : p.1 = k2
      · simp [appendA, hp, lookupA, hp2, h2]
      · simp [appendA, hp, lookupA, hp2, ih]

/-! ## Registry access lemmas -/

namespace Registry

theorem read_heap (r : Registry) (i : Nat) : r.read i = r.heap.getD i defaultSymbol := rfl

theorem length_setRef (r : Registry) (i : Nat) (s : Symbol) :
    (r.setRef i s).heap.length = r.heap.length := by
  simp [setRef]

theorem read_setRef_self (r : Registry) {i : Nat} (s : Symbol) (h : i < r.heap.length) :
    (r.setRef i s).read i = s := by
  simp [setRef, read, List.getD, List.getElem?_set_self h]

theorem read_setRef_ne (r : Registry) {i j : Nat} (s : Symbol) (h : j ≠ i) :
    (r.setRef i s).read j = r.read j := by
  simp [setRef, read, List.getD, List.getElem?_set_ne (Ne.symm h)]

theorem symbols_setRef (r : Registry) (i : Nat) (s : Symbol) :
    (r.setRef i s).symbols = r.symbols := rfl

theorem byKind_setRef (r : Registry) (i : Nat) (s : Symbol) :
    (r.setRef i s).byKind = r.byKind := rfl

theorem byFile_setRef (r : Registry) (i : Nat) (s : Symbol) :
    (r.setRef i s).byFile = r.byFile := rfl

theorem length_add (r : Registry) (s : Symbol) :
    (r.add s).heap.length = r.heap.length + 1 := by
  simp [add]

theorem read_add_new (r : Registry) (s : Symbol) :
    (r.add s).read r.heap.length = s := by
  simp [add, read, List.getD]

theorem read_add_old (r : Registry) (s : Symbol) {i : Nat} (h : i < r.heap.length) :
    (r.add s).read i = r.read i := by
  simp [add, read, List.getD, List.getElem?_append_left h]

theorem read_oob (r : Registry) {i : Nat} (h : r.heap.length ≤ i) :
    r.read i = defaultSymbol := by
  simp [read, List.getD, List.getElem?_eq_none h]

theorem symbols_add (r : Registry) (s : Symbol) :
    (r.add s).symbols = setA r.symbols s.id r.heap.length := rfl

theorem byKind_add (r : Registry) (s : Symbol) :
    (r.add s).byKind = appendA r.byKind s.kind r.heap.length := rfl

theorem byFile_add (r : Registry) (s : Symbol) :
    (r.add s).byFile = appendA r.byFile s.location.file r.heap.length := rfl

end Registry

/-- **C10.**  Adding two distinct records under one ID: the second `Add`
replaces the first in the primary map (`Get` returns the second record and
`Count` does not grow), but the first record's heap cell stays referenced
from the kind index and the file index, so `ByKind`/`ByFile` still return
it even though no `Get` of its ID can reach it; starting from an empty
registry the kind index is strictly longer than `Count`. -/
theorem C10_duplicate_add_shadowing (r : Registry) (s1 s2 : Symbol)
    (hid : s1.id = s2.id) :
    let r2 := (r.add s1).add s2
    r2.get s1.id = some s2 ∧
    r2.count = (r.add s1).count ∧
    r2.read r.heap.length = s1 ∧
    r.heap.length ∈ r2.byKindRefs s1.kind ∧
    r.heap.length ∈ r2.byFileRefs s1.location.file ∧
    (s1 ≠ s2 → r2.get s1.id ≠ some s1) ∧
    (s1.kind = s2.kind →
      ((Registry.empty.add s1).add s2).count <
        (((Registry.empty.add s1).add s2).byKindRefs s1.kind).length) := by
  intro r2
  have hlen1 : (r.add s1).heap.length = r.heap.length + 1 := r.length_add s1
  have hget : r2.get s1.id = some s2 := by
    have href : r2.getRef s1.id = some (r.add s1).heap.length := by
      show lookupA r2.symbols s1.id = _
      have : r2.symbols = setA (r.add s1).symbols s2.id (r.add s1).heap.length :=
        (r.add s1).symbols_add s2
      rw [this, hid, lookupA_setA_self]
    show (r2.getRef s1.id).map r2.read = some s2
    rw [href]
    exact congrArg some ((r.add s1).read_add_new s2)
  refine ⟨hget, ?_, ?_, ?_, ?_, ?_, ?_⟩
  · show (setA (r.add s1).symbols s2.id (r.add s1).heap.length).length = _
    apply setA_length_of_mem
    have : lookupA (r.add s1).symbols s2.id = some r.heap.length := by
      have : (r.add s1).symbols = setA r.symbols s1.id r.heap.length := r.symbols_add s1
      rw [this, ← hid, lookupA_setA_self]
    rw [this]
    rfl
  · have h1 : (r.add s1).read r.heap.length = s1 := r.read_add_new s1
    have h2 : r2.read r.heap.length = (r.add s1).read r.heap.length := by
      apply (r.add s1).read_add_old
      omega
    rw [h2, h1]
  · show r.heap.length ∈ (lookupA r2.byKind s1.kind).getD []
    have hb2 : r2.byKind = appendA (r.add s1).byKind s2.kind (r.add s1).heap.length :=
      (r.add s1).byKind_add s2
    have hb1 : (r.add s1).byKind = appendA r.byKind s1.kind r.heap.length := r.byKind_add s1
    by_cases hk : s2.kind = s1.kind
    · rw [hk] at hb2
      rw [hb2, lookupA_appendA_self, hb1, lookupA_appendA_self]
      simp
    · rw [hb2, lookupA_appendA_ne ((r.add s1).byKind) _ hk, hb1,
        lookupA_appendA_self]
      simp
  · show r.heap.length ∈ (lookupA r2.byFile s1.location.file).getD []
    have hb2 : r2.byFile =
        appendA (r.add s1).byFile s2.location.file (r.add s1).heap.length :=
      (r.add s1).byFile_add s2
    have hb1 : (r.add s1).byFile = appendA r.byFile s1.location.file r.heap.length :=
      r.byFile_add s1
    by_cases hk : s2.location.file = s1.location.file
    · rw [hk] at hb2
      rw [hb2, lookupA_appendA_self, hb1, lookupA_appendA_self]
      simp
    · rw [hb2, lookupA_appendA_ne ((r.add s1).byFile) _ hk, hb1,
        lookupA_appendA_self]
      simp
  · intro hne hcontra
    rw [hget] at hcontra
    exact hne (Option.some.inj hcontra).symm
  · intro hk
    show (((Registry.empty.add s1).add s2).symbols).length <
      ((lookupA ((Registry.empty.add s1).add s2).byKind s1.kind).getD []).length
    have hsy : ((Registry.empty.add s1).add s2).symbols =
        setA (setA [] s1.id 0) s2.id 1 := rfl
    have hbk : ((Registry.empty.add s1).add s2).byKind =
        appendA (appendA [] s1.kind 0) s2.kind 1 := rfl
    rw [hsy, hbk]
    simp [setA, appendA, hid, ← hk, lookupA]

/-! ## Further association-list lemmas -/

theorem lookupA_none_iff_keys {α : Type} (l : List (String × α)) (k : String) :
    lookupA l k = none ↔ k ∉ l.map Prod.fst := by
  induction l with
  | nil => simp [lookupA]
  | cons p rest ih =>
    by_cases hp : p.1 = k
    · simp [lookupA, hp]
    · simp [lookupA, hp, ih, Ne.symm hp]

theorem setA_of_lookup_none {α : Type} (l : List (String × α)) {k : String} (v : α)
    (h : lookupA l k = none) : setA l k v = l ++ [(k, v)] := by
  induction l with
  | nil => simp [setA]
  | cons p rest ih =>
    by_cases hp : p.1 = k
    · simp [lookupA, hp] at h
    · simp [lookupA, hp] at h
      simp [setA, hp, ih h]

theorem lookupA_append_of_none {α : Type} (l1 l2 : List (String × α)) {k : String}
    (h : lookupA l1 k = none) : lookupA (l1 ++ l2) k = lookupA l2 k := by
  induction l1 with
  | nil => simp
  | cons p rest ih =>
    by_cases hp : p.1 = k
    · simp [lookupA, hp] at h
    · simp [lookupA, hp] at h ⊢
      exact ih h

theorem lookupA_mem {α : Type} (l : List (String × α)) (k : String) (v : α)
    (h : lookupA l k = some v) : (k, v) ∈ l := by
  induction l with
  | nil => simp [lookupA] at h
  | cons p rest ih =>
    by_cases hp : p.1 = k
    · rw [lookupA, if_pos hp] at h
      have hv : v = p.2 := (Option.some.inj h).symm
      rw [hv, ← hp]
      exact List.mem_cons_self _ _
    · rw [lookupA, if_neg hp] at h
      exact List.mem_cons_of_mem _ (ih h)

/-! ## C1: idempotent hook merge -/

/-- The symbol `registerHook` creates for the first call site of a tag. -/
def freshHookSymbol (tag : String) (e : HookEvent) : Symbol :=
  { id := "hook:" ++ tag
    name := tag
    kind := KindHook
    language := "php"
    hookType := e.hookType
    hookTag := tag
    doc := e.doc
    params := e.params
    callSites := [e.callerID]
    location := e.loc }

theorem registerHook_new (t : String) (e : HookEvent) (r : Registry) (ht : t ≠ "")
    (h : r.getRef ("hook:" ++ t) = none) :
    registerHook t e r = r.add (freshHookSymbol t e) := by
  simp only [registerHook, if_neg ht, h, freshHookSymbol]

theorem registerHook_existing (t : String) (e : HookEvent) (r : Registry) (ht : t ≠ "")
    {n : Nat} (h : r.getRef ("hook:" ++ t) = some n) :
    registerHook t e r =
      r.setRef n { r.read n with callSites := (r.read n).callSites ++ [e.callerID] } := by
  simp only [registerHook, if_neg ht, h]

/-- Folding the merge branch over any further events: the registry shape is
unchanged, the hook's call sites accumulate the callers in order, and no
other heap cell moves. -/
theorem registerHook_fold_existing (t : String) (ht : t ≠ "") (evs : List HookEvent) :
    ∀ (r : Registry) (n : Nat), r.getRef ("hook:" ++ t) = some n → n < r.heap.length →
    let r1 := evs.foldl (fun acc e => registerHook t e acc) r
    r1.heap.length = r.heap.length ∧ r1.symbols = r.symbols ∧
      r1.byKind = r.byKind ∧ r1.byFile = r.byFile ∧
      r1.read n = { r.read n with
        callSites := (r.read n).callSites ++ evs.map HookEvent.callerID } ∧
      (∀ j, j ≠ n → r1.read j = r.read j) := by
  induction evs with
  | nil =>
    intro r n _ _
    refine ⟨rfl, rfl, rfl, rfl, ?_, fun _ _ => rfl⟩
    cases hread : r.read n
    simp
    exact hread
  | cons e rest ih =>
    intro r n hget hn
    have hstep : registerHook t e r =
        r.setRef n { r.read n with callSites := (r.read n).callSites ++ [e.callerID] } :=
      registerHook_existing t e r ht hget
    set r2 := r.setRef n { r.read n with callSites := (r.read n).callSites ++ [e.callerID] }
      with hr2
    have hget2 : r2.getRef ("hook:" ++ t) = some n := hget
    have hn2 : n < r2.heap.length := by
      rw [r.length_setRef]; exact hn
    have hread2 : r2.read n = { r.read n with
        callSites := (r.read n).callSites ++ [e.callerID] } :=
      r.read_setRef_self _ hn
    obtain ⟨l1, l2, l3, l4, l5, l6⟩ := ih r2 n hget2 hn2
    simp only [List.foldl_cons, hstep]
    refine ⟨?_, ?_, ?_, ?_, ?_, ?_⟩
    · rw [l1, r.length_setRef]
    · rw [l2]; rfl
    · rw [l3]; rfl
    · rw [l4]; rfl
    · rw [l5, hread2]
      simp
    · intro j hj
      rw [l6 j hj, r.read_setRef_ne _ hj]

/-- One ingestion order: the result of folding `registerHook` over a
non-empty event list for a fresh tag. -/
theorem registerHook_fold_spec (t : String) (ht : t ≠ "") (r0 : Registry)
    (hwf : r0.WF) (hnew : r0.getRef ("hook:" ++ t) = none)
    (evs : List HookEvent) (hne : evs ≠ []) :
    let hookID := "hook:" ++ t
    let r1 := evs.foldl (fun acc e => registerHook t e acc) r0
    ∃ h : Symbol, r1.get hookID = some h ∧
      h = { freshHookSymbol t (evs.head hne) with
              callSites := evs.map HookEvent.callerID } ∧
      (r1.allSyms.filter (fun s => s.id = hookID)).length = 1 ∧
      r1.count = r0.count + 1 := by
  intro hookID r1
  obtain ⟨e1, rest, hevs⟩ := List.exists_cons_of_ne_nil hne
  subst hevs
  have hfirst : registerHook t e1 r0 = r0.add (freshHookSymbol t e1) :=
    registerHook_new t e1 r0 ht hnew
  set ra := r0.add (freshHookSymbol t e1) with hra
  set n := r0.heap.length with hn
  have hgeta : ra.getRef hookID = some n := by
    show lookupA ra.symbols hookID = some n
    have : ra.symbols = r0.symbols ++ [(hookID, n)] := by
      rw [hra, r0.symbols_add]
      exact setA_of_lookup_none r0.symbols _ hnew
    rw [this, lookupA_append_of_none _ _ hnew]
    simp [lookupA]
  have hna : n < ra.heap.length := by
    rw [hra, r0.length_add]; omega
  have hreada : ra.read n = freshHookSymbol t e1 := r0.read_add_new _
  obtain ⟨l1, l2, l3, l4, l5, l6⟩ := registerHook_fold_existing t ht rest ra n hgeta hna
  have hr1 : r1 = rest.foldl (fun acc e => registerHook t e acc) ra := by
    show (e1 :: rest).foldl (fun acc e => registerHook t e acc) r0 = _
    rw [List.foldl_cons, hfirst]
  have hsyms : r1.symbols = r0.symbols ++ [(hookID, n)] := by
    rw [hr1, l2, hra, r0.symbols_add]
    exact setA_of_lookup_none r0.symbols _ hnew
  have hgetref1 : r1.getRef hookID = some n := by
    show lookupA r1.symbols hookID = some n
    rw [hsyms, lookupA_append_of_none _ _ hnew]
    simp [lookupA]
  have hread1 : r1.read n = { freshHookSymbol t e1 with
      callSites := e1.callerID :: rest.map HookEvent.callerID } := by
    rw [hr1, l5, hreada]
    simp [freshHookSymbol]
  refine ⟨r1.read n, ?_, ?_, ?_, ?_⟩
  · show (r1.getRef hookID).map r1.read = some (r1.read n)
    rw [hgetref1]; rfl
  · rw [hread1]
    simp [freshHookSymbol]
  · have hreads : ∀ p ∈ r0.symbols, r1.read p.2 = r0.read p.2 := by
      intro p hp
      have hlt : p.2 < r0.heap.length := (hwf.1 p hp).1
      have hjn : p.2 ≠ n := by omega
      rw [hr1, l6 p.2 hjn, hra, r0.read_add_old _ hlt]
    have hids : ∀ p ∈ r0.symbols, (r1.read p.2).id ≠ hookID := by
      intro p hp
      rw [hreads p hp, (hwf.1 p hp).2]
      intro hcontra
      have : hookID ∈ r0.symbols.map Prod.fst := by
        rw [← hcontra]
        exact List.mem_map_of_mem Prod.fst hp
      exact (lookupA_none_iff_keys r0.symbols hookID).mp hnew this
    show ((r1.allRefs.map r1.read).filter (fun s => s.id = hookID)).length = 1
    have hrefs : r1.allRefs = r0.symbols.map Prod.snd ++ [n] := by
      show r1.symbols.map Prod.snd = _
      rw [hsyms]; simp
    rw [hrefs]
    rw [List.map_append, List.filter_append]
    have hleft : (((r0.symbols.map Prod.snd).map r1.read).filter
        (fun s => s.id = hookID)).length = 0 := by
      rw [List.length_eq_zero, List.filter_eq_nil_iff]
      intro s hs
      rw [List.map_map] at hs
      obtain ⟨p, hp, hps⟩ := List.mem_map.mp hs
      have hni := hids p hp
      simp only [Function.comp] at hps
      rw [hps] at hni
      simpa using hni
    have hright : (([n].map r1.read).filter (fun s => s.id = hookID)).length = 1 := by
      have : (r1.read n).id = hookID := by rw [hread1]; rfl
      simp [this]
    rw [List.length_append, hleft, hright]
  · show r1.symbols.length = r0.symbols.length + 1
    rw [hsyms]; simp

/-- **C1.**  Ingesting one hook tag from `k` distinct call sites, in any
order of ingestion events, yields exactly one Hook symbol under
`hook:`+tag whose `CallSites` are exactly the `k` caller IDs — as a set
independent of the ingestion order and duplicate-free — and whose docblock,
parameters and hook type come from the first call site seen in that
order. -/
theorem C1_hook_merge_idempotent (t : String) (ht : t ≠ "") (r0 : Registry)
    (hwf : r0.WF) (hnew : r0.getRef ("hook:" ++ t) = none)
    (evs1 evs2 : List HookEvent) (hperm : evs1.Perm evs2) (hne1 : evs1 ≠ [])
    (hnd : (evs1.map HookEvent.callerID).Nodup) :
    let hookID := "hook:" ++ t
    let ra := evs1.foldl (fun acc e => registerHook t e acc) r0
    let rb := evs2.foldl (fun acc e => registerHook t e acc) r0
    ∃ ha hb : Symbol, ra.get hookID = some ha ∧ rb.get hookID = some hb ∧
      ha.callSites = evs1.map HookEvent.callerID ∧
      hb.callSites = evs2.map HookEvent.callerID ∧
      ha.callSites.Nodup ∧ hb.callSites.Nodup ∧
      ha.callSites.Perm hb.callSites ∧
      ha.callSites.toFinset = hb.callSites.toFinset ∧
      ha.id = hookID ∧ ha.kind = KindHook ∧ ha.hookTag = t ∧ ha.name = t ∧
      ha.doc = (evs1.head hne1).doc ∧ ha.params = (evs1.head hne1).params ∧
      ha.hookType = (evs1.head hne1).hookType ∧
      (∀ hne2 : evs2 ≠ [], hb.doc = (evs2.head hne2).doc ∧
        hb.params = (evs2.head hne2).params) ∧
      (ra.allSyms.filter (fun s => s.id = hookID)).length = 1 ∧
      (rb.allSyms.filter (fun s => s.id = hookID)).length = 1 ∧
      ra.count = r0.count + 1 ∧ rb.count = r0.count + 1 := by
  intro hookID ra rb
  have hne2 : evs2 ≠ [] := by
    intro hcontra
    rw [hcontra] at hperm
    exact hne1 (List.Perm.eq_nil hperm)
  obtain ⟨ha, hga, hha, hcnta, hcounta⟩ :=
    registerHook_fold_spec t ht r0 hwf hnew evs1 hne1
  obtain ⟨hb, hgb, hhb, hcntb, hcountb⟩ :=
    registerHook_fold_spec t ht r0 hwf hnew evs2 hne2
  have hpermc : (evs1.map HookEvent.callerID).Perm (evs2.map HookEvent.callerID) :=
    hperm.map HookEvent.callerID
  have hcsa : ha.callSites = evs1.map HookEvent.callerID := by rw [hha]
  have hcsb : hb.callSites = evs2.map HookEvent.callerID := by rw [hhb]
  have hnd2 : (evs2.map HookEvent.callerID).Nodup := hpermc.nodup_iff.mp hnd
  refine ⟨ha, hb, hga, hgb, hcsa, hcsb, ?_, ?_, ?_, ?_, ?_, ?_, ?_, ?_, ?_, ?_, ?_,
    ?_, hcnta, hcntb, hcounta, hcountb⟩
  · rw [hcsa]; exact hnd
  · rw [hcsb]; exact hnd2
  · rw [hcsa, hcsb]; exact hpermc
  · rw [hcsa, hcsb]
    apply Finset.ext
    intro a
    simp only [List.mem_toFinset]
    exact hpermc.mem_iff
  · rw [hha]; rfl
  · rw [hha]; rfl
  · rw [hha]; rfl
  · rw [hha]; rfl
  · rw [hha]; rfl
  · rw [hha]; rfl
  · rw [hha]; rfl
  · intro hne2b
    rw [hhb]
    exact ⟨rfl, rfl⟩

/-- Witness for C1: the `init` tag fired from two call sites, ingested in
both orders. -/
theorem C1_witness :
    let e1 : HookEvent := { callerID := "f1", doc := { summary := "first" } }
    let e2 : HookEvent := { callerID := "f2", doc := { summary := "second" } }
    (∃ ha hb : Symbol,
      ((([e1, e2].foldl (fun acc e => registerHook "init" e acc) Registry.empty)).get
        "hook:init" = some ha) ∧
      ((([e2, e1].foldl (fun acc e => registerHook "init" e acc) Registry.empty)).get
        "hook:init" = some hb) ∧
      ha.callSites = ["f1", "f2"] ∧ hb.callSites = ["f2", "f1"] ∧
      ha.callSites.Nodup ∧ hb.callSites.Nodup ∧
      ha.callSites.Perm hb.callSites ∧
      ha.callSites.toFinset = hb.callSites.toFinset ∧
      ha.doc.summary = "first" ∧ hb.doc.summary = "second") := by
  intro e1 e2
  obtain ⟨ha, hb, hga, hgb, hcsa, hcsb, hna, hnb, hp, hf, _, _, _, _, hdoc, _, _,
    hdocb, _, _, _, _⟩ :=
    C1_hook_merge_idempotent "init" (by decide) Registry.empty (by decide) rfl
      [e1, e2] [e2, e1] (List.Perm.swap e2 e1 []) (by decide) (by decide)
  refine ⟨ha, hb, hga, hgb, ?_, ?_, hna, hnb, hp, hf, ?_, ?_⟩
  · rw [hcsa]; rfl
  · rw [hcsb]; rfl
  · rw [hdoc]; rfl
  · rw [(hdocb (by decide)).1]; rfl

/-! ## C2: the name-lookup algorithm -/

theorem two_distinct_mem_two_le_length {α : Type} {l : List α} {a b : α}
    (ha : a ∈ l) (hb : b ∈ l) (hne : a ≠ b) : 2 ≤ l.length := by
  match l with
  | [] => exact absurd ha (List.not_mem_nil a)
  | [x] =>
    rw [List.mem_singleton] at ha hb
    exact absurd (ha.trans hb.symm) hne
  | x :: y :: rest => simp

theorem candidates_map_read (r : Registry) (short : String) :
    (r.allRefs.filter (fun i => (r.read i).name = short)).map r.read =
      r.allSyms.filter (fun s => s.name = short) := by
  show _ = (r.allRefs.map r.read).filter _
  rw [List.filter_map]
  rfl

theorem findSymbol_of_gets_none (r : Registry) (name : String)
    (h1 : r.get name = none) (h2 : r.get (slashToBackslash name) = none) :
    findSymbol r name =
      match r.allRefs.filter (fun i => (r.read i).name = shortNameOf name) with
      | [c] => some (r.read c)
      | _ => none := by
  simp only [findSymbol, h1, h2]

/-- **C2.**  `findSymbol` returns a symbol exactly when one is found by, in
order: exact ID match; the same string with `/` normalized to `\`;
otherwise a short-name scan of all symbols that yields exactly one
candidate.  Zero or several short-name candidates mean failure; in
particular two distinct symbols sharing the short name leave the reference
unresolved. -/
theorem C2_name_lookup_algorithm (r : Registry) (name : String) :
    (∀ s, r.get name = some s → findSymbol r name = some s) ∧
    (r.get name = none → ∀ s, r.get (slashToBackslash name) = some s →
      findSymbol r name = some s) ∧
    (r.get name = none → r.get (slashToBackslash name) = none →
      ((∃ s, findSymbol r name = some s ∧
          r.allSyms.filter (fun x => x.name = shortNameOf name) = [s]) ∨
        (findSymbol r name = none ∧
          (r.allSyms.filter (fun x => x.name = shortNameOf name)).length ≠ 1))) ∧
    (∀ s1 s2, s1 ∈ r.allSyms → s2 ∈ r.allSyms → s1 ≠ s2 →
      s1.name = shortNameOf name → s2.name = shortNameOf name →
      r.get name = none → r.get (slashToBackslash name) = none →
      findSymbol r name = none) := by
  refine ⟨?_, ?_, ?_, ?_⟩
  · intro s hs
    simp only [findSymbol, hs]
  · intro h1 s hs
    simp only [findSymbol, h1, hs]
  · intro h1 h2
    rw [findSymbol_of_gets_none r name h1 h2]
    rcases hc : r.allRefs.filter (fun i => (r.read i).name = shortNameOf name) with
      _ | ⟨c, _ | ⟨d, rest⟩⟩
    · right
      refine ⟨rfl, ?_⟩
      rw [← candidates_map_read, hc]
      simp
    · left
      refine ⟨r.read c, rfl, ?_⟩
      rw [← candidates_map_read, hc]
      rfl
    · right
      refine ⟨rfl, ?_⟩
      rw [← candidates_map_read, hc]
      simp
  · intro s1 s2 hm1 hm2 hne hn1 hn2 h1 h2
    rw [findSymbol_of_gets_none r name h1 h2]
    have hf1 : s1 ∈ r.allSyms.filter (fun x => x.name = shortNameOf name) :=
      List.mem_filter.mpr ⟨hm1, by simp [hn1]⟩
    have hf2 : s2 ∈ r.allSyms.filter (fun x => x.name = shortNameOf name) :=
      List.mem_filter.mpr ⟨hm2, by simp [hn2]⟩
    have hlen : 2 ≤ (r.allSyms.filter (fun x => x.name = shortNameOf name)).length :=
      two_distinct_mem_two_le_length hf1 hf2 hne
    rw [← candidates_map_read] at hlen
    rcases hc : r.allRefs.filter (fun i => (r.read i).name = shortNameOf name) with
      _ | ⟨c, _ | ⟨d, rest⟩⟩
    · rfl
    · rw [hc] at hlen
      simp at hlen
    · rfl

/-- Witness for C2: exact match, separator-normalized match, unique
short-name match, and an ambiguous short name left unresolved. -/
theorem C2_witness :
    let foo : Symbol := { id := "foo", name := "foo", kind := "function" }
    let bar1 : Symbol := { id := "ns\\bar", name := "bar", kind := "function" }
    let bar2 : Symbol := { id := "other\\bar", name := "bar", kind := "function" }
    let r := ofSymbols [foo, bar1, bar2]
    findSymbol r "foo" = some foo ∧
    findSymbol r "ns/bar" = some bar1 ∧
    findSymbol r "x\\bar" = none := by
  intro foo bar1 bar2 r
  have h := C2_name_lookup_algorithm r "x\\bar"
  refine ⟨?_, ?_, ?_⟩
  · exact (C2_name_lookup_algorithm r "foo").1 foo (by decide)
  · exact (C2_name_lookup_algorithm r "ns/bar").2.1 (by decide) bar1 (by decide)
  · exact h.2.2.2 bar1 bar2 (by decide) (by decide) (by decide) (by decide)
      (by decide) (by decide) (by decide)

/-! ## C6: `ParseFiles` failure handling -/

theorem pstep_not_running (outcome : String → Except String (List Symbol))
    (s : PFState) (i : Nat)
    (h : ¬ s.ws.getD i WStatus.done = WStatus.running) :
    pstep outcome s i = s := by
  rw [pstep, if_neg h]

/-- The per-file outcome of the failing input: every file fails to parse. -/
def pfOutc : String → Except String (List Symbol) :=
  fun _ => .error "parse failure"

/-- The failing input's start state: one worker, two failing files. -/
def pfS0 : PFState :=
  ParseFilesInit 1 ["bad1.php", "bad2.php"] Registry.empty

/-- After the worker's first error send: the buffer (capacity 1) is full. -/
def pfS1 : PFState :=
  { jobs := ["bad2.php"], buf := ["bad1.php: parse failure"], cap := 1,
    reg := Registry.empty, ws := [WStatus.running] }

/-- After the second failure: the send finds the buffer full and the only
worker blocks forever. -/
def pfS2 : PFState :=
  { jobs := [], buf := ["bad1.php: parse failure"], cap := 1,
    reg := Registry.empty, ws := [WStatus.blocked] }

/-- Every state the failing input can reach, under any schedule, is one of
the three above — none of which has all workers done. -/
theorem pfReach : ∀ (sc : List Nat) (s : PFState),
    (s = pfS0 ∨ s = pfS1 ∨ s = pfS2) →
    (prun pfOutc s sc = pfS0 ∨ prun pfOutc s sc = pfS1 ∨
      prun pfOutc s sc = pfS2) := by
  intro sc
  induction sc with
  | nil => intro s hs; exact hs
  | cons i rest ih =>
    intro s hs
    have hstep : prun pfOutc s (i :: rest)
        = prun pfOutc (pstep pfOutc s i) rest := Eq.refl _
    rw [hstep]
    apply ih
    rcases hs with h | h | h <;> subst h
    · by_cases hi : i = 0
      · subst hi
        right; left
        decide
      · left
        apply pstep_not_running
        have hget : pfS0.ws.getD i WStatus.done = WStatus.done := by
          match i, hi with
          | n + 1, _ => rfl
        rw [hget]
        decide
    · by_cases hi : i = 0
      · subst hi
        right; right
        decide
      · right; left
        apply pstep_not_running
        have hget : pfS1.ws.getD i WStatus.done = WStatus.done := by
          match i, hi with
          | n + 1, _ => rfl
        rw [hget]
        decide
    · right; right
      apply pstep_not_running
      by_cases hi : i = 0
      · subst hi
        decide
      · have hget : pfS2.ws.getD i WStatus.done = WStatus.done := by
          match i, hi with
          | n + 1, _ => rfl
        rw [hget]
        decide

/-- **C6 (code bug).**  `ParseFiles` does not isolate arbitrarily many
failures: `errCh` has capacity `p.workers` and is received from only after
`wg.Wait()`, so once more files fail than there are workers, an error send
blocks its worker forever and `ParseFiles` never returns — the run does
not finish even though every file was attempted.  With one worker and two
failing files no schedule completes the run, while the same two failures
do complete (errors buffered, pool finishes, `nil` returned) as soon as
the buffer has room for both. -/
theorem C6_parse_files_deadlock :
    (¬ ParseFilesReturns pfOutc 1 ["bad1.php", "bad2.php"] Registry.empty) ∧
    ParseFilesReturns pfOutc 2 ["bad1.php", "bad2.php"] Registry.empty := by
  constructor
  · rintro ⟨sched, hdone⟩
    have hdone2 : pfCompleted (prun pfOutc pfS0 sched) = true := hdone
    rcases pfReach sched pfS0 (Or.inl (Eq.refl _)) with h | h | h <;>
      rw [h] at hdone2 <;> exact absurd hdone2 (by decide)
  · exact ⟨[0, 0, 0, 1], by decide⟩

/-! ## C7: resolution is monotonic

`SymPreserved a b` records what any resolver write may do to one symbol
record: leave every field intact except that `Extends`/`Implements` and the
`@see` list may be rewritten entrywise (same length), `UsedBy` may only be
appended to, and `Overrides` may only be rewritten to a non-empty ID. -/

/-- A symbol with the resolver-owned fields masked out; two records are
"preserved" when they agree after masking. -/
def maskResolved (s : Symbol) : Symbol :=
  { s with extends_ := [], implements_ := [], usedBy := [], overrides := "",
           doc := { s.doc with seeAlso := [] } }

def SymPreserved (a b : Symbol) : Prop :=
  maskResolved b = maskResolved a ∧
  b.extends_.length = a.extends_.length ∧
  b.implements_.length = a.implements_.length ∧
  b.doc.seeAlso.length = a.doc.seeAlso.length ∧
  (∃ t, b.usedBy = a.usedBy ++ t) ∧
  (b.overrides = a.overrides ∨ b.overrides ≠ "")

theorem SymPreserved.srfl (a : Symbol) : SymPreserved a a :=
  ⟨Eq.refl _, Eq.refl _, Eq.refl _, Eq.refl _, ⟨[], by simp⟩, Or.inl (Eq.refl _)⟩

theorem SymPreserved.strans {a b c : Symbol}
    (h1 : SymPreserved a b) (h2 : SymPreserved b c) : SymPreserved a c := by
  obtain ⟨m1, e1, i1, s1, ⟨t1, u1⟩, o1⟩ := h1
  obtain ⟨m2, e2, i2, s2, ⟨t2, u2⟩, o2⟩ := h2
  refine ⟨m2.trans m1, e2.trans e1, i2.trans i1, s2.trans s1,
    ⟨t1 ++ t2, by rw [u2, u1, List.append_assoc]⟩, ?_⟩
  rcases o2 with o2 | o2
  · rw [o2]; exact o1
  · exact Or.inr o2

theorem SymPreserved.id_eq {a b : Symbol} (h : SymPreserved a b) : b.id = a.id := by
  have := congrArg Symbol.id h.1
  simpa [maskResolved] using this

theorem SymPreserved.name_eq {a b : Symbol} (h : SymPreserved a b) :
    b.name = a.name := by
  have := congrArg Symbol.name h.1
  simpa [maskResolved] using this

theorem SymPreserved.kind_eq {a b : Symbol} (h : SymPreserved a b) :
    b.kind = a.kind := by
  have := congrArg Symbol.kind h.1
  simpa [maskResolved] using this

theorem SymPreserved.uses_eq {a b : Symbol} (h : SymPreserved a b) :
    b.uses = a.uses := by
  have := congrArg Symbol.uses h.1
  simpa [maskResolved] using this

theorem SymPreserved.parentID_eq {a b : Symbol} (h : SymPreserved a b) :
    b.parentID = a.parentID := by
  have := congrArg Symbol.parentID h.1
  simpa [maskResolved] using this

theorem SymPreserved.callSites_eq {a b : Symbol} (h : SymPreserved a b) :
    b.callSites = a.callSites := by
  have := congrArg Symbol.callSites h.1
  simpa [maskResolved] using this

theorem SymPreserved.hookTag_eq {a b : Symbol} (h : SymPreserved a b) :
    b.hookTag = a.hookTag := by
  have := congrArg Symbol.hookTag h.1
  simpa [maskResolved] using this

/-- What any resolver pass may do to the registry: the three indices and
the heap size are untouched, and every heap record evolves under
`SymPreserved`. -/
def RegPreserved (r r2 : Registry) : Prop :=
  r2.symbols = r.symbols ∧ r2.byKind = r.byKind ∧ r2.byFile = r.byFile ∧
  r2.heap.length = r.heap.length ∧ ∀ i, SymPreserved (r.read i) (r2.read i)

theorem RegPreserved.rrfl (r : Registry) : RegPreserved r r :=
  ⟨Eq.refl _, Eq.refl _, Eq.refl _, Eq.refl _, fun i => SymPreserved.srfl _⟩

theorem RegPreserved.rtrans {r1 r2 r3 : Registry}
    (h1 : RegPreserved r1 r2) (h2 : RegPreserved r2 r3) : RegPreserved r1 r3 :=
  ⟨h2.1.trans h1.1, h2.2.1.trans h1.2.1, h2.2.2.1.trans h1.2.2.1,
    h2.2.2.2.1.trans h1.2.2.2.1,
    fun i => (h1.2.2.2.2 i).strans (h2.2.2.2.2 i)⟩

theorem RegPreserved.rwf {r r2 : Registry} (h : RegPreserved r r2) (hwf : r.WF) :
    r2.WF := by
  obtain ⟨hs, _, _, hlen, hsym⟩ := h
  refine ⟨?_, ?_, ?_⟩
  · intro p hp
    rw [hs] at hp
    obtain ⟨hlt, hid⟩ := hwf.1 p hp
    exact ⟨by omega, by rw [(hsym p.2).id_eq, hid]⟩
  · rw [hs]; exact hwf.2.1
  · rw [hs]; exact hwf.2.2

theorem RegPreserved.setRef (r : Registry) (i : Nat) (s : Symbol)
    (h : SymPreserved (r.read i) s) : RegPreserved r (r.setRef i s) := by
  refine ⟨Eq.refl _, Eq.refl _, Eq.refl _, r.length_setRef i s, fun j => ?_⟩
  by_cases hj : j = i
  · subst hj
    by_cases hlt : j < r.heap.length
    · rw [r.read_setRef_self s hlt]
      exact h
    · have : (r.setRef j s).read j = r.read j := by
        show (r.heap.set j s).getD j defaultSymbol = r.heap.getD j defaultSymbol
        rw [List.set_eq_of_length_le (by omega)]
      rw [this]
      exact SymPreserved.srfl _
  · rw [r.read_setRef_ne s hj]
    exact SymPreserved.srfl _

/-- Chaining preservation through a fold. -/
theorem foldl_RegPreserved {α : Type} (step : RState → α → RState)
    (h : ∀ st x, st.reg.WF → RegPreserved st.reg (step st x).reg) :
    ∀ (l : List α) (st : RState), st.reg.WF →
      RegPreserved st.reg (l.foldl step st).reg := by
  intro l
  induction l with
  | nil => intro st _; exact RegPreserved.rrfl _
  | cons x rest ih =>
    intro st hwf
    have h1 := h st x hwf
    exact h1.rtrans (ih (step st x) (h1.rwf hwf))

/-- Chaining preservation through a fold, for steps preserving without a
well-formedness side condition. -/
theorem foldl_RegPreservedU {α : Type} (step : RState → α → RState)
    (h : ∀ st x, RegPreserved st.reg (step st x).reg) :
    ∀ (l : List α) (st : RState), RegPreserved st.reg (l.foldl step st).reg := by
  intro l
  induction l with
  | nil => intro st; exact RegPreserved.rrfl _
  | cons x rest ih =>
    intro st
    exact (h st x).rtrans (ih (step st x))

theorem inheritExtStep_preserved (i : Nat) (st : RState) (j : Nat) :
    RegPreserved st.reg (inheritExtStep i st j).reg := by
  simp only [inheritExtStep]
  rcases hfs : findSymbol st.reg ((st.reg.read i).extends_.getD j "") with _ | s
  · exact RegPreserved.rrfl _
  · exact RegPreserved.setRef _ _ _
      ⟨Eq.refl _, by simp, Eq.refl _, Eq.refl _, ⟨[], by simp⟩, Or.inl (Eq.refl _)⟩

theorem inheritImplStep_preserved (i : Nat) (st : RState) (j : Nat) :
    RegPreserved st.reg (inheritImplStep i st j).reg := by
  simp only [inheritImplStep]
  rcases hfs : findSymbol st.reg ((st.reg.read i).implements_.getD j "") with _ | s
  · exact RegPreserved.rrfl _
  · exact RegPreserved.setRef _ _ _
      ⟨Eq.refl _, Eq.refl _, by simp, Eq.refl _, ⟨[], by simp⟩, Or.inl (Eq.refl _)⟩

theorem inheritStep_preserved (st : RState) (i : Nat) :
    RegPreserved st.reg (inheritStep st i).reg := by
  simp only [inheritStep]
  by_cases hc : (st.reg.read i).kind = KindClass ∨ (st.reg.read i).kind = KindInterface
  · rw [if_pos hc]
    exact (foldl_RegPreservedU _ (inheritExtStep_preserved i) _ st).rtrans
      (foldl_RegPreservedU _ (inheritImplStep_preserved i) _ _)
  · rw [if_neg hc]
    exact RegPreserved.rrfl _

theorem resolveInheritance_preserved (order : List Nat) (st : RState) :
    RegPreserved st.reg (resolveInheritance order st).reg :=
  foldl_RegPreservedU inheritStep inheritStep_preserved order st

theorem hookUseStep_preserved (tags : List (String × Nat)) (symId : String)
    (st : RState) (use : String) :
    RegPreserved st.reg (hookUseStep tags symId st use).reg := by
  simp only [hookUseStep]
  rcases hl : lookupA tags use with _ | href
  · exact RegPreserved.rrfl _
  · refine RegPreserved.setRef _ _ _
      ⟨Eq.refl _, Eq.refl _, Eq.refl _, Eq.refl _, ?_, Or.inl (Eq.refl _)⟩
    simp only [appendUnique]
    by_cases hmem : symId ∈ (st.reg.read href).usedBy
    · rw [if_pos hmem]
      exact ⟨[], by simp⟩
    · rw [if_neg hmem]
      exact ⟨[symId], Eq.refl _⟩

theorem hookStep_preserved (tags : List (String × Nat)) (st : RState) (i : Nat) :
    RegPreserved st.reg (hookStep tags st i).reg := by
  simp only [hookStep]
  by_cases hc : (st.reg.read i).kind = KindFunction ∨ (st.reg.read i).kind = KindMethod
  · rw [if_pos hc]
    exact foldl_RegPreservedU _ (hookUseStep_preserved tags (st.reg.read i).id) _ st
  · rw [if_neg hc]
    exact RegPreserved.rrfl _

theorem resolveHookBindings_preserved (order : List Nat) (st : RState) :
    RegPreserved st.reg (resolveHookBindings order st).reg :=
  foldl_RegPreservedU _ (hookStep_preserved (hooksByTag st.reg)) order st

theorem seeStep_preserved (i : Nat) (st : RState) (j : Nat) :
    RegPreserved st.reg (seeStep i st j).reg := by
  simp only [seeStep]
  by_cases he : trimSpace ((st.reg.read i).doc.seeAlso.getD j "") = ""
  · rw [if_pos he]
    exact RegPreserved.rrfl _
  · rw [if_neg he]
    rcases hfs : findSymbol st.reg
        (stripCallSuffix (trimSpace ((st.reg.read i).doc.seeAlso.getD j ""))) with _ | s
    · exact RegPreserved.rrfl _
    · exact RegPreserved.setRef _ _ _
        ⟨Eq.refl _, Eq.refl _, Eq.refl _, by simp, ⟨[], by simp⟩, Or.inl (Eq.refl _)⟩

theorem seeSymStep_preserved (st : RState) (i : Nat) :
    RegPreserved st.reg (seeSymStep st i).reg := by
  simp only [seeSymStep]
  exact foldl_RegPreservedU _ (seeStep_preserved i) _ st

theorem resolveSeeReferences_preserved (order : List Nat) (st : RState) :
    RegPreserved st.reg (resolveSeeReferences order st).reg :=
  foldl_RegPreservedU _ seeSymStep_preserved order st

theorem String.append_colons_ne_empty (a b : String) : a ++ "::" ++ b ≠ "" := by
  intro hcontra
  have : (a ++ "::" ++ b).data = a.data ++ [':', ':'] ++ b.data := by
    simp [String.data_append]
  rw [hcontra] at this
  have hlen := congrArg List.length this
  simp at hlen
  omega

theorem overrideExtLoop_preserved (i : Nat) (symName symId : String) :
    ∀ (exts : List String) (st : RState), st.reg.WF →
      RegPreserved st.reg (overrideExtLoop i symName symId st exts).reg := by
  intro exts
  induction exts with
  | nil => intro st _; exact RegPreserved.rrfl _
  | cons extID rest ih =>
    intro st hwf
    simp only [overrideExtLoop]
    rcases hg1 : st.reg.getRef extID with _ | e
    · exact ih st hwf
    · rcases hg2 : st.reg.getRef (extID ++ "::" ++ symName) with _ | pref
      · exact ih st hwf
      · have hpm : (st.reg.read pref).id = extID ++ "::" ++ symName := by
          have hmem : (extID ++ "::" ++ symName, pref) ∈ st.reg.symbols := by
            have := hg2
            show _
            exact lookupA_mem _ _ _ this
          exact (hwf.1 _ hmem).2
        have h1 : RegPreserved st.reg
            (st.reg.setRef i { st.reg.read i with overrides := (st.reg.read pref).id }) := by
          refine RegPreserved.setRef _ _ _
            ⟨Eq.refl _, Eq.refl _, Eq.refl _, Eq.refl _, ⟨[], by simp⟩, Or.inr ?_⟩
          rw [hpm]
          exact String.append_colons_ne_empty extID symName
        set st1 : RState :=
          { reg := st.reg.setRef i { st.reg.read i with overrides := (st.reg.read pref).id }
            stats := { st.stats with resolved := st.stats.resolved + 1 } } with hst1
        have h2 : RegPreserved st1.reg
            (st1.reg.setRef pref { st1.reg.read pref with
              usedBy := appendUnique (st1.reg.read pref).usedBy symId }) := by
          refine RegPreserved.setRef _ _ _
            ⟨Eq.refl _, Eq.refl _, Eq.refl _, Eq.refl _, ?_, Or.inl (Eq.refl _)⟩
          simp only [appendUnique]
          by_cases hmem : symId ∈ (st1.reg.read pref).usedBy
          · rw [if_pos hmem]; exact ⟨[], by simp⟩
          · rw [if_neg hmem]; exact ⟨[symId], Eq.refl _⟩
        exact h1.rtrans h2

theorem overrideStep_preserved (st : RState) (i : Nat) (hwf : st.reg.WF) :
    RegPreserved st.reg (overrideStep st i).reg := by
  simp only [overrideStep]
  by_cases hc : (st.reg.read i).kind = KindMethod ∧ (st.reg.read i).parentID ≠ ""
  · rw [if_pos hc]
    rcases hp : st.reg.get (st.reg.read i).parentID with _ | parent
    · exact RegPreserved.rrfl _
    · exact overrideExtLoop_preserved i _ _ _ st hwf
  · rw [if_neg hc]
    exact RegPreserved.rrfl _

theorem resolveMethodOverrides_preserved (order : List Nat) (st : RState)
    (hwf : st.reg.WF) :
    RegPreserved st.reg (resolveMethodOverrides order st).reg :=
  foldl_RegPreserved overrideStep (fun st i h => overrideStep_preserved st i h) order st hwf

/-- **C7.**  Resolution is monotonic: no pass of `ResolveAll` shrinks the
registry, removes a symbol, changes an ID, or deletes a resolved field —
the index maps and heap size are untouched by every pass, IDs are
preserved, `Extends`/`Implements`/`@see` lists keep their length,
`UsedBy` only grows, and `Overrides` is only ever rewritten to a non-empty
ID. -/
theorem C7_resolution_monotonic (o1 o2 o3 o4 : List Nat) (st : RState)
    (hwf : st.reg.WF) :
    RegPreserved st.reg (resolveInheritance o1 st).reg ∧
    RegPreserved (resolveInheritance o1 st).reg
      (resolveHookBindings o2 (resolveInheritance o1 st)).reg ∧
    RegPreserved (resolveHookBindings o2 (resolveInheritance o1 st)).reg
      (resolveSeeReferences o3 (resolveHookBindings o2 (resolveInheritance o1 st))).reg ∧
    RegPreserved
      (resolveSeeReferences o3 (resolveHookBindings o2 (resolveInheritance o1 st))).reg
      (ResolveAll o1 o2 o3 o4 st).reg ∧
    RegPreserved st.reg (ResolveAll o1 o2 o3 o4 st).reg ∧
    (ResolveAll o1 o2 o3 o4 st).reg.count = st.reg.count := by
  have h1 := resolveInheritance_preserved o1 st
  have h2 := resolveHookBindings_preserved o2 (resolveInheritance o1 st)
  have h3 := resolveSeeReferences_preserved o3
    (resolveHookBindings o2 (resolveInheritance o1 st))
  have hwf3 : (resolveSeeReferences o3
      (resolveHookBindings o2 (resolveInheritance o1 st))).reg.WF :=
    (((h1.rtrans h2).rtrans h3)).rwf hwf
  have h4 := resolveMethodOverrides_preserved o4
    (resolveSeeReferences o3 (resolveHookBindings o2 (resolveInheritance o1 st))) hwf3
  have hall : RegPreserved st.reg (ResolveAll o1 o2 o3 o4 st).reg :=
    ((h1.rtrans h2).rtrans h3).rtrans h4
  refine ⟨h1, h2, h3, h4, hall, ?_⟩
  show (ResolveAll o1 o2 o3 o4 st).reg.symbols.length = st.reg.symbols.length
  rw [hall.1]

/-- Witness for C7 on a populated registry. -/
theorem C7_witness :
    let base : Symbol := { id := "Base", name := "Base", kind := "class" }
    let child : Symbol := { id := "Child", name := "Child", kind := "class",
                            extends_ := ["Base"] }
    let r := ofSymbols [base, child]
    (ResolveAll r.allRefs r.allRefs r.allRefs r.allRefs { reg := r }).reg.count =
      r.count ∧
    ((ResolveAll r.allRefs r.allRefs r.allRefs r.allRefs { reg := r }).reg.read 1).id =
      "Child" := by
  intro base child r
  have h := C7_resolution_monotonic r.allRefs r.allRefs r.allRefs r.allRefs
    { reg := r } (by decide)
  refine ⟨h.2.2.2.2.2, ?_⟩
  rw [(h.2.2.2.2.1.2.2.2.2 1).id_eq]
  rfl

/-! ## `findSymbol` reads only the primary map, the IDs and the names -/

def IdNameAgree (r r2 : Registry) : Prop :=
  r2.symbols = r.symbols ∧ r2.heap.length = r.heap.length ∧
  ∀ i, (r2.read i).id = (r.read i).id ∧ (r2.read i).name = (r.read i).name

theorem IdNameAgree.inrfl (r : Registry) : IdNameAgree r r :=
  ⟨Eq.refl _, Eq.refl _, fun _ => ⟨Eq.refl _, Eq.refl _⟩⟩

theorem RegPreserved.idName {r r2 : Registry} (h : RegPreserved r r2) :
    IdNameAgree r r2 :=
  ⟨h.1, h.2.2.2.1, fun i => ⟨(h.2.2.2.2 i).id_eq, (h.2.2.2.2 i).name_eq⟩⟩

theorem get_of_lookupA_some (r : Registry) {name : String} {i : Nat}
    (h : lookupA r.symbols name = some i) : r.get name = some (r.read i) := by
  simp [Registry.get, Registry.getRef, h]

theorem get_of_lookupA_none (r : Registry) {name : String}
    (h : lookupA r.symbols name = none) : r.get name = none := by
  simp [Registry.get, Registry.getRef, h]

/-- Two registries agreeing on the primary map and on every record's ID and
name resolve every name to the same symbol ID. -/
theorem findSymbol_congr {r r2 : Registry} (h : IdNameAgree r r2) (name : String) :
    (findSymbol r2 name).map Symbol.id = (findSymbol r name).map Symbol.id := by
  obtain ⟨hs, hlen, hin⟩ := h
  rcases hg1 : lookupA r.symbols name with _ | i
  · rcases hg2 : lookupA r.symbols (slashToBackslash name) with _ | i
    · have e1 : r.get name = none := get_of_lookupA_none r hg1
      have e2 : r2.get name = none := get_of_lookupA_none r2 (by rw [hs]; exact hg1)
      have e3 : r.get (slashToBackslash name) = none := get_of_lookupA_none r hg2
      have e4 : r2.get (slashToBackslash name) = none :=
        get_of_lookupA_none r2 (by rw [hs]; exact hg2)
      have hrefs : r2.allRefs = r.allRefs := by
        show r2.symbols.map Prod.snd = r.symbols.map Prod.snd
        rw [hs]
      have hfilt : r2.allRefs.filter (fun i => (r2.read i).name = shortNameOf name) =
          r.allRefs.filter (fun i => (r.read i).name = shortNameOf name) := by
        rw [hrefs]
        apply List.filter_congr
        intro i _
        simp [(hin i).2]
      simp only [findSymbol, e1, e2, e3, e4, hfilt]
      rcases r.allRefs.filter (fun i => (r.read i).name = shortNameOf name) with
        _ | ⟨c, _ | ⟨d, rest⟩⟩
      · rfl
      · simp [(hin c).1]
      · rfl
    · have e1 : r.get name = none := get_of_lookupA_none r hg1
      have e2 : r2.get name = none := get_of_lookupA_none r2 (by rw [hs]; exact hg1)
      have e3 : r.get (slashToBackslash name) = some (r.read i) :=
        get_of_lookupA_some r hg2
      have e4 : r2.get (slashToBackslash name) = some (r2.read i) :=
        get_of_lookupA_some r2 (by rw [hs]; exact hg2)
      simp only [findSymbol, e1, e2, e3, e4, Option.map_some']
      rw [(hin i).1]
  · have e1 : r.get name = some (r.read i) := get_of_lookupA_some r hg1
    have e2 : r2.get name = some (r2.read i) :=
      get_of_lookupA_some r2 (by rw [hs]; exact hg1)
    simp only [findSymbol, e1, e2, Option.map_some']
    rw [(hin i).1]

/-- The value an `Extends`/`Implements`/`@see` entry is rewritten to:
the resolved symbol's ID on a unique match, the entry itself otherwise. -/
def rewriteName (r0 : Registry) (e : String) : String :=
  match findSymbol r0 e with
  | some s => s.id
  | none => e

theorem rewriteName_eq (r0 : Registry) (e : String) :
    rewriteName r0 e = ((findSymbol r0 e).map Symbol.id).getD e := by
  rw [rewriteName]
  rcases findSymbol r0 e with _ | s <;> rfl

theorem rewriteName_congr {r r2 : Registry} (h : IdNameAgree r r2) (e : String) :
    rewriteName r2 e = rewriteName r e := by
  rw [rewriteName_eq, rewriteName_eq, findSymbol_congr h]

theorem findSymbol_isSome_congr {r r2 : Registry} (h : IdNameAgree r r2) (e : String) :
    (findSymbol r2 e).isSome = (findSymbol r e).isSome := by
  have hmap := findSymbol_congr h e
  rcases h2 : findSymbol r2 e with _ | s <;> rcases h1 : findSymbol r e with _ | t <;>
    rw [h2, h1] at hmap <;> simp_all

/-! ## Pass 1 characterization -/

/-- The per-symbol effect of `resolveInheritance`. -/
def inheritTransform (r0 : Registry) (s : Symbol) : Symbol :=
  if s.kind = KindClass ∨ s.kind = KindInterface then
    { s with extends_ := s.extends_.map (rewriteName r0),
             implements_ := s.implements_.map (rewriteName r0) }
  else s

/-- How many inheritance entries of one symbol the pass resolves. -/
def inheritCount (r0 : Registry) (s : Symbol) : Nat :=
  if s.kind = KindClass ∨ s.kind = KindInterface then
    (s.extends_.filter (fun e => (findSymbol r0 e).isSome)).length +
      (s.implements_.filter (fun e => (findSymbol r0 e).isSome)).length
  else 0

theorem inheritTransform_id (r0 : Registry) (s : Symbol) :
    (inheritTransform r0 s).id = s.id := by
  rw [inheritTransform]
  split <;> rfl

theorem inheritTransform_name (r0 : Registry) (s : Symbol) :
    (inheritTransform r0 s).name = s.name := by
  rw [inheritTransform]
  split <;> rfl

/-- If a heap record has a non-empty `Extends` (or any non-default
content), its address is in bounds. -/
theorem read_inbounds_of_ne_default (r : Registry) {i : Nat}
    (h : r.read i ≠ defaultSymbol) : i < r.heap.length := by
  by_contra hc
  exact h (r.read_oob (by omega))

theorem inheritExt_fold_spec (r0 : Registry) (i : Nat) (st : RState)
    (hagree : IdNameAgree r0 st.reg) (hcur : st.reg.read i = r0.read i) :
    ∀ n : Nat, n ≤ (r0.read i).extends_.length →
    let fin := (List.range n).foldl (inheritExtStep i) st
    fin.reg.read i = { r0.read i with extends_ :=
        (((r0.read i).extends_.take n).map (rewriteName r0) ++
          (r0.read i).extends_.drop n) } ∧
    (∀ j, j ≠ i → fin.reg.read j = st.reg.read j) ∧
    fin.reg.symbols = st.reg.symbols ∧
    fin.reg.heap.length = st.reg.heap.length ∧
    fin.stats.inheritance = st.stats.inheritance +
      (((r0.read i).extends_.take n).filter
        (fun e => (findSymbol r0 e).isSome)).length ∧
    fin.stats.resolved = st.stats.resolved +
      (((r0.read i).extends_.take n).filter
        (fun e => (findSymbol r0 e).isSome)).length ∧
    fin.stats.unresolved = st.stats.unresolved ∧
    fin.stats.hookBindings = st.stats.hookBindings := by
  intro n
  induction n with
  | zero =>
    intro _
    refine ⟨?_, fun _ _ => Eq.refl _, Eq.refl _, Eq.refl _, by simp, by simp,
      Eq.refl _, Eq.refl _⟩
    show st.reg.read i = _
    rw [hcur]
    simp
  | succ n ih =>
    intro hn
    have hn' : n ≤ (r0.read i).extends_.length := by omega
    have hnlt : n < (r0.read i).extends_.length := by omega
    obtain ⟨f1, f2, f3, f4, f5, f6, f7, f8⟩ := ih hn'
    set fin := (List.range n).foldl (inheritExtStep i) st with hfin
    have hstep : (List.range (n + 1)).foldl (inheritExtStep i) st =
        inheritExtStep i fin n := by
      rw [List.range_succ, List.foldl_append, List.foldl_cons, List.foldl_nil]
    have htakelen : (((r0.read i).extends_.take n).map (rewriteName r0)).length = n := by
      simp [List.length_take]
      omega
    have hentry : (fin.reg.read i).extends_.getD n "" =
        (r0.read i).extends_.getD n "" := by
      rw [f1]
      show (((r0.read i).extends_.take n).map (rewriteName r0) ++
        (r0.read i).extends_.drop n).getD n "" = _
      rw [List.getD_eq_getElem?_getD, List.getElem?_append_right (by omega),
        htakelen, Nat.sub_self, List.getD_eq_getElem?_getD]
      rw [List.getElem?_drop]
      rfl
    have hagreef : IdNameAgree r0 fin.reg := by
      refine ⟨f3.trans hagree.1, f4.trans hagree.2.1, fun j => ?_⟩
      by_cases hj : j = i
      · subst hj
        rw [f1]
        exact ⟨rfl, rfl⟩
      · rw [f2 j hj]
        exact hagree.2.2 j
    have hgetelem : (r0.read i).extends_.getD n "" = (r0.read i).extends_[n] := by
      rw [List.getD_eq_getElem?_getD, List.getElem?_eq_getElem hnlt]
      rfl
    have hdrop : (r0.read i).extends_.drop n =
        (r0.read i).extends_[n] :: (r0.read i).extends_.drop (n + 1) :=
      List.drop_eq_getElem_cons hnlt
    have htake : ((r0.read i).extends_.take (n + 1)).map (rewriteName r0) =
        ((r0.read i).extends_.take n).map (rewriteName r0) ++
          [rewriteName r0 ((r0.read i).extends_[n])] := by
      rw [List.take_succ, List.getElem?_eq_getElem hnlt, List.map_append]
      simp
    have hilt : i < fin.reg.heap.length := by
      rw [f4, hagree.2.1]
      apply read_inbounds_of_ne_default
      intro hc
      rw [hc] at hnlt
      simp [defaultSymbol] at hnlt
    have htakefilter : ((r0.read i).extends_.take (n + 1)).filter
        (fun e => (findSymbol r0 e).isSome) =
        (((r0.read i).extends_.take n).filter (fun e => (findSymbol r0 e).isSome)) ++
          ([(r0.read i).extends_[n]].filter (fun e => (findSymbol r0 e).isSome)) := by
      rw [List.take_succ, List.getElem?_eq_getElem hnlt, List.filter_append]
      rfl
    rw [hstep]
    simp only [inheritExtStep]
    rcases hfs : findSymbol fin.reg ((fin.reg.read i).extends_.getD n "") with _ | s
    · -- unresolved: the entry is left as the literal
      have hfs0 : findSymbol r0 ((r0.read i).extends_[n]) = none := by
        have hiso := findSymbol_isSome_congr hagreef ((r0.read i).extends_.getD n "")
        rw [hentry] at hfs
        rw [hfs] at hiso
        rw [hgetelem] at hiso
        rcases hr : findSymbol r0 ((r0.read i).extends_[n]) with _ | u
        · rfl
        · rw [hr] at hiso
          simp at hiso
      refine ⟨?_, f2, f3, f4, ?_, ?_, f7, f8⟩
      · rw [f1]
        congr 1
        rw [htake, hdrop]
        have hrw : rewriteName r0 ((r0.read i).extends_[n]) =
            (r0.read i).extends_[n] := by
          rw [rewriteName, hfs0]
        rw [hrw]
        simp
      · rw [f5]
        congr 1
        rw [htakefilter]
        simp [hfs0]
      · rw [f6]
        congr 1
        rw [htakefilter]
        simp [hfs0]
    · -- resolved: the entry is rewritten to the matched symbol's ID
      have hmap := findSymbol_congr hagreef ((r0.read i).extends_.getD n "")
      rw [hentry] at hfs
      rw [hfs] at hmap
      rw [hgetelem] at hmap
      rcases hr : findSymbol r0 ((r0.read i).extends_[n]) with _ | u
      · rw [hr] at hmap
        simp at hmap
      · rw [hr] at hmap
        simp only [Option.map_some'] at hmap
        have hsid : s.id = u.id := Option.some.inj hmap
        refine ⟨?_, ?_, ?_, ?_, ?_, ?_, ?_, ?_⟩
        · rw [Registry.read_setRef_self _ _ hilt, f1]
          show ({ r0.read i with extends_ :=
            ((((r0.read i).extends_.take n).map (rewriteName r0) ++
              (r0.read i).extends_.drop n).set n s.id) } : Symbol) = _
          congr 1
          rw [hdrop, List.set_append_right _ _ (by omega), htakelen, Nat.sub_self,
            List.set_cons_zero, htake]
          have hrw : rewriteName r0 ((r0.read i).extends_[n]) = u.id := by
            rw [rewriteName, hr]
          rw [hrw, hsid]
          simp
        · intro j hj
          rw [Registry.read_setRef_ne _ _ hj]
          exact f2 j hj
        · exact f3
        · show (fin.reg.setRef i _).heap.length = _
          rw [Registry.length_setRef]
          exact f4
        · show fin.stats.inheritance + 1 = _
          rw [f5, htakefilter]
          simp [hr]
          omega
        · show fin.stats.resolved + 1 = _
          rw [f6, htakefilter]
          simp [hr]
          omega
        · exact f7
        · exact f8

theorem inheritImpl_fold_spec (r0 : Registry) (i : Nat) (E : List String)
    (st : RState) (hagree : IdNameAgree r0 st.reg)
    (hcur : st.reg.read i = { r0.read i with extends_ := E }) :
    ∀ n : Nat, n ≤ (r0.read i).implements_.length →
    let fin := (List.range n).foldl (inheritImplStep i) st
    fin.reg.read i = { r0.read i with extends_ := E, implements_ :=
        (((r0.read i).implements_.take n).map (rewriteName r0) ++
          (r0.read i).implements_.drop n) } ∧
    (∀ j, j ≠ i → fin.reg.read j = st.reg.read j) ∧
    fin.reg.symbols = st.reg.symbols ∧
    fin.reg.heap.length = st.reg.heap.length ∧
    fin.stats.inheritance = st.stats.inheritance +
      (((r0.read i).implements_.take n).filter
        (fun e => (findSymbol r0 e).isSome)).length ∧
    fin.stats.resolved = st.stats.resolved +
      (((r0.read i).implements_.take n).filter
        (fun e => (findSymbol r0 e).isSome)).length ∧
    fin.stats.unresolved = st.stats.unresolved ∧
    fin.stats.hookBindings = st.stats.hookBindings := by
  intro n
  induction n with
  | zero =>
    intro _
    refine ⟨?_, fun _ _ => Eq.refl _, Eq.refl _, Eq.refl _, by simp, by simp,
      Eq.refl _, Eq.refl _⟩
    show st.reg.read i = _
    rw [hcur]
    simp
  | succ n ih =>
    intro hn
    have hn' : n ≤ (r0.read i).implements_.length := by omega
    have hnlt : n < (r0.read i).implements_.length := by omega
    obtain ⟨f1, f2, f3, f4, f5, f6, f7, f8⟩ := ih hn'
    set fin := (List.range n).foldl (inheritImplStep i) st with hfin
    have hstep : (List.range (n + 1)).foldl (inheritImplStep i) st =
        inheritImplStep i fin n := by
      rw [List.range_succ, List.foldl_append, List.foldl_cons, List.foldl_nil]
    have htakelen :
        (((r0.read i).implements_.take n).map (rewriteName r0)).length = n := by
      simp [List.length_take]
      omega
    have hentry : (fin.reg.read i).implements_.getD n "" =
        (r0.read i).implements_.getD n "" := by
      rw [f1]
      show (((r0.read i).implements_.take n).map (rewriteName r0) ++
        (r0.read i).implements_.drop n).getD n "" = _
      rw [List.getD_eq_getElem?_getD, List.getElem?_append_right (by omega),
        htakelen, Nat.sub_self, List.getD_eq_getElem?_getD]
      rw [List.getElem?_drop]
      rfl
    have hagreef : IdNameAgree r0 fin.reg := by
      refine ⟨f3.trans hagree.1, f4.trans hagree.2.1, fun j => ?_⟩
      by_cases hj : j = i
      · subst hj
        rw [f1]
        exact ⟨rfl, rfl⟩
      · rw [f2 j hj]
        exact hagree.2.2 j
    have hgetelem : (r0.read i).implements_.getD n "" = (r0.read i).implements_[n] := by
      rw [List.getD_eq_getElem?_getD, List.getElem?_eq_getElem hnlt]
      rfl
    have hdrop : (r0.read i).implements_.drop n =
        (r0.read i).implements_[n] :: (r0.read i).implements_.drop (n + 1) :=
      List.drop_eq_getElem_cons hnlt
    have htake : ((r0.read i).implements_.take (n + 1)).map (rewriteName r0) =
        ((r0.read i).implements_.take n).map (rewriteName r0) ++
          [rewriteName r0 ((r0.read i).implements_[n])] := by
      rw [List.take_succ, List.getElem?_eq_getElem hnlt, List.map_append]
      simp
    have hilt : i < fin.reg.heap.length := by
      rw [f4, hagree.2.1]
      apply read_inbounds_of_ne_default
      intro hc
      rw [hc] at hnlt
      simp [defaultSymbol] at hnlt
    have htakefilter : ((r0.read i).implements_.take (n + 1)).filter
        (fun e => (findSymbol r0 e).isSome) =
        (((r0.read i).implements_.take n).filter
          (fun e => (findSymbol r0 e).isSome)) ++
          ([(r0.read i).implements_[n]].filter (fun e => (findSymbol r0 e).isSome)) := by
      rw [List.take_succ, List.getElem?_eq_getElem hnlt, List.filter_append]
      rfl
    rw [hstep]
    simp only [inheritImplStep]
    rcases hfs : findSymbol fin.reg ((fin.reg.read i).implements_.getD n "") with _ | s
    · have hfs0 : findSymbol r0 ((r0.read i).implements_[n]) = none := by
        have hiso := findSymbol_isSome_congr hagreef ((r0.read i).implements_.getD n "")
        rw [hentry] at hfs
        rw [hfs] at hiso
        rw [hgetelem] at hiso
        rcases hr : findSymbol r0 ((r0.read i).implements_[n]) with _ | u
        · rfl
        · rw [hr] at hiso
          simp at hiso
      refine ⟨?_, f2, f3, f4, ?_, ?_, f7, f8⟩
      · rw [f1]
        congr 1
        rw [htake, hdrop]
        have hrw : rewriteName r0 ((r0.read i).implements_[n]) =
            (r0.read i).implements_[n] := by
          rw [rewriteName, hfs0]
        rw [hrw]
        simp
      · rw [f5]
        congr 1
        rw [htakefilter]
        simp [hfs0]
      · rw [f6]
        congr 1
        rw [htakefilter]
        simp [hfs0]
    · have hmap := findSymbol_congr hagreef ((r0.read i).implements_.getD n "")
      rw [hentry] at hfs
      rw [hfs] at hmap
      rw [hgetelem] at hmap
      rcases hr : findSymbol r0 ((r0.read i).implements_[n]) with _ | u
      · rw [hr] at hmap
        simp at hmap
      · rw [hr] at hmap
        simp only [Option.map_some'] at hmap
        have hsid : s.id = u.id := Option.some.inj hmap
        refine ⟨?_, ?_, ?_, ?_, ?_, ?_, ?_, ?_⟩
        · rw [Registry.read_setRef_self _ _ hilt, f1]
          show ({ r0.read i with extends_ := E, implements_ :=
            ((((r0.read i).implements_.take n).map (rewriteName r0) ++
              (r0.read i).implements_.drop n).set n s.id) } : Symbol) = _
          congr 1
          rw [hdrop, List.set_append_right _ _ (by omega), htakelen, Nat.sub_self,
            List.set_cons_zero, htake]
          have hrw : rewriteName r0 ((r0.read i).implements_[n]) = u.id := by
            rw [rewriteName, hr]
          rw [hrw, hsid]
          simp
        · intro j hj
          rw [Registry.read_setRef_ne _ _ hj]
          exact f2 j hj
        · exact f3
        · show (fin.reg.setRef i _).heap.length = _
          rw [Registry.length_setRef]
          exact f4
        · show fin.stats.inheritance + 1 = _
          rw [f5, htakefilter]
          simp [hr]
          omega
        · show fin.stats.resolved + 1 = _
          rw [f6, htakefilter]
          simp [hr]
          omega
        · exact f7
        · exact f8

/-- The effect of `resolveInheritance`'s loop body on one symbol: its
`Extends`/`Implements` entries are rewritten by `rewriteName`, nothing else
moves, and the counters grow by the number of resolvable entries. -/
theorem inheritStep_spec (r0 : Registry) (st : RState) (i : Nat)
    (hagree : IdNameAgree r0 st.reg) (hcur : st.reg.read i = r0.read i) :
    (inheritStep st i).reg.read i = inheritTransform r0 (r0.read i) ∧
    (∀ j, j ≠ i → (inheritStep st i).reg.read j = st.reg.read j) ∧
    (inheritStep st i).reg.symbols = st.reg.symbols ∧
    (inheritStep st i).reg.heap.length = st.reg.heap.length ∧
    (inheritStep st i).stats.inheritance =
      st.stats.inheritance + inheritCount r0 (r0.read i) ∧
    (inheritStep st i).stats.resolved =
      st.stats.resolved + inheritCount r0 (r0.read i) ∧
    (inheritStep st i).stats.unresolved = st.stats.unresolved ∧
    (inheritStep st i).stats.hookBindings = st.stats.hookBindings := by
  simp only [inheritStep, hcur]
  by_cases hc : (r0.read i).kind = KindClass ∨ (r0.read i).kind = KindInterface
  · rw [if_pos hc]
    obtain ⟨e1, e2, e3, e4, e5, e6, e7, e8⟩ :=
      inheritExt_fold_spec r0 i st hagree hcur (r0.read i).extends_.length
        (Nat.le_refl _)
    set st1 := (List.range (r0.read i).extends_.length).foldl (inheritExtStep i) st
      with hst1
    have he1 : st1.reg.read i = { r0.read i with extends_ :=
        ((r0.read i).extends_.map (rewriteName r0)) } := by
      rw [e1]
      congr 1
      rw [List.take_length, List.drop_length]
      simp
    have hagree1 : IdNameAgree r0 st1.reg := by
      refine ⟨e3.trans hagree.1, e4.trans hagree.2.1, fun j => ?_⟩
      by_cases hj : j = i
      · subst hj
        rw [he1]
        exact ⟨rfl, rfl⟩
      · rw [e2 j hj]
        exact hagree.2.2 j
    have himpllen : (st1.reg.read i).implements_.length =
        (r0.read i).implements_.length := by
      rw [he1]
    obtain ⟨g1, g2, g3, g4, g5, g6, g7, g8⟩ :=
      inheritImpl_fold_spec r0 i ((r0.read i).extends_.map (rewriteName r0)) st1
        hagree1 he1 (r0.read i).implements_.length (Nat.le_refl _)
    rw [himpllen]
    refine ⟨?_, ?_, g3.trans e3, g4.trans e4, ?_, ?_, g7.trans e7, g8.trans e8⟩
    · rw [g1, inheritTransform, if_pos hc]
      congr 1
      rw [List.take_length, List.drop_length]
      simp
    · intro j hj
      rw [g2 j hj, e2 j hj]
    · rw [g5, e5, inheritCount, if_pos hc]
      rw [List.take_length, List.take_length]
      omega
    · rw [g6, e6, inheritCount, if_pos hc]
      rw [List.take_length, List.take_length]
      omega
  · rw [if_neg hc]
    refine ⟨?_, fun _ _ => Eq.refl _, Eq.refl _, Eq.refl _, ?_, ?_, Eq.refl _,
      Eq.refl _⟩
    · rw [hcur, inheritTransform, if_neg hc]
    · rw [inheritCount, if_neg hc]
      omega
    · rw [inheritCount, if_neg hc]
      omega

/-- The effect of the whole inheritance pass, for any duplicate-free
enumeration order. -/
theorem resolveInheritance_fold (r0 : Registry) :
    ∀ (order : List Nat) (st : RState), order.Nodup →
    IdNameAgree r0 st.reg →
    (∀ i ∈ order, st.reg.read i = r0.read i) →
    (∀ i ∈ order, (resolveInheritance order st).reg.read i =
      inheritTransform r0 (r0.read i)) ∧
    (∀ j, j ∉ order → (resolveInheritance order st).reg.read j = st.reg.read j) ∧
    (resolveInheritance order st).reg.symbols = st.reg.symbols ∧
    (resolveInheritance order st).reg.heap.length = st.reg.heap.length ∧
    (resolveInheritance order st).stats.inheritance = st.stats.inheritance +
      (order.map (fun i => inheritCount r0 (r0.read i))).sum ∧
    (resolveInheritance order st).stats.resolved = st.stats.resolved +
      (order.map (fun i => inheritCount r0 (r0.read i))).sum ∧
    (resolveInheritance order st).stats.unresolved = st.stats.unresolved ∧
    (resolveInheritance order st).stats.hookBindings = st.stats.hookBindings := by
  intro order
  induction order with
  | nil =>
    intro st _ _ _
    exact ⟨fun i hi => absurd hi (List.not_mem_nil i), fun _ _ => Eq.refl _,
      Eq.refl _, Eq.refl _, by simp [resolveInheritance], by simp [resolveInheritance],
      Eq.refl _, Eq.refl _⟩
  | cons i rest ih =>
    intro st hnd hagree hcur
    have hnotin : i ∉ rest := (List.nodup_cons.mp hnd).1
    have hndr : rest.Nodup := (List.nodup_cons.mp hnd).2
    obtain ⟨s1, s2, s3, s4, s5, s6, s7, s8⟩ :=
      inheritStep_spec r0 st i hagree (hcur i (List.mem_cons_self i rest))
    set st1 := inheritStep st i with hst1
    have hagree1 : IdNameAgree r0 st1.reg := by
      refine ⟨s3.trans hagree.1, s4.trans hagree.2.1, fun j => ?_⟩
      by_cases hj : j = i
      · subst hj
        rw [s1]
        exact ⟨inheritTransform_id r0 _, inheritTransform_name r0 _⟩
      · rw [s2 j hj]
        exact hagree.2.2 j
    have hcur1 : ∀ i2 ∈ rest, st1.reg.read i2 = r0.read i2 := by
      intro i2 hi2
      have hne : i2 ≠ i := fun hcontra => hnotin (hcontra ▸ hi2)
      rw [s2 i2 hne]
      exact hcur i2 (List.mem_cons_of_mem i hi2)
    obtain ⟨t1, t2, t3, t4, t5, t6, t7, t8⟩ :=
      ih st1 hndr hagree1 hcur1
    have hfold : resolveInheritance (i :: rest) st = resolveInheritance rest st1 := rfl
    rw [hfold]
    refine ⟨?_, ?_, t3.trans s3, t4.trans s4, ?_, ?_, t7.trans s7, t8.trans s8⟩
    · intro i2 hi2
      rcases List.mem_cons.mp hi2 with hi2 | hi2
      · subst hi2
        rw [t2 i2 hnotin, s1]
      · exact t1 i2 hi2
    · intro j hj
      have hj1 : j ∉ rest := fun hcontra => hj (List.mem_cons_of_mem i hcontra)
      have hj2 : j ≠ i := fun hcontra => hj (hcontra ▸ List.mem_cons_self i rest)
      rw [t2 j hj1, s2 j hj2]
    · rw [t5, s5, List.map_cons, List.sum_cons]
      omega
    · rw [t6, s6, List.map_cons, List.sum_cons]
      omega

/-- **C4.**  In the inheritance pass every `Extends`/`Implements` entry of
every class/interface symbol is rewritten in place to the resolved
symbol's ID exactly when the name-lookup finds a unique match, and every
unmatched entry is left as the original literal; no entry is ever removed
(the lists keep their length), and non-class/interface symbols are
untouched. -/
theorem C4_inheritance_entry_rewrite (st0 : RState) (order : List Nat)
    (hnd : order.Nodup) :
    let r0 := st0.reg
    let fin := resolveInheritance order st0
    (∀ i ∈ order,
      ((r0.read i).kind = KindClass ∨ (r0.read i).kind = KindInterface →
        (fin.reg.read i).extends_ = (r0.read i).extends_.map (rewriteName r0) ∧
        (fin.reg.read i).implements_ =
          (r0.read i).implements_.map (rewriteName r0)) ∧
      (¬((r0.read i).kind = KindClass ∨ (r0.read i).kind = KindInterface) →
        fin.reg.read i = r0.read i) ∧
      (fin.reg.read i).extends_.length = (r0.read i).extends_.length ∧
      (fin.reg.read i).implements_.length = (r0.read i).implements_.length) ∧
    (∀ e, (findSymbol r0 e = none → rewriteName r0 e = e) ∧
      (∀ s, findSymbol r0 e = some s → rewriteName r0 e = s.id)) := by
  intro r0 fin
  obtain ⟨t1, _, _, _, _, _, _, _⟩ :=
    resolveInheritance_fold r0 order st0 hnd (IdNameAgree.inrfl r0)
      (fun _ _ => Eq.refl _)
  refine ⟨?_, ?_⟩
  · intro i hi
    have hread := t1 i hi
    refine ⟨?_, ?_, ?_, ?_⟩
    · intro hc
      rw [hread, inheritTransform, if_pos hc]
      exact ⟨rfl, rfl⟩
    · intro hc
      rw [hread, inheritTransform, if_neg hc]
    · rw [hread, inheritTransform]
      split <;> simp
    · rw [hread, inheritTransform]
      split <;> simp
  · intro e
    constructor
    · intro hn
      rw [rewriteName, hn]
    · intro s hs
      rw [rewriteName, hs]

/-- Witness for C4: scenario D — `class Foo implements Bar` with `Bar`
never ingested keeps the literal `"Bar"`; a resolvable extends entry is
rewritten to the target ID. -/
theorem C4_witness :
    let base : Symbol := { id := "ns\\Base", name := "Base", kind := "class" }
    let foo : Symbol := { id := "Foo", name := "Foo", kind := "class",
                          extends_ := ["Base"], implements_ := ["Bar"] }
    let r := ofSymbols [base, foo]
    ((resolveInheritance r.allRefs { reg := r }).reg.read 1).implements_ = ["Bar"] ∧
    ((resolveInheritance r.allRefs { reg := r }).reg.read 1).extends_ = ["ns\\Base"] := by
  intro base foo r
  have h := C4_inheritance_entry_rewrite { reg := r } r.allRefs (by decide)
  obtain ⟨hboth, -⟩ := (h.1 1 (by decide)).1 (by decide)
  constructor
  · rw [(h.1 1 (by decide)).1 (by decide) |>.2]
    decide
  · rw [hboth]
    decide

/-! ## Pass 3 characterization -/

/-- The effect of `resolveSeeReferences` on one `@see` entry: trim, skip if
empty, strip a trailing `()`, rewrite to the unique target's ID, else keep
the literal. -/
def seeRewrite (r0 : Registry) (e : String) : String :=
  if trimSpace e = "" then e
  else
    match findSymbol r0 (stripCallSuffix (trimSpace e)) with
    | some s => s.id
    | none => e

/-- Whether an entry bumps the `Resolved` counter. -/
def seeHit (r0 : Registry) (e : String) : Bool :=
  decide (trimSpace e ≠ "") &&
    (findSymbol r0 (stripCallSuffix (trimSpace e))).isSome

/-- Whether an entry bumps the `Unresolved` counter (an entry that is empty
after trimming bumps neither). -/
def seeMiss (r0 : Registry) (e : String) : Bool :=
  decide (trimSpace e ≠ "") &&
    !(findSymbol r0 (stripCallSuffix (trimSpace e))).isSome

theorem seeFold_spec (r0 : Registry) (i : Nat) (st : RState)
    (hagree : IdNameAgree r0 st.reg) (hcur : st.reg.read i = r0.read i) :
    ∀ n : Nat, n ≤ (r0.read i).doc.seeAlso.length →
    let fin := (List.range n).foldl (seeStep i) st
    fin.reg.read i = { r0.read i with doc := { (r0.read i).doc with seeAlso :=
        ((((r0.read i).doc.seeAlso.take n).map (seeRewrite r0) ++
          (r0.read i).doc.seeAlso.drop n)) } } ∧
    (∀ j, j ≠ i → fin.reg.read j = st.reg.read j) ∧
    fin.reg.symbols = st.reg.symbols ∧
    fin.reg.heap.length = st.reg.heap.length ∧
    fin.stats.resolved = st.stats.resolved +
      (((r0.read i).doc.seeAlso.take n).filter (seeHit r0)).length ∧
    fin.stats.unresolved = st.stats.unresolved +
      (((r0.read i).doc.seeAlso.take n).filter (seeMiss r0)).length ∧
    fin.stats.inheritance = st.stats.inheritance ∧
    fin.stats.hookBindings = st.stats.hookBindings := by
  intro n
  induction n with
  | zero =>
    intro _
    refine ⟨?_, fun _ _ => Eq.refl _, Eq.refl _, Eq.refl _, by simp, by simp,
      Eq.refl _, Eq.refl _⟩
    show st.reg.read i = _
    rw [hcur]
    simp
  | succ n ih =>
    intro hn
    have hn' : n ≤ (r0.read i).doc.seeAlso.length := by omega
    have hnlt : n < (r0.read i).doc.seeAlso.length := by omega
    obtain ⟨f1, f2, f3, f4, f5, f6, f7, f8⟩ := ih hn'
    set fin := (List.range n).foldl (seeStep i) st with hfin
    have hstep : (List.range (n + 1)).foldl (seeStep i) st = seeStep i fin n := by
      rw [List.range_succ, List.foldl_append, List.foldl_cons, List.foldl_nil]
    have htakelen :
        (((r0.read i).doc.seeAlso.take n).map (seeRewrite r0)).length = n := by
      simp [List.length_take]
      omega
    have hentry : (fin.reg.read i).doc.seeAlso.getD n "" =
        (r0.read i).doc.seeAlso.getD n "" := by
      rw [f1]
      show (((r0.read i).doc.seeAlso.take n).map (seeRewrite r0) ++
        (r0.read i).doc.seeAlso.drop n).getD n "" = _
      rw [List.getD_eq_getElem?_getD, List.getElem?_append_right (by omega),
        htakelen, Nat.sub_self, List.getD_eq_getElem?_getD]
      rw [List.getElem?_drop]
      rfl
    have hagreef : IdNameAgree r0 fin.reg := by
      refine ⟨f3.trans hagree.1, f4.trans hagree.2.1, fun j => ?_⟩
      by_cases hj : j = i
      · subst hj
        rw [f1]
        exact ⟨rfl, rfl⟩
      · rw [f2 j hj]
        exact hagree.2.2 j
    have hgetelem : (r0.read i).doc.seeAlso.getD n "" =
        (r0.read i).doc.seeAlso[n] := by
      rw [List.getD_eq_getElem?_getD, List.getElem?_eq_getElem hnlt]
      rfl
    have hdrop : (r0.read i).doc.seeAlso.drop n =
        (r0.read i).doc.seeAlso[n] :: (r0.read i).doc.seeAlso.drop (n + 1) :=
      List.drop_eq_getElem_cons hnlt
    have htake : ((r0.read i).doc.seeAlso.take (n + 1)).map (seeRewrite r0) =
        ((r0.read i).doc.seeAlso.take n).map (seeRewrite r0) ++
          [seeRewrite r0 ((r0.read i).doc.seeAlso[n])] := by
      rw [List.take_succ, List.getElem?_eq_getElem hnlt, List.map_append]
      simp
    have htakefilterH : ((r0.read i).doc.seeAlso.take (n + 1)).filter (seeHit r0) =
        (((r0.read i).doc.seeAlso.take n).filter (seeHit r0)) ++
          ([(r0.read i).doc.seeAlso[n]].filter (seeHit r0)) := by
      rw [List.take_succ, List.getElem?_eq_getElem hnlt, List.filter_append]
      rfl
    have htakefilterM : ((r0.read i).doc.seeAlso.take (n + 1)).filter (seeMiss r0) =
        (((r0.read i).doc.seeAlso.take n).filter (seeMiss r0)) ++
          ([(r0.read i).doc.seeAlso[n]].filter (seeMiss r0)) := by
      rw [List.take_succ, List.getElem?_eq_getElem hnlt, List.filter_append]
      rfl
    rw [hstep]
    simp only [seeStep, hentry, hgetelem]
    by_cases hemp : trimSpace ((r0.read i).doc.seeAlso[n]) = ""
    · rw [if_pos hemp]
      have hrw : seeRewrite r0 ((r0.read i).doc.seeAlso[n]) =
          (r0.read i).doc.seeAlso[n] := by
        rw [seeRewrite, if_pos hemp]
      refine ⟨?_, f2, f3, f4, ?_, ?_, f7, f8⟩
      · rw [f1]
        congr 2
        rw [htake, hdrop, hrw]
        simp
      · rw [f5, htakefilterH]
        simp [seeHit, hemp]
      · rw [f6, htakefilterM]
        simp [seeMiss, hemp]
    · rw [if_neg hemp]
      rcases hfs : findSymbol fin.reg
          (stripCallSuffix (trimSpace ((r0.read i).doc.seeAlso[n]))) with _ | s
      · have hfs0 : findSymbol r0
            (stripCallSuffix (trimSpace ((r0.read i).doc.seeAlso[n]))) = none := by
          have hiso := findSymbol_isSome_congr hagreef
            (stripCallSuffix (trimSpace ((r0.read i).doc.seeAlso[n])))
          rw [hfs] at hiso
          rcases hr : findSymbol r0
              (stripCallSuffix (trimSpace ((r0.read i).doc.seeAlso[n]))) with _ | u
          · rfl
          · rw [hr] at hiso
            simp at hiso
        refine ⟨?_, f2, f3, f4, ?_, ?_, f7, f8⟩
        · rw [f1]
          congr 2
          rw [htake, hdrop]
          have hrw : seeRewrite r0 ((r0.read i).doc.seeAlso[n]) =
              (r0.read i).doc.seeAlso[n] := by
            rw [seeRewrite, if_neg hemp, hfs0]
          rw [hrw]
          simp
        · rw [f5, htakefilterH]
          simp [seeHit, hfs0]
        · show fin.stats.unresolved + 1 = _
          rw [f6, htakefilterM]
          simp [seeMiss, hemp, hfs0]
          omega
      · have hmap := findSymbol_congr hagreef
          (stripCallSuffix (trimSpace ((r0.read i).doc.seeAlso[n])))
        rw [hfs] at hmap
        rcases hr : findSymbol r0
            (stripCallSuffix (trimSpace ((r0.read i).doc.seeAlso[n]))) with _ | u
        · rw [hr] at hmap
          simp at hmap
        · rw [hr] at hmap
          simp only [Option.map_some'] at hmap
          have hsid : s.id = u.id := Option.some.inj hmap
          have hilt : i < fin.reg.heap.length := by
            rw [f4, hagree.2.1]
            apply read_inbounds_of_ne_default
            intro hc
            rw [hc] at hnlt
            simp [defaultSymbol] at hnlt
          refine ⟨?_, ?_, ?_, ?_, ?_, ?_, ?_, ?_⟩
          · rw [Registry.read_setRef_self _ _ hilt, f1]
            show ({ r0.read i with doc := { (r0.read i).doc with seeAlso :=
              (((((r0.read i).doc.seeAlso.take n).map (seeRewrite r0) ++
                (r0.read i).doc.seeAlso.drop n).set n s.id)) } } : Symbol) = _
            congr 2
            rw [hdrop, List.set_append_right _ _ (by omega), htakelen, Nat.sub_self,
              List.set_cons_zero, htake]
            have hrw : seeRewrite r0 ((r0.read i).doc.seeAlso[n]) = u.id := by
              rw [seeRewrite, if_neg hemp, hr]
            rw [hrw, hsid]
            simp
          · intro j hj
            rw [Registry.read_setRef_ne _ _ hj]
            exact f2 j hj
          · exact f3
          · show (fin.reg.setRef i _).heap.length = _
            rw [Registry.length_setRef]
            exact f4
          · show fin.stats.resolved + 1 = _
            rw [f5, htakefilterH]
            simp [seeHit, hemp, hr]
            omega
          · rw [f6, htakefilterM]
            simp [seeMiss, hr]
          · exact f7
          · exact f8

/-- The per-symbol effect of `resolveSeeReferences`. -/
def seeTransform (r0 : Registry) (s : Symbol) : Symbol :=
  { s with doc := { s.doc with seeAlso := s.doc.seeAlso.map (seeRewrite r0) } }

theorem seeTransform_id (r0 : Registry) (s : Symbol) :
    (seeTransform r0 s).id = s.id := rfl

theorem seeTransform_name (r0 : Registry) (s : Symbol) :
    (seeTransform r0 s).name = s.name := rfl

theorem seeSymStep_spec (r0 : Registry) (st : RState) (i : Nat)
    (hagree : IdNameAgree r0 st.reg) (hcur : st.reg.read i = r0.read i) :
    (seeSymStep st i).reg.read i = seeTransform r0 (r0.read i) ∧
    (∀ j, j ≠ i → (seeSymStep st i).reg.read j = st.reg.read j) ∧
    (seeSymStep st i).reg.symbols = st.reg.symbols ∧
    (seeSymStep st i).reg.heap.length = st.reg.heap.length ∧
    (seeSymStep st i).stats.resolved = st.stats.resolved +
      ((r0.read i).doc.seeAlso.filter (seeHit r0)).length ∧
    (seeSymStep st i).stats.unresolved = st.stats.unresolved +
      ((r0.read i).doc.seeAlso.filter (seeMiss r0)).length ∧
    (seeSymStep st i).stats.inheritance = st.stats.inheritance ∧
    (seeSymStep st i).stats.hookBindings = st.stats.hookBindings := by
  simp only [seeSymStep, hcur]
  obtain ⟨f1, f2, f3, f4, f5, f6, f7, f8⟩ :=
    seeFold_spec r0 i st hagree hcur (r0.read i).doc.seeAlso.length (Nat.le_refl _)
  refine ⟨?_, f2, f3, f4, ?_, ?_, f7, f8⟩
  · rw [f1, seeTransform]
    congr 2
    rw [List.take_length, List.drop_length]
    simp
  · rw [f5, List.take_length]
  · rw [f6, List.take_length]

/-- The effect of the whole `@see` pass, for any duplicate-free enumeration
order. -/
theorem resolveSeeReferences_fold (r0 : Registry) :
    ∀ (order : List Nat) (st : RState), order.Nodup →
    IdNameAgree r0 st.reg →
    (∀ i ∈ order, st.reg.read i = r0.read i) →
    (∀ i ∈ order, (resolveSeeReferences order st).reg.read i =
      seeTransform r0 (r0.read i)) ∧
    (∀ j, j ∉ order → (resolveSeeReferences order st).reg.read j = st.reg.read j) ∧
    (resolveSeeReferences order st).reg.symbols = st.reg.symbols ∧
    (resolveSeeReferences order st).reg.heap.length = st.reg.heap.length ∧
    (resolveSeeReferences order st).stats.resolved = st.stats.resolved +
      (order.map (fun i => ((r0.read i).doc.seeAlso.filter (seeHit r0)).length)).sum ∧
    (resolveSeeReferences order st).stats.unresolved = st.stats.unresolved +
      (order.map (fun i => ((r0.read i).doc.seeAlso.filter (seeMiss r0)).length)).sum ∧
    (resolveSeeReferences order st).stats.inheritance = st.stats.inheritance ∧
    (resolveSeeReferences order st).stats.hookBindings = st.stats.hookBindings := by
  intro order
  induction order with
  | nil =>
    intro st _ _ _
    exact ⟨fun i hi => absurd hi (List.not_mem_nil i), fun _ _ => Eq.refl _,
      Eq.refl _, Eq.refl _, by simp [resolveSeeReferences],
      by simp [resolveSeeReferences], Eq.refl _, Eq.refl _⟩
  | cons i rest ih =>
    intro st hnd hagree hcur
    have hnotin : i ∉ rest := (List.nodup_cons.mp hnd).1
    have hndr : rest.Nodup := (List.nodup_cons.mp hnd).2
    obtain ⟨s1, s2, s3, s4, s5, s6, s7, s8⟩ :=
      seeSymStep_spec r0 st i hagree (hcur i (List.mem_cons_self i rest))
    set st1 := seeSymStep st i with hst1
    have hagree1 : IdNameAgree r0 st1.reg := by
      refine ⟨s3.trans hagree.1, s4.trans hagree.2.1, fun j => ?_⟩
      by_cases hj : j = i
      · subst hj
        rw [s1]
        exact ⟨seeTransform_id r0 _, seeTransform_name r0 _⟩
      · rw [s2 j hj]
        exact hagree.2.2 j
    have hcur1 : ∀ i2 ∈ rest, st1.reg.read i2 = r0.read i2 := by
      intro i2 hi2
      have hne : i2 ≠ i := fun hcontra => hnotin (hcontra ▸ hi2)
      rw [s2 i2 hne]
      exact hcur i2 (List.mem_cons_of_mem i hi2)
    obtain ⟨t1, t2, t3, t4, t5, t6, t7, t8⟩ := ih st1 hndr hagree1 hcur1
    have hfold : resolveSeeReferences (i :: rest) st =
        resolveSeeReferences rest st1 := rfl
    rw [hfold]
    refine ⟨?_, ?_, t3.trans s3, t4.trans s4, ?_, ?_, t7.trans s7, t8.trans s8⟩
    · intro i2 hi2
      rcases List.mem_cons.mp hi2 with hi2 | hi2
      · subst hi2
        rw [t2 i2 hnotin, s1]
      · exact t1 i2 hi2
    · intro j hj
      have hj1 : j ∉ rest := fun hcontra => hj (List.mem_cons_of_mem i hcontra)
      have hj2 : j ≠ i := fun hcontra => hj (hcontra ▸ List.mem_cons_self i rest)
      rw [t2 j hj1, s2 j hj2]
    · rw [t5, s5, List.map_cons, List.sum_cons]
      omega
    · rw [t6, s6, List.map_cons, List.sum_cons]
      omega

/-- **C5 (counterexample).**  A whitespace-only `@see` reference: per the
claim it is trimmed, looked up (lookup fails) and must therefore bump the
`Unresolved` counter — but the code skips it before the lookup, so after
the pass the reference failed to resolve yet both counters are still 0. -/
theorem C5_counterexample :
    let w : Symbol := { id := "w", name := "w", kind := "function",
                        doc := { seeAlso := ["  "] } }
    let r := ofSymbols [w]
    let fin := resolveSeeReferences r.allRefs { reg := r }
    (fin.reg.read 0).doc.seeAlso = ["  "] ∧
    findSymbol r (stripCallSuffix (trimSpace "  ")) = none ∧
    fin.stats.unresolved = 0 ∧ fin.stats.resolved = 0 ∧ (0 : Nat) ≠ 1 := by
  intro w r fin
  exact ⟨by decide, by decide, by decide, by decide, by decide⟩

/-- **C5 (amended).**  In the `@see` pass each reference is trimmed, a
trailing `()` is stripped before lookup, a unique match rewrites the entry
in place to the target's ID and bumps `Resolved`, a failed lookup leaves
the literal and bumps `Unresolved` — except that a reference that is empty
after trimming is skipped entirely: left unchanged and counted in neither
counter. -/
theorem C5_see_reference_resolution (st0 : RState) (order : List Nat)
    (hnd : order.Nodup) :
    let r0 := st0.reg
    let fin := resolveSeeReferences order st0
    (∀ i ∈ order, fin.reg.read i = seeTransform r0 (r0.read i) ∧
      (fin.reg.read i).doc.seeAlso = (r0.read i).doc.seeAlso.map (seeRewrite r0)) ∧
    (∀ e, (trimSpace e = "" → seeRewrite r0 e = e ∧ seeHit r0 e = false ∧
        seeMiss r0 e = false) ∧
      (trimSpace e ≠ "" → ∀ s, findSymbol r0 (stripCallSuffix (trimSpace e)) = some s →
        seeRewrite r0 e = s.id ∧ seeHit r0 e = true) ∧
      (trimSpace e ≠ "" → findSymbol r0 (stripCallSuffix (trimSpace e)) = none →
        seeRewrite r0 e = e ∧ seeMiss r0 e = true)) ∧
    (∀ s : String, stripCallSuffix (s ++ "()") = s) ∧
    fin.stats.resolved = st0.stats.resolved +
      (order.map (fun i => ((r0.read i).doc.seeAlso.filter (seeHit r0)).length)).sum ∧
    fin.stats.unresolved = st0.stats.unresolved +
      (order.map (fun i => ((r0.read i).doc.seeAlso.filter (seeMiss r0)).length)).sum := by
  intro r0 fin
  obtain ⟨t1, _, _, _, t5, t6, _, _⟩ :=
    resolveSeeReferences_fold r0 order st0 hnd (IdNameAgree.inrfl r0)
      (fun _ _ => Eq.refl _)
  refine ⟨?_, ?_, ?_, t5, t6⟩
  · intro i hi
    refine ⟨t1 i hi, ?_⟩
    rw [t1 i hi]
    rfl
  · intro e
    refine ⟨?_, ?_, ?_⟩
    · intro he
      refine ⟨by rw [seeRewrite, if_pos he], ?_, ?_⟩
      · simp [seeHit, he]
      · simp [seeMiss, he]
    · intro he s hs
      refine ⟨by rw [seeRewrite, if_neg he, hs], ?_⟩
      simp [seeHit, he, hs]
    · intro he hn
      refine ⟨by rw [seeRewrite, if_neg he, hn], ?_⟩
      simp [seeMiss, he, hn]
  · intro s
    rw [stripCallSuffix]
    have hdata : (s ++ "()").toList = s.toList ++ ['(', ')'] := rfl
    rw [hdata, List.reverse_append]
    simp
    rfl

/-- Witness for the amended C5: scenario C — `@see some_function()` with a
unique target is rewritten to the target's ID and counted resolved; with an
ambiguous target it stays literal and is counted unresolved. -/
theorem C5_witness :
    let fn : Symbol := { id := "some_function", name := "some_function",
                         kind := "function" }
    let d : Symbol := { id := "d", name := "d", kind := "function",
                        doc := { seeAlso := [" some_function() "] } }
    let r := ofSymbols [fn, d]
    let fin := resolveSeeReferences r.allRefs { reg := r }
    (fin.reg.read 1).doc.seeAlso = ["some_function"] ∧
    fin.stats.resolved = 1 ∧ fin.stats.unresolved = 0 := by
  intro fn d r fin
  obtain ⟨t1, _, _, t5, t6⟩ :=
    C5_see_reference_resolution { reg := r } r.allRefs (by decide)
  refine ⟨?_, ?_, ?_⟩
  · rw [(t1 1 (by decide)).2]
    decide
  · rw [t5]
    decide
  · rw [t6]
    decide

/-! ## Pass 4 characterization -/

/-- A record with its pass-4-owned fields replaced. -/
def withOv (s : Symbol) (ov : String) (ub : List String) : Symbol :=
  { s with overrides := ov, usedBy := ub }

/-- Agreement up to the two fields pass 4 writes: two registries share the
primary map and every record except possibly `Overrides` and `UsedBy`. -/
def OvAgree (r0 r2 : Registry) : Prop :=
  r2.symbols = r0.symbols ∧ r2.heap.length = r0.heap.length ∧
  ∀ j, r2.read j = withOv (r0.read j) (r2.read j).overrides (r2.read j).usedBy

theorem OvAgree.ovrfl (r : Registry) : OvAgree r r := by
  refine ⟨Eq.refl _, Eq.refl _, fun j => ?_⟩
  cases h : r.read j
  simp [withOv]

theorem OvAgree.ovwf {r0 r2 : Registry} (h : OvAgree r0 r2) (hwf : r0.WF) : r2.WF := by
  obtain ⟨hs, hlen, hread⟩ := h
  refine ⟨?_, ?_, ?_⟩
  · intro p hp
    rw [hs] at hp
    obtain ⟨hlt, hid⟩ := hwf.1 p hp
    refine ⟨by omega, ?_⟩
    rw [hread p.2]
    exact hid
  · rw [hs]; exact hwf.2.1
  · rw [hs]; exact hwf.2.2

theorem OvAgree.ovIdEq {r0 r2 : Registry} (h : OvAgree r0 r2) (j : Nat) :
    (r2.read j).id = (r0.read j).id := by
  rw [h.2.2 j]
  rfl

/-- The two writes a successful override match performs: `Overrides` on the
method's record, then the method's ID appended (deduplicated) to the parent
method's `UsedBy`. -/
def applyOverride (reg : Registry) (i pref : Nat) (pmID symId : String) : Registry :=
  let reg1 := reg.setRef i { reg.read i with overrides := pmID }
  reg1.setRef pref
    { reg1.read pref with usedBy := appendUnique (reg1.read pref).usedBy symId }

/-- The parent-method ID the loop of `resolveMethodOverrides` settles on:
the first superclass entry that is itself registered and owns
`<superclassID>::<methodName>`. -/
def overrideTarget (r0 : Registry) (exts : List String) (symName : String) :
    Option String :=
  match exts with
  | [] => none
  | extID :: rest =>
    match r0.getRef extID with
    | none => overrideTarget r0 rest symName
    | some _ =>
      match r0.getRef (extID ++ "::" ++ symName) with
      | some _ => some (extID ++ "::" ++ symName)
      | none => overrideTarget r0 rest symName

/-- `overrideTarget` is the first-match search the claim describes. -/
theorem overrideTarget_eq_find (r0 : Registry) (symName : String) :
    ∀ exts : List String,
    overrideTarget r0 exts symName =
      (exts.find? (fun e => (r0.getRef e).isSome &&
        (r0.getRef (e ++ "::" ++ symName)).isSome)).map
        (fun e => e ++ "::" ++ symName) := by
  intro exts
  induction exts with
  | nil => rfl
  | cons extID rest ih =>
    rw [overrideTarget, List.find?_cons]
    rcases h1 : r0.getRef extID with _ | e
    · simp [h1, ih]
    · rcases h2 : r0.getRef (extID ++ "::" ++ symName) with _ | p
      · simp [h1, h2, ih]
      · simp [h1, h2]

/-- What one symbol's pass-4 processing decides, read off the start-of-pass
registry. -/
def overrideDecision (r0 : Registry) (i : Nat) : Option String :=
  let sym := r0.read i
  if sym.kind = KindMethod ∧ sym.parentID ≠ "" then
    match r0.get sym.parentID with
    | some parent => overrideTarget r0 parent.extends_ sym.name
    | none => none
  else none

theorem overrideExtLoop_cases (r0 : Registry) (i : Nat) (symName symId : String)
    (hwf : r0.WF) :
    ∀ (exts : List String) (st : RState), OvAgree r0 st.reg →
    (overrideTarget r0 exts symName = none →
      overrideExtLoop i symName symId st exts = st) ∧
    (∀ pmID, overrideTarget r0 exts symName = some pmID →
      ∀ pref, r0.getRef pmID = some pref →
      overrideExtLoop i symName symId st exts =
        { reg := applyOverride st.reg i pref pmID symId
          stats := { st.stats with resolved := st.stats.resolved + 1 } }) := by
  intro exts
  induction exts with
  | nil =>
    intro st _
    exact ⟨fun _ => rfl, fun pmID h => by rw [overrideTarget] at h; cases h⟩
  | cons extID rest ih =>
    intro st hov
    have hsyms : st.reg.symbols = r0.symbols := hov.1
    have hgr : ∀ k, st.reg.getRef k = r0.getRef k := by
      intro k
      show lookupA st.reg.symbols k = lookupA r0.symbols k
      rw [hsyms]
    constructor
    · intro hnone
      rw [overrideTarget] at hnone
      simp only [overrideExtLoop, hgr]
      rcases h1 : r0.getRef extID with _ | e
      · rw [h1] at hnone
        exact (ih st hov).1 hnone
      · rw [h1] at hnone
        rcases h2 : r0.getRef (extID ++ "::" ++ symName) with _ | p
        · rw [h2] at hnone
          exact (ih st hov).1 hnone
        · rw [h2] at hnone
          cases hnone
    · intro pmID hsome pref hpref
      rw [overrideTarget] at hsome
      simp only [overrideExtLoop, hgr]
      rcases h1 : r0.getRef extID with _ | e
      · rw [h1] at hsome
        exact (ih st hov).2 pmID hsome pref hpref
      · rw [h1] at hsome
        rcases h2 : r0.getRef (extID ++ "::" ++ symName) with _ | p
        · rw [h2] at hsome
          exact (ih st hov).2 pmID hsome pref hpref
        · rw [h2] at hsome
          have hpm : pmID = extID ++ "::" ++ symName := (Option.some.inj hsome).symm
          subst hpm
          rw [hpref] at h2
          have hprefp : p = pref := (Option.some.inj h2).symm
          subst hprefp
          have hpmid : (st.reg.read p).id = extID ++ "::" ++ symName := by
            rw [hov.2.2 p]
            show (r0.read p).id = _
            exact (hwf.1 _ (lookupA_mem _ _ _ hpref)).2
          simp only [applyOverride]
          rw [hpmid]

theorem withOv_kind (s : Symbol) (ov : String) (ub : List String) :
    (withOv s ov ub).kind = s.kind := rfl

theorem withOv_parentID (s : Symbol) (ov : String) (ub : List String) :
    (withOv s ov ub).parentID = s.parentID := rfl

theorem withOv_name (s : Symbol) (ov : String) (ub : List String) :
    (withOv s ov ub).name = s.name := rfl

theorem withOv_id (s : Symbol) (ov : String) (ub : List String) :
    (withOv s ov ub).id = s.id := rfl

theorem withOv_extends (s : Symbol) (ov : String) (ub : List String) :
    (withOv s ov ub).extends_ = s.extends_ := rfl

/-- Field-level reading of `applyOverride`. -/
theorem applyOverride_spec (reg : Registry) (i pref : Nat) (pmID symId : String)
    (hi : i < reg.heap.length) (hp : pref < reg.heap.length) :
    (∀ j, ((applyOverride reg i pref pmID symId).read j).overrides =
      if j = i then pmID else (reg.read j).overrides) ∧
    (∀ j, ((applyOverride reg i pref pmID symId).read j).usedBy =
      if j = pref then appendUnique (reg.read j).usedBy symId
      else (reg.read j).usedBy) ∧
    (∀ j, (applyOverride reg i pref pmID symId).read j =
      withOv (reg.read j) ((applyOverride reg i pref pmID symId).read j).overrides
        ((applyOverride reg i pref pmID symId).read j).usedBy) ∧
    (applyOverride reg i pref pmID symId).symbols = reg.symbols ∧
    (applyOverride reg i pref pmID symId).byKind = reg.byKind ∧
    (applyOverride reg i pref pmID symId).byFile = reg.byFile ∧
    (applyOverride reg i pref pmID symId).heap.length = reg.heap.length := by
  have hlen1 : (reg.setRef i { reg.read i with overrides := pmID }).heap.length =
      reg.heap.length := reg.length_setRef _ _
  set reg1 := reg.setRef i { reg.read i with overrides := pmID } with hreg1
  have hr1read : ∀ j, reg1.read j =
      if j = i then { reg.read j with overrides := pmID } else reg.read j := by
    intro j
    by_cases hj : j = i
    · subst hj
      rw [if_pos (Eq.refl _)]
      exact reg.read_setRef_self _ hi
    · rw [if_neg hj]
      exact reg.read_setRef_ne _ hj
  have hp1 : pref < reg1.heap.length := by omega
  have hfinal : ∀ j, (applyOverride reg i pref pmID symId).read j =
      if j = pref then { reg1.read j with
        usedBy := appendUnique (reg1.read pref).usedBy symId } else reg1.read j := by
    intro j
    by_cases hj : j = pref
    · subst hj
      rw [if_pos (Eq.refl _)]
      exact reg1.read_setRef_self _ hp1
    · rw [if_neg hj]
      exact reg1.read_setRef_ne _ hj
  have hMain : ∀ j, (applyOverride reg i pref pmID symId).read j =
      withOv (reg.read j) (if j = i then pmID else (reg.read j).overrides)
        (if j = pref then appendUnique (reg.read j).usedBy symId
          else (reg.read j).usedBy) := by
    intro j
    by_cases hj : j = pref
    · subst hj
      by_cases hji : j = i
      · subst hji
        simp [hfinal, hr1read, withOv]
      · simp [hfinal, hr1read, hji, withOv]
    · by_cases hji : j = i
      · subst hji
        simp [hfinal, hr1read, hj, withOv]
      · simp [hfinal, hr1read, hj, hji, withOv]
  refine ⟨?_, ?_, ?_, Eq.refl _, Eq.refl _, Eq.refl _, by rw [show
    (applyOverride reg i pref pmID symId).heap.length = reg1.heap.length from
      reg1.length_setRef _ _, hlen1]⟩
  · intro j
    rw [hMain j]
    rfl
  · intro j
    rw [hMain j]
    rfl
  · intro j
    rw [hMain j]
    rfl

theorem overrideStep_decision (r0 : Registry) (st : RState) (i : Nat)
    (hwf : r0.WF) (hov : OvAgree r0 st.reg) :
    (overrideDecision r0 i = none → overrideStep st i = st) ∧
    (∀ pmID, overrideDecision r0 i = some pmID →
      ∀ pref, r0.getRef pmID = some pref →
      overrideStep st i = { reg := applyOverride st.reg i pref pmID (r0.read i).id
                            stats := { st.stats with
                              resolved := st.stats.resolved + 1 } }) := by
  have hkind : (st.reg.read i).kind = (r0.read i).kind := by
    rw [hov.2.2 i]; rfl
  have hpid : (st.reg.read i).parentID = (r0.read i).parentID := by
    rw [hov.2.2 i]; rfl
  have hname : (st.reg.read i).name = (r0.read i).name := by
    rw [hov.2.2 i]; rfl
  have hid : (st.reg.read i).id = (r0.read i).id := by
    rw [hov.2.2 i]; rfl
  have hgr : ∀ k, st.reg.getRef k = r0.getRef k := by
    intro k
    show lookupA st.reg.symbols k = lookupA r0.symbols k
    rw [hov.1]
  constructor
  · intro hd
    rw [overrideDecision] at hd
    simp only [overrideStep, hkind, hpid, hname, hid]
    by_cases hc : (r0.read i).kind = KindMethod ∧ (r0.read i).parentID ≠ ""
    · rw [if_pos hc] at hd ⊢
      rcases hp : r0.getRef (r0.read i).parentID with _ | pr
      · have : st.reg.get (r0.read i).parentID = none := by
          show (st.reg.getRef _).map st.reg.read = none
          rw [hgr, hp]
          rfl
        rw [this]
      · have hstget : st.reg.get (r0.read i).parentID = some (st.reg.read pr) := by
          show (st.reg.getRef _).map st.reg.read = _
          rw [hgr, hp]
          rfl
        have hr0get : r0.get (r0.read i).parentID = some (r0.read pr) := by
          show (r0.getRef _).map r0.read = _
          rw [hp]
          rfl
        rw [hr0get] at hd
        have hd2 : overrideTarget r0 (r0.read pr).extends_ (r0.read i).name = none := hd
        rw [hstget]
        have hexts : (st.reg.read pr).extends_ = (r0.read pr).extends_ := by
          rw [hov.2.2 pr]; rfl
        show overrideExtLoop i (r0.read i).name (r0.read i).id st
          (st.reg.read pr).extends_ = _
        rw [hexts]
        exact (overrideExtLoop_cases r0 i (r0.read i).name (r0.read i).id hwf
          (r0.read pr).extends_ st hov).1 hd
    · rw [if_neg hc]
  · intro pmID hd pref hpref
    rw [overrideDecision] at hd
    simp only [overrideStep, hkind, hpid, hname, hid]
    by_cases hc : (r0.read i).kind = KindMethod ∧ (r0.read i).parentID ≠ ""
    · rw [if_pos hc] at hd ⊢
      rcases hp : r0.getRef (r0.read i).parentID with _ | pr
      · rw [show r0.get (r0.read i).parentID = none from by
          show (r0.getRef _).map r0.read = none
          rw [hp]
          rfl] at hd
        cases hd
      · have hstget : st.reg.get (r0.read i).parentID = some (st.reg.read pr) := by
          show (st.reg.getRef _).map st.reg.read = _
          rw [hgr, hp]
          rfl
        have hr0get : r0.get (r0.read i).parentID = some (r0.read pr) := by
          show (r0.getRef _).map r0.read = _
          rw [hp]
          rfl
        rw [hr0get] at hd
        rw [hstget]
        have hexts : (st.reg.read pr).extends_ = (r0.read pr).extends_ := by
          rw [hov.2.2 pr]; rfl
        show overrideExtLoop i (r0.read i).name (r0.read i).id st
          (st.reg.read pr).extends_ = _
        rw [hexts]
        exact (overrideExtLoop_cases r0 i (r0.read i).name (r0.read i).id hwf
          (r0.read pr).extends_ st hov).2 pmID hd pref hpref
    · rw [if_neg hc] at hd
      cases hd

/-- A method record is in bounds whenever its decision guard can pass. -/
theorem decision_inbounds (r0 : Registry) {r2 : Registry} {i : Nat}
    (hov : OvAgree r0 r2) (hk : (r0.read i).kind = KindMethod) :
    i < r2.heap.length := by
  rw [hov.2.1]
  apply read_inbounds_of_ne_default
  intro hc
  rw [hc] at hk
  exact absurd hk (by decide)

/-- The effect of the whole override pass, for any duplicate-free
enumeration order: the decision for each method is read off the
start-of-pass registry, `Overrides` is written accordingly, the method's ID
lands in the matched parent method's `UsedBy`, and nothing else changes. -/
theorem resolveMethodOverrides_fold (r0 : Registry) (hwf : r0.WF) :
    ∀ (order : List Nat) (st : RState), order.Nodup →
    OvAgree r0 st.reg →
    (∀ i ∈ order, (st.reg.read i).overrides = (r0.read i).overrides) →
    OvAgree r0 (resolveMethodOverrides order st).reg ∧
    (∀ i ∈ order, ((resolveMethodOverrides order st).reg.read i).overrides =
      ((overrideDecision r0 i).getD (r0.read i).overrides)) ∧
    (∀ j, j ∉ order → ((resolveMethodOverrides order st).reg.read j).overrides =
      (st.reg.read j).overrides) ∧
    (∀ j x, x ∈ (st.reg.read j).usedBy →
      x ∈ ((resolveMethodOverrides order st).reg.read j).usedBy) ∧
    (∀ i ∈ order, ∀ pmID, overrideDecision r0 i = some pmID →
      ∀ pref, r0.getRef pmID = some pref →
      (r0.read i).id ∈ ((resolveMethodOverrides order st).reg.read pref).usedBy) ∧
    (resolveMethodOverrides order st).stats.resolved = st.stats.resolved +
      (order.map (fun i => if (overrideDecision r0 i).isSome then 1 else 0)).sum ∧
    (resolveMethodOverrides order st).stats.unresolved = st.stats.unresolved ∧
    (resolveMethodOverrides order st).stats.inheritance = st.stats.inheritance ∧
    (resolveMethodOverrides order st).stats.hookBindings = st.stats.hookBindings := by
  intro order
  induction order with
  | nil =>
    intro st _ hov _
    exact ⟨hov, fun i hi => absurd hi (List.not_mem_nil i), fun _ _ => Eq.refl _,
      fun _ _ hx => hx, fun i hi => absurd hi (List.not_mem_nil i),
      by simp [resolveMethodOverrides], Eq.refl _, Eq.refl _, Eq.refl _⟩
  | cons i rest ih =>
    intro st hnd hov hovr
    have hnotin : i ∉ rest := (List.nodup_cons.mp hnd).1
    have hndr : rest.Nodup := (List.nodup_cons.mp hnd).2
    have hfold : resolveMethodOverrides (i :: rest) st =
        resolveMethodOverrides rest (overrideStep st i) := rfl
    have hstep := overrideStep_decision r0 st i hwf hov
    rcases hd : overrideDecision r0 i with _ | pmID
    · -- nothing to do for this symbol
      have heq : overrideStep st i = st := hstep.1 hd
      obtain ⟨t1, t2, t3, t4, t5, t6, t7, t8, t9⟩ :=
        ih st hndr hov (fun i2 hi2 => hovr i2 (List.mem_cons_of_mem i hi2))
      rw [hfold, hstep.1 hd]
      refine ⟨t1, ?_, ?_, t4, ?_, ?_, t7, t8, t9⟩
      · intro i2 hi2
        rcases List.mem_cons.mp hi2 with hi2 | hi2
        · subst hi2
          rw [t3 i2 hnotin, hd]
          exact hovr i2 (List.mem_cons_self _ _)
        · exact t2 i2 hi2
      · intro j hj
        exact t3 j (fun hcontra => hj (List.mem_cons_of_mem i hcontra))
      · intro i2 hi2 pmID2 hd2 pref hpref
        rcases List.mem_cons.mp hi2 with hi2 | hi2
        · subst hi2
          rw [hd] at hd2
          cases hd2
        · exact t5 i2 hi2 pmID2 hd2 pref hpref
      · rw [t6]
        simp [hd]
    · -- a match was found for this symbol
      have hk : (r0.read i).kind = KindMethod := by
        rw [overrideDecision] at hd
        by_cases hc : (r0.read i).kind = KindMethod ∧ (r0.read i).parentID ≠ ""
        · exact hc.1
        · rw [if_neg hc] at hd
          cases hd
      obtain ⟨pref, hpref⟩ : ∃ pref, r0.getRef pmID = some pref := by
        rw [overrideDecision] at hd
        by_cases hc : (r0.read i).kind = KindMethod ∧ (r0.read i).parentID ≠ ""
        · rw [if_pos hc] at hd
          rcases hp : r0.get (r0.read i).parentID with _ | parent
          · rw [hp] at hd
            cases hd
          · rw [hp] at hd
            have hd : overrideTarget r0 parent.extends_ (r0.read i).name =
              some pmID := hd
            rw [overrideTarget_eq_find] at hd
            rcases hf : parent.extends_.find? (fun e => (r0.getRef e).isSome &&
                (r0.getRef (e ++ "::" ++ (r0.read i).name)).isSome) with _ | e
            · rw [hf] at hd
              cases hd
            · rw [hf] at hd
              have hprop := List.find?_some hf
              simp only [Bool.and_eq_true] at hprop
              have hpm : pmID = e ++ "::" ++ (r0.read i).name :=
                (Option.some.inj hd).symm
              subst hpm
              rcases hg : r0.getRef (e ++ "::" ++ (r0.read i).name) with _ | p
              · rw [hg] at hprop
                simp at hprop
              · exact ⟨p, rfl⟩
        · rw [if_neg hc] at hd
          cases hd
      have heq := hstep.2 pmID hd pref hpref
      have hilt : i < st.reg.heap.length := decision_inbounds r0 hov hk
      have hplt : pref < st.reg.heap.length := by
        rw [hov.2.1]
        exact (hwf.1 _ (lookupA_mem _ _ _ hpref)).1
      obtain ⟨a1, a2, a3, a4, _, _, a7⟩ :=
        applyOverride_spec st.reg i pref pmID (r0.read i).id hilt hplt
      set st1 : RState := { reg := applyOverride st.reg i pref pmID (r0.read i).id
                            stats := { st.stats with
                              resolved := st.stats.resolved + 1 } } with hst1
      have hov1 : OvAgree r0 st1.reg := by
        refine ⟨a4.trans hov.1, ?_, fun j => ?_⟩
        · show (applyOverride st.reg i pref pmID (r0.read i).id).heap.length = _
          rw [a7, hov.2.1]
        · show (applyOverride st.reg i pref pmID (r0.read i).id).read j = _
          rw [a3 j, hov.2.2 j]
          rfl
      have hovr1 : ∀ i2 ∈ rest, (st1.reg.read i2).overrides = (r0.read i2).overrides := by
        intro i2 hi2
        have hne : i2 ≠ i := fun hcontra => hnotin (hcontra ▸ hi2)
        show ((applyOverride st.reg i pref pmID (r0.read i).id).read i2).overrides = _
        rw [a1 i2, if_neg hne]
        exact hovr i2 (List.mem_cons_of_mem i hi2)
      obtain ⟨t1, t2, t3, t4, t5, t6, t7, t8, t9⟩ := ih st1 hndr hov1 hovr1
      rw [hfold, heq]
      refine ⟨t1, ?_, ?_, ?_, ?_, ?_, t7, t8, t9⟩
      · intro i2 hi2
        rcases List.mem_cons.mp hi2 with hi2 | hi2
        · subst hi2
          rw [t3 i2 hnotin]
          show ((applyOverride st.reg i2 pref pmID (r0.read i2).id).read i2).overrides = _
          rw [a1 i2, if_pos (Eq.refl _), hd]
          rfl
        · exact t2 i2 hi2
      · intro j hj
        have hj2 : j ≠ i := fun hcontra => hj (hcontra ▸ List.mem_cons_self i rest)
        rw [t3 j (fun hcontra => hj (List.mem_cons_of_mem i hcontra))]
        show ((applyOverride st.reg i pref pmID (r0.read i).id).read j).overrides = _
        rw [a1 j, if_neg hj2]
      · intro j x hx
        apply t4 j x
        show x ∈ ((applyOverride st.reg i pref pmID (r0.read i).id).read j).usedBy
        rw [a2 j]
        by_cases hj : j = pref
        · rw [if_pos hj]
          rw [appendUnique]
          by_cases hmem : (r0.read i).id ∈ (st.reg.read j).usedBy
          · rw [if_pos hmem]
            exact hx
          · rw [if_neg hmem]
            exact List.mem_append_left _ hx
        · rw [if_neg hj]
          exact hx
      · intro i2 hi2 pmID2 hd2 pref2 hpref2
        rcases List.mem_cons.mp hi2 with hi2 | hi2
        · have hii : i = i2 := hi2.symm
          subst hii
          rw [hd] at hd2
          have hpm2 : pmID = pmID2 := Option.some.inj hd2
          subst hpm2
          rw [hpref] at hpref2
          have hpr2 : pref = pref2 := Option.some.inj hpref2
          subst hpr2
          apply t4
          show (r0.read i).id ∈
            ((applyOverride st.reg i pref pmID (r0.read i).id).read pref).usedBy
          rw [a2 pref, if_pos (Eq.refl _), appendUnique]
          by_cases hmem : (r0.read i).id ∈ (st.reg.read pref).usedBy
          · rw [if_pos hmem]
            exact hmem
          · rw [if_neg hmem]
            exact List.mem_append_right _ (List.mem_singleton.mpr (Eq.refl _))
        · exact t5 i2 hi2 pmID2 hd2 pref2 hpref2
      · rw [t6]
        show st.stats.resolved + 1 + _ = _
        simp [hd]
        omega

/-! #### Pass 2 characterization (hook bindings, for C8) -/

theorem appendUnique_of_mem {l : List String} {x : String} (h : x ∈ l) :
    appendUnique l x = l := by
  simp [appendUnique, h]

theorem appendUnique_nodup {l : List String} (x : String) (h : l.Nodup) :
    (appendUnique l x).Nodup := by
  by_cases hx : x ∈ l
  · rw [appendUnique_of_mem hx]
    exact h
  · rw [appendUnique, if_neg hx]
    refine List.Nodup.append h (List.nodup_singleton x) ?_
    intro a ha hax
    rw [List.mem_singleton] at hax
    subst hax
    exact hx ha

theorem mem_appendUnique_self (l : List String) (x : String) :
    x ∈ appendUnique l x := by
  by_cases hx : x ∈ l
  · rw [appendUnique_of_mem hx]
    exact hx
  · rw [appendUnique, if_neg hx]
    exact List.mem_append_right _ (List.mem_singleton_self x)

theorem Registry.read_setRef_oob (r : Registry) {i : Nat} (s : Symbol)
    (h : ¬ i < r.heap.length) : (r.setRef i s).read i = r.read i := by
  show (r.heap.set i s).getD i defaultSymbol = r.heap.getD i defaultSymbol
  rw [List.set_eq_of_length_le (by omega)]

theorem RegPreserved.usedBy_mono {r r2 : Registry} (h : RegPreserved r r2)
    (j : Nat) {x : String} (hx : x ∈ (r.read j).usedBy) :
    x ∈ (r2.read j).usedBy := by
  obtain ⟨t, ht⟩ := (h.2.2.2.2 j).2.2.2.2.1
  rw [ht]
  exact List.mem_append_left _ hx

/-- A state invariant carried through a fold. -/
theorem foldl_pres {α : Type} (P : RState → Prop) (step : RState → α → RState)
    (h : ∀ st x, P st → P (step st x)) :
    ∀ (l : List α) (st : RState), P st → P (l.foldl step st) := by
  intro l
  induction l with
  | nil => intro st hp; exact hp
  | cons x rest ih => intro st hp; exact ih (step st x) (h st x hp)

theorem hookUse_fold_member (tags : List (String × Nat)) (symId : String) :
    ∀ (uses : List String) (st : RState) (use : String), use ∈ uses →
      ∀ href, lookupA tags use = some href → href < st.reg.heap.length →
      symId ∈ ((uses.foldl (hookUseStep tags symId) st).reg.read href).usedBy := by
  intro uses
  induction uses with
  | nil => intro st use h; cases h
  | cons u us ih =>
    intro st use huse href hl hlt
    have hstep : (u :: us).foldl (hookUseStep tags symId) st
        = us.foldl (hookUseStep tags symId) (hookUseStep tags symId st u) :=
      Eq.refl _
    rw [hstep]
    rcases List.mem_cons.mp huse with heq | hmem
    · subst heq
      have hpre : RegPreserved (hookUseStep tags symId st use).reg
          (us.foldl (hookUseStep tags symId)
            (hookUseStep tags symId st use)).reg :=
        foldl_RegPreservedU _ (hookUseStep_preserved tags symId) us _
      refine hpre.usedBy_mono href ?_
      have hr : (hookUseStep tags symId st use).reg
          = st.reg.setRef href
            { st.reg.read href with
                usedBy := appendUnique (st.reg.read href).usedBy symId } := by
        simp only [hookUseStep]
        rw [hl]
      rw [hr, st.reg.read_setRef_self _ hlt]
      exact mem_appendUnique_self _ _
    · have hp := hookUseStep_preserved tags symId st u
      have := ih (hookUseStep tags symId st u) use hmem href hl
        (by rw [hp.2.2.2.1]; exact hlt)
      exact this

theorem hookBindings_fold_member (tags : List (String × Nat)) :
    ∀ (order : List Nat) (st : RState) (i : Nat), i ∈ order →
      ((st.reg.read i).kind = KindFunction ∨
        (st.reg.read i).kind = KindMethod) →
      ∀ use ∈ (st.reg.read i).uses, ∀ href, lookupA tags use = some href →
      href < st.reg.heap.length →
      (st.reg.read i).id ∈
        ((order.foldl (hookStep tags) st).reg.read href).usedBy := by
  intro order
  induction order with
  | nil => intro st i h; cases h
  | cons a rest ih =>
    intro st i hi hkind use huse href hl hlt
    have hstep : (a :: rest).foldl (hookStep tags) st
        = rest.foldl (hookStep tags) (hookStep tags st a) := Eq.refl _
    rw [hstep]
    have hpa := hookStep_preserved tags st a
    rcases List.mem_cons.mp hi with heq | hmem
    · subst heq
      have hs1 : hookStep tags st i
          = (st.reg.read i).uses.foldl
              (hookUseStep tags (st.reg.read i).id) st := by
        simp only [hookStep]
        rw [if_pos hkind]
      rw [hs1]
      have hmem1 := hookUse_fold_member tags (st.reg.read i).id
        (st.reg.read i).uses st use huse href hl hlt
      have hpre : RegPreserved
          ((st.reg.read i).uses.foldl
            (hookUseStep tags (st.reg.read i).id) st).reg
          (rest.foldl (hookStep tags)
            ((st.reg.read i).uses.foldl
              (hookUseStep tags (st.reg.read i).id) st)).reg :=
        foldl_RegPreservedU _ (hookStep_preserved tags) rest _
      exact hpre.usedBy_mono href hmem1
    · have hk2 := (hpa.2.2.2.2 i).kind_eq
      have hu2 := (hpa.2.2.2.2 i).uses_eq
      have hid2 := (hpa.2.2.2.2 i).id_eq
      have := ih (hookStep tags st a) i hmem
        (by rw [hk2]; exact hkind) use (by rw [hu2]; exact huse) href hl
        (by rw [hpa.2.2.2.1]; exact hlt)
      rw [hid2] at this
      exact this

/-- The all-`UsedBy`-duplicate-free invariant. -/
def NodupUsedBy (st : RState) : Prop :=
  ∀ j, ((st.reg.read j).usedBy).Nodup

theorem hookUseStep_nodup (tags : List (String × Nat)) (symId : String) :
    ∀ (st : RState) (use : String), NodupUsedBy st →
      NodupUsedBy (hookUseStep tags symId st use) := by
  intro st use h j
  rcases hl : lookupA tags use with _ | href
  · have hid : hookUseStep tags symId st use = st := by
      simp only [hookUseStep]
      rw [hl]
    rw [hid]
    exact h j
  · have hr : (hookUseStep tags symId st use).reg
        = st.reg.setRef href
          { st.reg.read href with
              usedBy := appendUnique (st.reg.read href).usedBy symId } := by
      simp only [hookUseStep]
      rw [hl]
    rw [hr]
    by_cases hj : j = href
    · subst hj
      by_cases hlt : j < st.reg.heap.length
      · rw [st.reg.read_setRef_self _ hlt]
        exact appendUnique_nodup symId (h j)
      · rw [st.reg.read_setRef_oob _ hlt]
        exact h j
    · rw [st.reg.read_setRef_ne _ hj]
      exact h j

theorem hookStep_nodup (tags : List (String × Nat)) :
    ∀ (st : RState) (i : Nat), NodupUsedBy st →
      NodupUsedBy (hookStep tags st i) := by
  intro st i h
  simp only [hookStep]
  by_cases hc : (st.reg.read i).kind = KindFunction ∨
      (st.reg.read i).kind = KindMethod
  · rw [if_pos hc]
    exact foldl_pres NodupUsedBy _ (hookUseStep_nodup tags (st.reg.read i).id)
      (st.reg.read i).uses st h
  · rw [if_neg hc]
    exact h

/-- **C8.**  In the hook-binding pass every `Uses` entry of a function or
method that hits the `hooksByTag` index adds the symbol's ID to that
hook's `UsedBy`; the addition goes through `appendUnique`, which is
idempotent (an ID already present leaves the list unchanged) and preserves
freedom from duplicates, so no `UsedBy` list gains a duplicate in this
pass. -/
theorem C8_hook_binding_dedup (st : RState) (order : List Nat) :
    let tags := hooksByTag st.reg
    let fin := resolveHookBindings order st
    (∀ (l : List String) (x : String), x ∈ l → appendUnique l x = l) ∧
    (∀ (l : List String) (x : String), l.Nodup → (appendUnique l x).Nodup) ∧
    (∀ i ∈ order,
      ((st.reg.read i).kind = KindFunction ∨
        (st.reg.read i).kind = KindMethod) →
      ∀ use ∈ (st.reg.read i).uses, ∀ href, lookupA tags use = some href →
      href < st.reg.heap.length →
      (st.reg.read i).id ∈ (fin.reg.read href).usedBy) ∧
    (NodupUsedBy st → NodupUsedBy fin) := by
  intro tags fin
  refine ⟨fun l x h => appendUnique_of_mem h,
          fun l x h => appendUnique_nodup x h, ?_, ?_⟩
  · intro i hi hkind use huse href hl hlt
    exact hookBindings_fold_member tags order st i hi hkind use huse href hl hlt
  · intro h
    exact foldl_pres NodupUsedBy _ (hookStep_nodup tags) order st h

/-- Witness for C8: `fA` and `fB` both use hook `init`; after the pass the
hook's `UsedBy` holds both IDs, duplicate-free, and `appendUnique` on an
already-present ID is a no-op. -/
theorem C8_witness :
    let hookInit : Symbol := { id := "hook:init", name := "init",
                               kind := "hook", hookTag := "init" }
    let fA : Symbol := { id := "fA", name := "fA", kind := "function",
                         uses := ["init"] }
    let fB : Symbol := { id := "fB", name := "fB", kind := "function",
                         uses := ["init"] }
    let r := ofSymbols [hookInit, fA, fB]
    let fin := resolveHookBindings [0, 1, 2] { reg := r }
    appendUnique ["fA", "fB"] "fA" = ["fA", "fB"] ∧
    (appendUnique ["fA"] "fB").Nodup ∧
    "fA" ∈ (fin.reg.read 0).usedBy ∧
    "fB" ∈ (fin.reg.read 0).usedBy ∧
    NodupUsedBy fin := by
  intro hookInit fA fB r fin
  have h := C8_hook_binding_dedup { reg := r } [0, 1, 2]
  obtain ⟨h1, h2, h3, h4⟩ := h
  have hnd : NodupUsedBy { reg := r } := by
    intro j
    match j with
    | 0 => decide
    | 1 => decide
    | 2 => decide
    | n + 3 =>
      rw [Registry.read_oob r (by
        have h3 : r.heap.length = 3 := by decide
        omega)]
      decide
  refine ⟨h1 ["fA", "fB"] "fA" (by decide), h2 ["fA"] "fB" (by decide),
    ?_, ?_, h4 hnd⟩
  · exact h3 1 (by decide) (by decide) "init" (by decide) 0 (by decide)
      (by decide)
  · exact h3 2 (by decide) (by decide) "init" (by decide) 0 (by decide)
      (by decide)

/-! #### Order-independence machinery (C9) -/

/-- Folding `appendUnique` over a list of candidate entries. -/
def mergeUnique (l : List String) (xs : List String) : List String :=
  xs.foldl appendUnique l

theorem mergeUnique_append (l : List String) (xs ys : List String) :
    mergeUnique l (xs ++ ys) = mergeUnique (mergeUnique l xs) ys := by
  simp [mergeUnique, List.foldl_append]

/-- `mergeUnique` appends exactly the new elements, duplicate-free. -/
theorem mergeUnique_spec :
    ∀ (xs l : List String), ∃ e, mergeUnique l xs = l ++ e ∧ e.Nodup ∧
      (∀ x, x ∈ e ↔ x ∈ xs ∧ x ∉ l) := by
  intro xs
  induction xs with
  | nil =>
    intro l
    exact ⟨[], by simp [mergeUnique], List.nodup_nil, by simp⟩
  | cons x xs ih =>
    intro l
    have hstep : mergeUnique l (x :: xs) = mergeUnique (appendUnique l x) xs :=
      Eq.refl _
    by_cases hx : x ∈ l
    · obtain ⟨e, he, hnd, hmem⟩ := ih l
      rw [hstep, appendUnique_of_mem hx]
      refine ⟨e, he, hnd, fun y => ?_⟩
      rw [hmem y]
      constructor
      · rintro ⟨hy1, hy2⟩
        exact ⟨List.mem_cons_of_mem x hy1, hy2⟩
      · rintro ⟨hy1, hy2⟩
        rcases List.mem_cons.mp hy1 with h | h
        · subst h
          exact absurd hx hy2
        · exact ⟨h, hy2⟩
    · obtain ⟨e, he, hnd, hmem⟩ := ih (l ++ [x])
      rw [hstep, appendUnique, if_neg hx]
      refine ⟨x :: e, by rw [he, List.append_assoc]; rfl, ?_, fun y => ?_⟩
      · refine List.nodup_cons.mpr ⟨fun hc => ?_, hnd⟩
        have := (hmem x).mp hc
        exact this.2 (List.mem_append_right l (List.mem_singleton_self x))
      · constructor
        · intro hy
          rcases List.mem_cons.mp hy with h | h
          · subst h
            exact ⟨List.mem_cons_self _ _, hx⟩
          · obtain ⟨h1, h2⟩ := (hmem y).mp h
            refine ⟨List.mem_cons_of_mem x h1, fun hc => ?_⟩
            exact h2 (List.mem_append_left _ hc)
        · rintro ⟨hy1, hy2⟩
          by_cases hyx : y = x
          · subst hyx
            exact List.mem_cons_self _ _
          rcases List.mem_cons.mp hy1 with h | h
          · exact absurd h hyx
          · refine List.mem_cons_of_mem x ((hmem y).mpr ⟨h, fun hc => ?_⟩)
            rcases List.mem_append.mp hc with hc | hc
            · exact hy2 hc
            · rw [List.mem_singleton] at hc
              exact hyx hc

theorem perm_of_nodup_mem {α : Type} {l1 l2 : List α} (h1 : l1.Nodup)
    (h2 : l2.Nodup) (h : ∀ x, x ∈ l1 ↔ x ∈ l2) : l1.Perm l2 :=
  (List.perm_ext_iff_of_nodup h1 h2).mpr h

/-- `mergeUnique` results are permutation-equal whenever the bases are
permutation-equal and the candidate lists have the same members. -/
theorem mergeUnique_perm {l l' xs ys : List String} (hl : l.Perm l')
    (hmem : ∀ x, x ∈ xs ↔ x ∈ ys) :
    (mergeUnique l xs).Perm (mergeUnique l' ys) := by
  obtain ⟨e1, he1, hnd1, hm1⟩ := mergeUnique_spec xs l
  obtain ⟨e2, he2, hnd2, hm2⟩ := mergeUnique_spec ys l'
  rw [he1, he2]
  refine hl.append (perm_of_nodup_mem hnd1 hnd2 fun x => ?_)
  rw [hm1 x, hm2 x, hmem x]
  constructor
  · rintro ⟨a, b⟩
    exact ⟨a, fun hc => b (hl.mem_iff.mpr hc)⟩
  · rintro ⟨a, b⟩
    exact ⟨a, fun hc => b (hl.mem_iff.mp hc)⟩

theorem Stats.statsExt {a b : Stats} (h1 : a.resolved = b.resolved)
    (h2 : a.unresolved = b.unresolved) (h3 : a.inheritance = b.inheritance)
    (h4 : a.hookBindings = b.hookBindings) : a = b := by
  cases a
  cases b
  simp_all

theorem Registry.registryExt {r1 r2 : Registry} (hs : r1.symbols = r2.symbols)
    (hk : r1.byKind = r2.byKind) (hf : r1.byFile = r2.byFile)
    (hlen : r1.heap.length = r2.heap.length)
    (hread : ∀ i, r1.read i = r2.read i) : r1 = r2 := by
  have hheap : r1.heap = r2.heap := by
    refine List.ext_getElem hlen fun i hi1 hi2 => ?_
    have := hread i
    rw [Registry.read, Registry.read, List.getD_eq_getElem?_getD,
      List.getD_eq_getElem?_getD, List.getElem?_eq_getElem hi1,
      List.getElem?_eq_getElem hi2] at this
    simpa using this
  cases r1
  cases r2
  simp_all

theorem RState.rstateExt {a b : RState} (hr : a.reg = b.reg)
    (hs : a.stats = b.stats) : a = b := by
  cases a
  cases b
  simp_all

/-- Everything but `UsedBy`. -/
def maskUB (s : Symbol) : Symbol :=
  { s with usedBy := [] }

/-- Two registries that agree everywhere except that corresponding `UsedBy`
lists may be permuted: the relation between the results of two runs of the
resolver under different map-iteration orders. -/
def REquiv (r1 r2 : Registry) : Prop :=
  r2.symbols = r1.symbols ∧ r2.byKind = r1.byKind ∧ r2.byFile = r1.byFile ∧
  r2.heap.length = r1.heap.length ∧
  ∀ j, maskUB (r2.read j) = maskUB (r1.read j) ∧
    ((r1.read j).usedBy).Perm ((r2.read j).usedBy)

theorem REquiv.rerfl (r : Registry) : REquiv r r :=
  ⟨Eq.refl _, Eq.refl _, Eq.refl _, Eq.refl _,
    fun _ => ⟨Eq.refl _, List.Perm.refl _⟩⟩

theorem maskUB_id {a b : Symbol} (h : maskUB a = maskUB b) : a.id = b.id := by
  have := congrArg Symbol.id h
  simpa [maskUB] using this

theorem maskUB_name {a b : Symbol} (h : maskUB a = maskUB b) :
    a.name = b.name := by
  have := congrArg Symbol.name h
  simpa [maskUB] using this

theorem maskUB_kind {a b : Symbol} (h : maskUB a = maskUB b) :
    a.kind = b.kind := by
  have := congrArg Symbol.kind h
  simpa [maskUB] using this

theorem maskUB_uses {a b : Symbol} (h : maskUB a = maskUB b) :
    a.uses = b.uses := by
  have := congrArg Symbol.uses h
  simpa [maskUB] using this

theorem maskUB_parentID {a b : Symbol} (h : maskUB a = maskUB b) :
    a.parentID = b.parentID := by
  have := congrArg Symbol.parentID h
  simpa [maskUB] using this

theorem maskUB_extends {a b : Symbol} (h : maskUB a = maskUB b) :
    a.extends_ = b.extends_ := by
  have := congrArg Symbol.extends_ h
  simpa [maskUB] using this

theorem maskUB_doc {a b : Symbol} (h : maskUB a = maskUB b) :
    a.doc = b.doc := by
  have := congrArg Symbol.doc h
  simpa [maskUB] using this

theorem maskUB_overrides {a b : Symbol} (h : maskUB a = maskUB b) :
    a.overrides = b.overrides := by
  have := congrArg Symbol.overrides h
  simpa [maskUB] using this

theorem maskUB_hookTag {a b : Symbol} (h : maskUB a = maskUB b) :
    a.hookTag = b.hookTag := by
  have := congrArg Symbol.hookTag h
  simpa [maskUB] using this

theorem REquiv.toIdName {r1 r2 : Registry} (h : REquiv r1 r2) :
    IdNameAgree r1 r2 :=
  ⟨h.1, h.2.2.2.1, fun j => ⟨maskUB_id ((h.2.2.2.2 j).1),
    maskUB_name ((h.2.2.2.2 j).1)⟩⟩

theorem REquiv.rewf {r1 r2 : Registry} (h : REquiv r1 r2) (hwf : r1.WF) :
    r2.WF := by
  obtain ⟨hs, _, _, hlen, hj⟩ := h
  refine ⟨?_, ?_, ?_⟩
  · intro p hp
    rw [hs] at hp
    obtain ⟨hlt, hid⟩ := hwf.1 p hp
    exact ⟨by omega, by rw [maskUB_id ((hj p.2).1)]; exact hid⟩
  · rw [hs]
    exact hwf.2.1
  · rw [hs]
    exact hwf.2.2

/-- Pass 1 is order-independent outright: any two duplicate-free
enumerations with the same members produce identical states. -/
theorem resolveInheritance_order (st : RState) (o p : List Nat)
    (ho : o.Nodup) (hp : p.Nodup) (hmem : ∀ i, i ∈ o ↔ i ∈ p) :
    resolveInheritance o st = resolveInheritance p st := by
  obtain ⟨a1, a2, a3, a4, a5, a6, a7, a8⟩ :=
    resolveInheritance_fold st.reg o st ho (IdNameAgree.inrfl _)
      (fun _ _ => Eq.refl _)
  obtain ⟨b1, b2, b3, b4, b5, b6, b7, b8⟩ :=
    resolveInheritance_fold st.reg p st hp (IdNameAgree.inrfl _)
      (fun _ _ => Eq.refl _)
  have hperm : o.Perm p := perm_of_nodup_mem ho hp hmem
  have hpa := resolveInheritance_preserved o st
  have hpb := resolveInheritance_preserved p st
  have hsum : (o.map (fun i => inheritCount st.reg (st.reg.read i))).sum
      = (p.map (fun i => inheritCount st.reg (st.reg.read i))).sum :=
    (hperm.map _).sum_eq
  refine RState.rstateExt (Registry.registryExt ?_ ?_ ?_ ?_ ?_) (Stats.statsExt ?_ ?_ ?_ ?_)
  · rw [a3, b3]
  · rw [hpa.2.1, hpb.2.1]
  · rw [hpa.2.2.1, hpb.2.2.1]
  · rw [a4, b4]
  · intro j
    by_cases hj : j ∈ o
    · rw [a1 j hj, b1 j ((hmem j).mp hj)]
    · rw [a2 j hj, b2 j (fun hc => hj ((hmem j).mpr hc))]
  · rw [a6, b6, hsum]
  · rw [a7, b7]
  · rw [a5, b5, hsum]
  · rw [a8, b8]

/-- What one symbol contributes to heap cell `j`'s `UsedBy` in pass 2: one
copy of its ID per `Uses` entry whose tag lookup lands on `j`. -/
def hookContribs (tags : List (String × Nat)) (r : Registry) (i j : Nat) :
    List String :=
  if (r.read i).kind = KindFunction ∨ (r.read i).kind = KindMethod then
    ((r.read i).uses.filter (fun u => decide (lookupA tags u = some j))).map
      (fun _ => (r.read i).id)
  else []

/-- How many of one symbol's `Uses` entries hit the tag index. -/
def hookHits (tags : List (String × Nat)) (r : Registry) (i : Nat) : Nat :=
  if (r.read i).kind = KindFunction ∨ (r.read i).kind = KindMethod then
    ((r.read i).uses.filter (fun u => (lookupA tags u).isSome)).length
  else 0

/-- All contributions to heap cell `j` over an enumeration order. -/
def hookContribsAll (tags : List (String × Nat)) (r : Registry)
    (order : List Nat) (j : Nat) : List String :=
  order.foldr (fun i acc => hookContribs tags r i j ++ acc) []

theorem mem_hookContribsAll (tags : List (String × Nat)) (r : Registry)
    (j : Nat) (x : String) :
    ∀ order : List Nat, (x ∈ hookContribsAll tags r order j ↔
      ∃ i, i ∈ order ∧ x ∈ hookContribs tags r i j) := by
  intro order
  induction order with
  | nil => simp [hookContribsAll]
  | cons a rest ih =>
    have hstep : hookContribsAll tags r (a :: rest) j
        = hookContribs tags r a j ++ hookContribsAll tags r rest j := Eq.refl _
    rw [hstep, List.mem_append, ih]
    constructor
    · rintro (h | ⟨i, hi, hx⟩)
      · exact ⟨a, List.mem_cons_self _ _, h⟩
      · exact ⟨i, List.mem_cons_of_mem a hi, hx⟩
    · rintro ⟨i, hi, hx⟩
      rcases List.mem_cons.mp hi with h | h
      · subst h
        exact Or.inl hx
      · exact Or.inr ⟨i, h, hx⟩

theorem hookContribsAll_congr (tags : List (String × Nat)) {r1 r2 : Registry}
    (h : ∀ i j, hookContribs tags r1 i j = hookContribs tags r2 i j) :
    ∀ (order : List Nat) (j : Nat),
      hookContribsAll tags r1 order j = hookContribsAll tags r2 order j := by
  intro order j
  induction order with
  | nil => rfl
  | cons a rest ih =>
    show hookContribs tags r1 a j ++ hookContribsAll tags r1 rest j
        = hookContribs tags r2 a j ++ hookContribsAll tags r2 rest j
    rw [h a j, ih]

/-- The inner `for _, hookID := range sym.Uses` fold, exactly. -/
theorem hookUse_fold_spec (tags : List (String × Nat)) (symId : String) :
    ∀ (uses : List String) (st : RState),
    (∀ q ∈ tags, q.2 < st.reg.heap.length) →
    (∀ j, (uses.foldl (hookUseStep tags symId) st).reg.read j =
      { st.reg.read j with usedBy := (mergeUnique (st.reg.read j).usedBy
          ((uses.filter (fun u => decide (lookupA tags u = some j))).map
            (fun _ => symId))) }) ∧
    (uses.foldl (hookUseStep tags symId) st).reg.symbols = st.reg.symbols ∧
    (uses.foldl (hookUseStep tags symId) st).reg.byKind = st.reg.byKind ∧
    (uses.foldl (hookUseStep tags symId) st).reg.byFile = st.reg.byFile ∧
    (uses.foldl (hookUseStep tags symId) st).reg.heap.length =
      st.reg.heap.length ∧
    (uses.foldl (hookUseStep tags symId) st).stats.resolved =
      st.stats.resolved +
        (uses.filter (fun u => (lookupA tags u).isSome)).length ∧
    (uses.foldl (hookUseStep tags symId) st).stats.hookBindings =
      st.stats.hookBindings +
        (uses.filter (fun u => (lookupA tags u).isSome)).length ∧
    (uses.foldl (hookUseStep tags symId) st).stats.unresolved =
      st.stats.unresolved ∧
    (uses.foldl (hookUseStep tags symId) st).stats.inheritance =
      st.stats.inheritance := by
  intro uses
  induction uses with
  | nil =>
    intro st _
    exact ⟨fun j => Eq.refl _, Eq.refl _, Eq.refl _, Eq.refl _, Eq.refl _,
      by simp, by simp, Eq.refl _, Eq.refl _⟩
  | cons u us ih =>
    intro st htags
    have hfold : (u :: us).foldl (hookUseStep tags symId) st
        = us.foldl (hookUseStep tags symId) (hookUseStep tags symId st u) :=
      Eq.refl _
    rcases hl : lookupA tags u with _ | href
    · have hid : hookUseStep tags symId st u = st := by
        simp only [hookUseStep]
        rw [hl]
      obtain ⟨i1, i2, i3, i4, i5, i6, i7, i8, i9⟩ := ih st htags
      have hfilS : (u :: us).filter (fun u2 => (lookupA tags u2).isSome)
          = us.filter (fun u2 => (lookupA tags u2).isSome) := by
        simp [List.filter_cons, hl]
      refine ⟨?_, ?_, ?_, ?_, ?_, ?_, ?_, ?_, ?_⟩ <;>
        rw [hfold, hid]
      · intro j
        have hne : lookupA tags u ≠ some j := by
          rw [hl]
          intro hc
          cases hc
        have hfil : (u :: us).filter
            (fun u2 => decide (lookupA tags u2 = some j))
            = us.filter (fun u2 => decide (lookupA tags u2 = some j)) := by
          simp [List.filter_cons, hne]
        rw [hfil]
        exact i1 j
      · exact i2
      · exact i3
      · exact i4
      · exact i5
      · rw [hfilS]
        exact i6
      · rw [hfilS]
        exact i7
      · exact i8
      · exact i9
    · have hlt : href < st.reg.heap.length :=
        htags (u, href) (lookupA_mem tags u href hl)
      have hr : (hookUseStep tags symId st u).reg
          = st.reg.setRef href { st.reg.read href with
              usedBy := appendUnique (st.reg.read href).usedBy symId } := by
        simp only [hookUseStep]
        rw [hl]
      have hstats : (hookUseStep tags symId st u).stats
          = { st.stats with
                hookBindings := st.stats.hookBindings + 1
                resolved := st.stats.resolved + 1 } := by
        simp only [hookUseStep]
        rw [hl]
      have htags1 : ∀ q ∈ tags,
          q.2 < (hookUseStep tags symId st u).reg.heap.length := by
        intro q hq
        rw [hr, st.reg.length_setRef]
        exact htags q hq
      obtain ⟨i1, i2, i3, i4, i5, i6, i7, i8, i9⟩ :=
        ih (hookUseStep tags symId st u) htags1
      have hread1 : ∀ j, (hookUseStep tags symId st u).reg.read j
          = if j = href then { st.reg.read href with
              usedBy := appendUnique (st.reg.read href).usedBy symId }
            else st.reg.read j := by
        intro j
        rw [hr]
        by_cases hj : j = href
        · subst hj
          rw [if_pos (Eq.refl _)]
          exact st.reg.read_setRef_self _ hlt
        · rw [if_neg hj]
          exact st.reg.read_setRef_ne _ hj
      have hfilS : (u :: us).filter (fun u2 => (lookupA tags u2).isSome)
          = u :: us.filter (fun u2 => (lookupA tags u2).isSome) := by
        simp [List.filter_cons, hl]
      refine ⟨?_, ?_, ?_, ?_, ?_, ?_, ?_, ?_, ?_⟩ <;> rw [hfold]
      · intro j
        rw [i1 j, hread1 j]
        by_cases hj : j = href
        · subst hj
          rw [if_pos (Eq.refl _)]
          have hfil : ((u :: us).filter
              (fun u2 => decide (lookupA tags u2 = some j))).map
              (fun _ => symId)
              = symId :: ((us.filter
                  (fun u2 => decide (lookupA tags u2 = some j))).map
                  (fun _ => symId)) := by
            simp [List.filter_cons, hl]
          rw [hfil]
          exact Eq.refl _
        · rw [if_neg hj]
          have hne : lookupA tags u ≠ some j := by
            rw [hl]
            intro hc
            exact hj (Option.some.inj hc).symm
          have hfil : (u :: us).filter
              (fun u2 => decide (lookupA tags u2 = some j))
              = us.filter (fun u2 => decide (lookupA tags u2 = some j)) := by
            simp [List.filter_cons, hne]
          rw [hfil]
      · rw [i2, hr]
        exact Eq.refl _
      · rw [i3, hr]
        exact Eq.refl _
      · rw [i4, hr]
        exact Eq.refl _
      · rw [i5, hr, st.reg.length_setRef]
      · rw [i6, hstats, hfilS]
        simp
        omega
      · rw [i7, hstats, hfilS]
        simp
        omega
      · rw [i8, hstats]
      · rw [i9, hstats]

/-- One outer-loop iteration of pass 2, exactly. -/
theorem hookStep_spec2 (tags : List (String × Nat)) (st : RState) (i : Nat)
    (htags : ∀ q ∈ tags, q.2 < st.reg.heap.length) :
    (∀ j, (hookStep tags st i).reg.read j =
      { st.reg.read j with usedBy := (mergeUnique (st.reg.read j).usedBy
          (hookContribs tags st.reg i j)) }) ∧
    (hookStep tags st i).reg.symbols = st.reg.symbols ∧
    (hookStep tags st i).reg.byKind = st.reg.byKind ∧
    (hookStep tags st i).reg.byFile = st.reg.byFile ∧
    (hookStep tags st i).reg.heap.length = st.reg.heap.length ∧
    (hookStep tags st i).stats.resolved =
      st.stats.resolved + hookHits tags st.reg i ∧
    (hookStep tags st i).stats.hookBindings =
      st.stats.hookBindings + hookHits tags st.reg i ∧
    (hookStep tags st i).stats.unresolved = st.stats.unresolved ∧
    (hookStep tags st i).stats.inheritance = st.stats.inheritance := by
  by_cases hc : (st.reg.read i).kind = KindFunction ∨
      (st.reg.read i).kind = KindMethod
  · have hs : hookStep tags st i
        = (st.reg.read i).uses.foldl
            (hookUseStep tags (st.reg.read i).id) st := by
      simp only [hookStep]
      rw [if_pos hc]
    obtain ⟨i1, i2, i3, i4, i5, i6, i7, i8, i9⟩ :=
      hookUse_fold_spec tags (st.reg.read i).id (st.reg.read i).uses st htags
    rw [hs]
    refine ⟨?_, i2, i3, i4, i5, ?_, ?_, i8, i9⟩
    · intro j
      rw [i1 j, hookContribs, if_pos hc]
    · rw [i6, hookHits, if_pos hc]
    · rw [i7, hookHits, if_pos hc]
  · have hs : hookStep tags st i = st := by
      simp only [hookStep]
      rw [if_neg hc]
    rw [hs]
    refine ⟨?_, Eq.refl _, Eq.refl _, Eq.refl _, Eq.refl _, ?_, ?_,
      Eq.refl _, Eq.refl _⟩
    · intro j
      rw [hookContribs, if_neg hc]
      exact Eq.refl _
    · rw [hookHits, if_neg hc]
      omega
    · rw [hookHits, if_neg hc]
      omega

/-- The effect of the whole hook-binding pass for an arbitrary enumeration
order: each heap cell's `UsedBy` is the deduplicated merge of every
function's and method's matching `Uses` entries, in enumeration order, and
the counters advance by the total number of hits. -/
theorem hookBindings_fold_spec (tags : List (String × Nat)) :
    ∀ (order : List Nat) (st : RState),
    (∀ q ∈ tags, q.2 < st.reg.heap.length) →
    (∀ j, (order.foldl (hookStep tags) st).reg.read j =
      { st.reg.read j with usedBy := (mergeUnique (st.reg.read j).usedBy
          (hookContribsAll tags st.reg order j)) }) ∧
    (order.foldl (hookStep tags) st).reg.symbols = st.reg.symbols ∧
    (order.foldl (hookStep tags) st).reg.byKind = st.reg.byKind ∧
    (order.foldl (hookStep tags) st).reg.byFile = st.reg.byFile ∧
    (order.foldl (hookStep tags) st).reg.heap.length = st.reg.heap.length ∧
    (order.foldl (hookStep tags) st).stats.resolved = st.stats.resolved +
      (order.map (hookHits tags st.reg)).sum ∧
    (order.foldl (hookStep tags) st).stats.hookBindings =
      st.stats.hookBindings + (order.map (hookHits tags st.reg)).sum ∧
    (order.foldl (hookStep tags) st).stats.unresolved =
      st.stats.unresolved ∧
    (order.foldl (hookStep tags) st).stats.inheritance =
      st.stats.inheritance := by
  intro order
  induction order with
  | nil =>
    intro st _
    exact ⟨fun j => Eq.refl _, Eq.refl _, Eq.refl _, Eq.refl _, Eq.refl _,
      by simp, by simp, Eq.refl _, Eq.refl _⟩
  | cons a rest ih =>
    intro st htags
    have hfold : (a :: rest).foldl (hookStep tags) st
        = rest.foldl (hookStep tags) (hookStep tags st a) := Eq.refl _
    obtain ⟨s1, s2, s3, s4, s5, s6, s7, s8, s9⟩ := hookStep_spec2 tags st a htags
    have htags1 : ∀ q ∈ tags, q.2 < (hookStep tags st a).reg.heap.length := by
      intro q hq
      rw [s5]
      exact htags q hq
    obtain ⟨i1, i2, i3, i4, i5, i6, i7, i8, i9⟩ :=
      ih (hookStep tags st a) htags1
    have hcongr : ∀ i2 j2, hookContribs tags (hookStep tags st a).reg i2 j2
        = hookContribs tags st.reg i2 j2 := by
      intro i2 j2
      simp only [hookContribs, s1 i2]
    have hhits : ∀ i2, hookHits tags (hookStep tags st a).reg i2
        = hookHits tags st.reg i2 := by
      intro i2
      simp only [hookHits, s1 i2]
    have hsum : (rest.map (hookHits tags (hookStep tags st a).reg)).sum
        = (rest.map (hookHits tags st.reg)).sum := by
      rw [funext hhits]
    refine ⟨?_, ?_, ?_, ?_, ?_, ?_, ?_, ?_, ?_⟩ <;> rw [hfold]
    · intro j
      rw [i1 j, s1 j,
        hookContribsAll_congr tags hcongr rest j]
      have hca : hookContribsAll tags st.reg (a :: rest) j
          = hookContribs tags st.reg a j
              ++ hookContribsAll tags st.reg rest j := Eq.refl _
      rw [hca, mergeUnique_append]
    · rw [i2, s2]
    · rw [i3, s3]
    · rw [i4, s4]
    · rw [i5, s5]
    · rw [i6, hsum, s6, List.map_cons, List.sum_cons]
      omega
    · rw [i7, hsum, s7, List.map_cons, List.sum_cons]
      omega
    · rw [i8, s8]
    · rw [i9, s9]

/-- Pass 2 under two different enumeration orders with the same members:
the results agree everywhere except that each `UsedBy` list may be
permuted, and the counters agree. -/
theorem resolveHookBindings_order (st : RState) (o p : List Nat)
    (ho : o.Nodup) (hp : p.Nodup) (hmem : ∀ i, i ∈ o ↔ i ∈ p)
    (htags : ∀ q ∈ hooksByTag st.reg, q.2 < st.reg.heap.length) :
    REquiv (resolveHookBindings o st).reg (resolveHookBindings p st).reg ∧
    (resolveHookBindings o st).stats = (resolveHookBindings p st).stats := by
  have hperm : o.Perm p := perm_of_nodup_mem ho hp hmem
  have hda : resolveHookBindings o st
      = o.foldl (hookStep (hooksByTag st.reg)) st := Eq.refl _
  have hdb : resolveHookBindings p st
      = p.foldl (hookStep (hooksByTag st.reg)) st := Eq.refl _
  obtain ⟨a1, a2, a3, a4, a5, a6, a7, a8, a9⟩ :=
    hookBindings_fold_spec (hooksByTag st.reg) o st htags
  obtain ⟨b1, b2, b3, b4, b5, b6, b7, b8, b9⟩ :=
    hookBindings_fold_spec (hooksByTag st.reg) p st htags
  have hsum : (o.map (hookHits (hooksByTag st.reg) st.reg)).sum
      = (p.map (hookHits (hooksByTag st.reg) st.reg)).sum :=
    (hperm.map _).sum_eq
  rw [hda, hdb]
  refine ⟨⟨b2.trans a2.symm, b3.trans a3.symm, b4.trans a4.symm,
    b5.trans a5.symm, fun j => ⟨?_, ?_⟩⟩, Stats.statsExt ?_ ?_ ?_ ?_⟩
  · rw [a1 j, b1 j]
    exact Eq.refl _
  · rw [a1 j, b1 j]
    show (mergeUnique ((st.reg.read j).usedBy) _).Perm
      (mergeUnique ((st.reg.read j).usedBy) _)
    refine mergeUnique_perm (List.Perm.refl _) fun x => ?_
    rw [mem_hookContribsAll, mem_hookContribsAll]
    constructor
    · rintro ⟨i, hi, hx⟩
      exact ⟨i, (hmem i).mp hi, hx⟩
    · rintro ⟨i, hi, hx⟩
      exact ⟨i, (hmem i).mpr hi, hx⟩
  · rw [a6, b6, hsum]
  · rw [a8, b8]
  · rw [a9, b9]
  · rw [a7, b7, hsum]

theorem seeRewrite_congr {r r2 : Registry} (h : IdNameAgree r r2) :
    ∀ e, seeRewrite r2 e = seeRewrite r e := by
  intro e
  rw [seeRewrite, seeRewrite]
  by_cases ht : trimSpace e = ""
  · rw [if_pos ht, if_pos ht]
  · rw [if_neg ht, if_neg ht]
    have hmap := findSymbol_congr h (stripCallSuffix (trimSpace e))
    rcases h2 : findSymbol r2 (stripCallSuffix (trimSpace e)) with _ | s <;>
      rcases h1 : findSymbol r (stripCallSuffix (trimSpace e)) with _ | t <;>
      rw [h2, h1] at hmap <;> simp_all

theorem seeHit_congr {r r2 : Registry} (h : IdNameAgree r r2) :
    ∀ e, seeHit r2 e = seeHit r e := by
  intro e
  rw [seeHit, seeHit, findSymbol_isSome_congr h]

theorem seeMiss_congr {r r2 : Registry} (h : IdNameAgree r r2) :
    ∀ e, seeMiss r2 e = seeMiss r e := by
  intro e
  rw [seeMiss, seeMiss, findSymbol_isSome_congr h]

theorem seeTransform_congr {r r2 : Registry} (h : IdNameAgree r r2)
    (s : Symbol) : seeTransform r2 s = seeTransform r s := by
  rw [seeTransform, seeTransform, funext (seeRewrite_congr h)]

theorem seeTransform_usedBy (r : Registry) (s : Symbol) :
    (seeTransform r s).usedBy = s.usedBy := Eq.refl _

theorem maskUB_seeTransform (r : Registry) (s : Symbol) :
    maskUB (seeTransform r s) = seeTransform r (maskUB s) := Eq.refl _

/-- Pass 3 under two different enumeration orders, run from two states that
agree up to `UsedBy` permutation: the outputs again agree up to `UsedBy`
permutation and the counters agree. -/
theorem resolveSeeReferences_equiv (sta stb : RState) (o p : List Nat)
    (ho : o.Nodup) (hp : p.Nodup) (hmem : ∀ i, i ∈ o ↔ i ∈ p)
    (hre : REquiv sta.reg stb.reg) (hstats : sta.stats = stb.stats) :
    REquiv (resolveSeeReferences o sta).reg
      (resolveSeeReferences p stb).reg ∧
    (resolveSeeReferences o sta).stats =
      (resolveSeeReferences p stb).stats := by
  have hag : IdNameAgree sta.reg stb.reg := hre.toIdName
  obtain ⟨a1, a2, a3, a4, a5, a6, a7, a8⟩ :=
    resolveSeeReferences_fold sta.reg o sta ho (IdNameAgree.inrfl _)
      (fun _ _ => Eq.refl _)
  obtain ⟨b1, b2, b3, b4, b5, b6, b7, b8⟩ :=
    resolveSeeReferences_fold stb.reg p stb hp (IdNameAgree.inrfl _)
      (fun _ _ => Eq.refl _)
  have hpa := resolveSeeReferences_preserved o sta
  have hpb := resolveSeeReferences_preserved p stb
  have hperm : o.Perm p := perm_of_nodup_mem ho hp hmem
  have hfhit : (fun i => (((stb.reg.read i).doc.seeAlso.filter
        (seeHit stb.reg)).length))
      = (fun i => (((sta.reg.read i).doc.seeAlso.filter
        (seeHit sta.reg)).length)) := by
    funext i
    rw [maskUB_doc ((hre.2.2.2.2 i).1), funext (seeHit_congr hag)]
  have hfmiss : (fun i => (((stb.reg.read i).doc.seeAlso.filter
        (seeMiss stb.reg)).length))
      = (fun i => (((sta.reg.read i).doc.seeAlso.filter
        (seeMiss sta.reg)).length)) := by
    funext i
    rw [maskUB_doc ((hre.2.2.2.2 i).1), funext (seeMiss_congr hag)]
  refine ⟨⟨b3.trans (hre.1.trans a3.symm), hpb.2.1.trans
      (hre.2.1.trans hpa.2.1.symm), hpb.2.2.1.trans
      (hre.2.2.1.trans hpa.2.2.1.symm), b4.trans
      (hre.2.2.2.1.trans a4.symm), fun j => ⟨?_, ?_⟩⟩,
    Stats.statsExt ?_ ?_ ?_ ?_⟩
  · by_cases hj : j ∈ o
    · rw [a1 j hj, b1 j ((hmem j).mp hj), maskUB_seeTransform,
        maskUB_seeTransform, (hre.2.2.2.2 j).1, seeTransform_congr hag]
    · rw [a2 j hj, b2 j (fun hc => hj ((hmem j).mpr hc))]
      exact (hre.2.2.2.2 j).1
  · by_cases hj : j ∈ o
    · rw [a1 j hj, b1 j ((hmem j).mp hj), seeTransform_usedBy,
        seeTransform_usedBy]
      exact (hre.2.2.2.2 j).2
    · rw [a2 j hj, b2 j (fun hc => hj ((hmem j).mpr hc))]
      exact (hre.2.2.2.2 j).2
  · rw [a5, b5, hfhit, hstats, (hperm.map _).sum_eq]
  · rw [a6, b6, hfmiss, hstats, (hperm.map _).sum_eq]
  · rw [a7, b7, hstats]
  · rw [a8, b8, hstats]

theorem decision_kind_getRef (r0 : Registry) {i : Nat} {pmID : String}
    (hd : overrideDecision r0 i = some pmID) :
    (r0.read i).kind = KindMethod ∧ ∃ pref, r0.getRef pmID = some pref := by
  constructor
  · rw [overrideDecision] at hd
    by_cases hc : (r0.read i).kind = KindMethod ∧ (r0.read i).parentID ≠ ""
    · exact hc.1
    · rw [if_neg hc] at hd
      cases hd
  · rw [overrideDecision] at hd
    by_cases hc : (r0.read i).kind = KindMethod ∧ (r0.read i).parentID ≠ ""
    · rw [if_pos hc] at hd
      rcases hp : r0.get (r0.read i).parentID with _ | parent
      · rw [hp] at hd
        cases hd
      · rw [hp] at hd
        have hd : overrideTarget r0 parent.extends_ (r0.read i).name =
            some pmID := hd
        rw [overrideTarget_eq_find] at hd
        rcases hf : parent.extends_.find? (fun e => (r0.getRef e).isSome &&
            (r0.getRef (e ++ "::" ++ (r0.read i).name)).isSome) with _ | e
        · rw [hf] at hd
          cases hd
        · rw [hf] at hd
          have hprop := List.find?_some hf
          simp only [Bool.and_eq_true] at hprop
          have hpm : pmID = e ++ "::" ++ (r0.read i).name :=
            (Option.some.inj hd).symm
          subst hpm
          rcases hg : r0.getRef (e ++ "::" ++ (r0.read i).name) with _ | q
          · rw [hg] at hprop
            simp at hprop
          · exact ⟨q, rfl⟩
    · rw [if_neg hc] at hd
      cases hd

/-- What one symbol's pass-4 processing contributes to heap cell `j`'s
`UsedBy`. -/
def ovContrib (r0 : Registry) (i j : Nat) : List String :=
  match overrideDecision r0 i with
  | some pmID =>
    match r0.getRef pmID with
    | some pref => if pref = j then [(r0.read i).id] else []
    | none => []
  | none => []

/-- All pass-4 contributions to heap cell `j` over an enumeration order. -/
def ovContribsAll (r0 : Registry) (order : List Nat) (j : Nat) : List String :=
  order.foldr (fun i acc => ovContrib r0 i j ++ acc) []

theorem mem_ovContribsAll (r0 : Registry) (j : Nat) (x : String) :
    ∀ order : List Nat, (x ∈ ovContribsAll r0 order j ↔
      ∃ i, i ∈ order ∧ x ∈ ovContrib r0 i j) := by
  intro order
  induction order with
  | nil => simp [ovContribsAll]
  | cons a rest ih =>
    have hstep : ovContribsAll r0 (a :: rest) j
        = ovContrib r0 a j ++ ovContribsAll r0 rest j := Eq.refl _
    rw [hstep, List.mem_append, ih]
    constructor
    · rintro (h | ⟨i, hi, hx⟩)
      · exact ⟨a, List.mem_cons_self _ _, h⟩
      · exact ⟨i, List.mem_cons_of_mem a hi, hx⟩
    · rintro ⟨i, hi, hx⟩
      rcases List.mem_cons.mp hi with h | h
      · subst h
        exact Or.inl hx
      · exact Or.inr ⟨i, h, hx⟩

/-- Exact `UsedBy` evolution of the override pass. -/
theorem overrides_usedBy_spec (r0 : Registry) (hwf : r0.WF) :
    ∀ (order : List Nat) (st : RState), OvAgree r0 st.reg →
    ∀ j, ((resolveMethodOverrides order st).reg.read j).usedBy =
      mergeUnique ((st.reg.read j).usedBy) (ovContribsAll r0 order j) := by
  intro order
  induction order with
  | nil => intro st _ j; exact Eq.refl _
  | cons i rest ih =>
    intro st hov j
    have hfold : resolveMethodOverrides (i :: rest) st
        = resolveMethodOverrides rest (overrideStep st i) := Eq.refl _
    have hstep := overrideStep_decision r0 st i hwf hov
    have hca : ovContribsAll r0 (i :: rest) j
        = ovContrib r0 i j ++ ovContribsAll r0 rest j := Eq.refl _
    rcases hd : overrideDecision r0 i with _ | pmID
    · have heq : overrideStep st i = st := hstep.1 hd
      have hcontrib : ovContrib r0 i j = [] := by
        simp only [ovContrib]
        rw [hd]
      rw [hfold, heq, hca, hcontrib, List.nil_append]
      exact ih st hov j
    · obtain ⟨hk, pref, hpref⟩ := decision_kind_getRef r0 hd
      have heq := hstep.2 pmID hd pref hpref
      have hilt : i < st.reg.heap.length := decision_inbounds r0 hov hk
      have hplt : pref < st.reg.heap.length := by
        rw [hov.2.1]
        exact (hwf.1 _ (lookupA_mem _ _ _ hpref)).1
      obtain ⟨a1, a2, a3, a4, _, _, a7⟩ :=
        applyOverride_spec st.reg i pref pmID (r0.read i).id hilt hplt
      set st1 : RState :=
        { reg := applyOverride st.reg i pref pmID (r0.read i).id
          stats := { st.stats with resolved := st.stats.resolved + 1 } }
        with hst1
      have hov1 : OvAgree r0 st1.reg := by
        refine ⟨a4.trans hov.1, ?_, fun j2 => ?_⟩
        · show (applyOverride st.reg i pref pmID (r0.read i).id).heap.length = _
          rw [a7, hov.2.1]
        · show (applyOverride st.reg i pref pmID (r0.read i).id).read j2 = _
          rw [a3 j2, hov.2.2 j2]
          rfl
      have hcontrib : ovContrib r0 i j
          = if pref = j then [(r0.read i).id] else [] := by
        simp only [ovContrib]
        rw [hd]
        show (match r0.getRef pmID with
          | some pref => if pref = j then [(r0.read i).id] else []
          | none => []) = _
        rw [hpref]
      have hst1read : (st1.reg.read j).usedBy
          = mergeUnique ((st.reg.read j).usedBy)
              (if pref = j then [(r0.read i).id] else []) := by
        show ((applyOverride st.reg i pref pmID (r0.read i).id).read j).usedBy
            = _
        rw [a2 j]
        by_cases hj : j = pref
        · rw [if_pos hj, if_pos hj.symm]
          exact Eq.refl _
        · rw [if_neg hj, if_neg (fun hc => hj hc.symm)]
          exact Eq.refl _
      have hmain := ih st1 hov1 j
      rw [hfold, heq, hca, hcontrib, mergeUnique_append, ← hst1read]
      exact hmain

theorem getRef_congr {r1 r2 : Registry} (hs : r2.symbols = r1.symbols)
    (k : String) : r2.getRef k = r1.getRef k := by
  show lookupA r2.symbols k = lookupA r1.symbols k
  rw [hs]

theorem overrideTarget_congr {r1 r2 : Registry} (hs : r2.symbols = r1.symbols)
    (nm : String) (exts : List String) :
    overrideTarget r2 exts nm = overrideTarget r1 exts nm := by
  rw [overrideTarget_eq_find, overrideTarget_eq_find]
  have hfe : (fun e => (r2.getRef e).isSome &&
      (r2.getRef (e ++ "::" ++ nm)).isSome)
      = (fun e => (r1.getRef e).isSome &&
        (r1.getRef (e ++ "::" ++ nm)).isSome) := by
    funext e
    rw [getRef_congr hs, getRef_congr hs]
  rw [hfe]

theorem overrideDecision_congr {r1 r2 : Registry} (hre : REquiv r1 r2) :
    ∀ i, overrideDecision r2 i = overrideDecision r1 i := by
  intro i
  have hk := maskUB_kind ((hre.2.2.2.2 i).1)
  have hpid := maskUB_parentID ((hre.2.2.2.2 i).1)
  have hnm := maskUB_name ((hre.2.2.2.2 i).1)
  rw [overrideDecision, overrideDecision, hk, hpid, hnm]
  by_cases hc : (r1.read i).kind = KindMethod ∧ (r1.read i).parentID ≠ ""
  · rw [if_pos hc, if_pos hc]
    rcases hg : r1.getRef ((r1.read i).parentID) with _ | pref
    · have hg2 : r2.getRef ((r1.read i).parentID) = none := by
        rw [getRef_congr hre.1]
        exact hg
      have e1 : r1.get ((r1.read i).parentID) = none := by
        show (r1.getRef _).map _ = none
        rw [hg]
        exact Eq.refl _
      have e2 : r2.get ((r1.read i).parentID) = none := by
        show (r2.getRef _).map _ = none
        rw [hg2]
        exact Eq.refl _
      rw [e1, e2]
    · have hg2 : r2.getRef ((r1.read i).parentID) = some pref := by
        rw [getRef_congr hre.1]
        exact hg
      have e1 : r1.get ((r1.read i).parentID) = some (r1.read pref) := by
        show (r1.getRef _).map _ = _
        rw [hg]
        exact Eq.refl _
      have e2 : r2.get ((r1.read i).parentID) = some (r2.read pref) := by
        show (r2.getRef _).map _ = _
        rw [hg2]
        exact Eq.refl _
      rw [e1, e2]
      show overrideTarget r2 ((r2.read pref).extends_) ((r1.read i).name)
          = overrideTarget r1 ((r1.read pref).extends_) ((r1.read i).name)
      rw [maskUB_extends ((hre.2.2.2.2 pref).1), overrideTarget_congr hre.1]
  · rw [if_neg hc, if_neg hc]

theorem ovContrib_congr {r1 r2 : Registry} (hre : REquiv r1 r2) (i j : Nat) :
    ovContrib r2 i j = ovContrib r1 i j := by
  simp only [ovContrib]
  rw [overrideDecision_congr hre i]
  rcases hd : overrideDecision r1 i with _ | pmID
  · rfl
  · show (match r2.getRef pmID with
      | some pref => if pref = j then [(r2.read i).id] else []
      | none => []) = (match r1.getRef pmID with
      | some pref => if pref = j then [(r1.read i).id] else []
      | none => [])
    rw [getRef_congr hre.1]
    rcases hg : r1.getRef pmID with _ | pref
    · rfl
    · show (if pref = j then [(r2.read i).id] else [])
          = (if pref = j then [(r1.read i).id] else [])
      rw [maskUB_id ((hre.2.2.2.2 i).1)]

theorem maskUB_withOv (s : Symbol) (ov : String) (ub : List String) :
    maskUB (withOv s ov ub) = withOv (maskUB s) ov [] := Eq.refl _

/-- Pass 4 under two different enumeration orders, run from two states
that agree up to `UsedBy` permutation: the outputs again agree up to
`UsedBy` permutation and the counters agree. -/
theorem resolveMethodOverrides_equiv (sta stb : RState) (o p : List Nat)
    (ho : o.Nodup) (hp : p.Nodup) (hmem : ∀ i, i ∈ o ↔ i ∈ p)
    (hre : REquiv sta.reg stb.reg) (hstats : sta.stats = stb.stats)
    (hwfa : sta.reg.WF) :
    REquiv (resolveMethodOverrides o sta).reg
      (resolveMethodOverrides p stb).reg ∧
    (resolveMethodOverrides o sta).stats =
      (resolveMethodOverrides p stb).stats := by
  have hwfb : stb.reg.WF := hre.rewf hwfa
  have hperm : o.Perm p := perm_of_nodup_mem ho hp hmem
  obtain ⟨a1, a2, a3, a4, a5, a6, a7, a8, a9⟩ :=
    resolveMethodOverrides_fold sta.reg hwfa o sta ho (OvAgree.ovrfl _)
      (fun _ _ => Eq.refl _)
  obtain ⟨b1, b2, b3, b4, b5, b6, b7, b8, b9⟩ :=
    resolveMethodOverrides_fold stb.reg hwfb p stb hp (OvAgree.ovrfl _)
      (fun _ _ => Eq.refl _)
  have hua := overrides_usedBy_spec sta.reg hwfa o sta (OvAgree.ovrfl _)
  have hub := overrides_usedBy_spec stb.reg hwfb p stb (OvAgree.ovrfl _)
  have hpa := resolveMethodOverrides_preserved o sta hwfa
  have hpb := resolveMethodOverrides_preserved p stb hwfb
  have hdec := overrideDecision_congr hre
  have hov_eq : ∀ j, ((resolveMethodOverrides p stb).reg.read j).overrides
      = ((resolveMethodOverrides o sta).reg.read j).overrides := by
    intro j
    by_cases hj : j ∈ o
    · rw [a2 j hj, b2 j ((hmem j).mp hj), hdec j,
        maskUB_overrides ((hre.2.2.2.2 j).1)]
    · rw [a3 j hj, b3 j (fun hc => hj ((hmem j).mpr hc)),
        maskUB_overrides ((hre.2.2.2.2 j).1)]
  refine ⟨⟨b1.1.trans (hre.1.trans a1.1.symm),
    hpb.2.1.trans (hre.2.1.trans hpa.2.1.symm),
    hpb.2.2.1.trans (hre.2.2.1.trans hpa.2.2.1.symm),
    b1.2.1.trans (hre.2.2.2.1.trans a1.2.1.symm), fun j => ⟨?_, ?_⟩⟩,
    Stats.statsExt ?_ ?_ ?_ ?_⟩
  · have hmA : maskUB ((resolveMethodOverrides o sta).reg.read j)
        = withOv (maskUB (sta.reg.read j))
            (((resolveMethodOverrides o sta).reg.read j).overrides) [] :=
      congrArg maskUB (a1.2.2 j)
    have hmB : maskUB ((resolveMethodOverrides p stb).reg.read j)
        = withOv (maskUB (stb.reg.read j))
            (((resolveMethodOverrides p stb).reg.read j).overrides) [] :=
      congrArg maskUB (b1.2.2 j)
    rw [hmA, hmB, (hre.2.2.2.2 j).1, hov_eq j]
  · rw [hua j, hub j]
    refine mergeUnique_perm ((hre.2.2.2.2 j).2) fun x => ?_
    rw [mem_ovContribsAll, mem_ovContribsAll]
    constructor
    · rintro ⟨i, hi, hx⟩
      refine ⟨i, (hmem i).mp hi, ?_⟩
      rw [ovContrib_congr hre]
      exact hx
    · rintro ⟨i, hi, hx⟩
      rw [ovContrib_congr hre] at hx
      exact ⟨i, (hmem i).mpr hi, hx⟩
  · have hfd : (fun i => if (overrideDecision stb.reg i).isSome
        then 1 else 0)
        = (fun i => if (overrideDecision sta.reg i).isSome then 1 else 0) := by
      funext i
      rw [hdec i]
    rw [a6, b6, hfd, hstats, (hperm.map _).sum_eq]
  · rw [a7, b7, hstats]
  · rw [a8, b8, hstats]
  · rw [a9, b9, hstats]

/-- Pass 1 changes neither the kind index nor any `HookTag`, so pass 2
builds the same tag index either way. -/
theorem hooksByTag_congr {r r2 : Registry} (h : RegPreserved r r2) :
    hooksByTag r2 = hooksByTag r := by
  rw [hooksByTag, hooksByTag]
  have hbk : r2.byKindRefs KindHook = r.byKindRefs KindHook := by
    rw [Registry.byKindRefs, Registry.byKindRefs, h.2.1]
  have hfe : (fun (m : List (String × Nat)) (h2 : Nat) =>
      setA m (r2.read h2).hookTag h2)
      = (fun m h2 => setA m (r.read h2).hookTag h2) := by
    funext m h2
    rw [(h.2.2.2.2 h2).hookTag_eq]
  rw [hbk, hfe]

/-- **C9 (corrected).**  Running the four-pass resolver on the same
registry snapshot under any two enumeration orders (each pass sees some
permutation of the symbol-map entries, as a Go map iteration does) yields
identical `Stats`, and identical symbols — same `Extends`, `Implements`,
`Overrides` and see-also entries — except that the `UsedBy` lists may list
the same IDs in a different order (they are permutations of each other;
the literal claim that every resolved field is identical is refuted by
`UsedBy`). -/
theorem C9_resolution_determinism (st : RState)
    (o1 o2 o3 o4 p1 p2 p3 p4 : List Nat)
    (hwf : st.reg.WF)
    (htags : ∀ q ∈ hooksByTag st.reg, q.2 < st.reg.heap.length)
    (h1 : o1.Perm st.reg.allRefs) (h2 : o2.Perm st.reg.allRefs)
    (h3 : o3.Perm st.reg.allRefs) (h4 : o4.Perm st.reg.allRefs)
    (g1 : p1.Perm st.reg.allRefs) (g2 : p2.Perm st.reg.allRefs)
    (g3 : p3.Perm st.reg.allRefs) (g4 : p4.Perm st.reg.allRefs) :
    (ResolveAll o1 o2 o3 o4 st).stats = (ResolveAll p1 p2 p3 p4 st).stats ∧
    REquiv (ResolveAll o1 o2 o3 o4 st).reg
      (ResolveAll p1 p2 p3 p4 st).reg := by
  have hndall : st.reg.allRefs.Nodup := hwf.2.2
  have ho1 := h1.nodup_iff.mpr hndall
  have ho2 := h2.nodup_iff.mpr hndall
  have ho3 := h3.nodup_iff.mpr hndall
  have ho4 := h4.nodup_iff.mpr hndall
  have hq1 := g1.nodup_iff.mpr hndall
  have hq2 := g2.nodup_iff.mpr hndall
  have hq3 := g3.nodup_iff.mpr hndall
  have hq4 := g4.nodup_iff.mpr hndall
  have hm1 : ∀ i, i ∈ o1 ↔ i ∈ p1 := fun i => by
    rw [h1.mem_iff, g1.mem_iff]
  have hm2 : ∀ i, i ∈ o2 ↔ i ∈ p2 := fun i => by
    rw [h2.mem_iff, g2.mem_iff]
  have hm3 : ∀ i, i ∈ o3 ↔ i ∈ p3 := fun i => by
    rw [h3.mem_iff, g3.mem_iff]
  have hm4 : ∀ i, i ∈ o4 ↔ i ∈ p4 := fun i => by
    rw [h4.mem_iff, g4.mem_iff]
  have e1 : resolveInheritance o1 st = resolveInheritance p1 st :=
    resolveInheritance_order st o1 p1 ho1 hq1 hm1
  have hpres1 := resolveInheritance_preserved o1 st
  have htags1 : ∀ q ∈ hooksByTag (resolveInheritance o1 st).reg,
      q.2 < (resolveInheritance o1 st).reg.heap.length := by
    intro q hq
    rw [hooksByTag_congr hpres1] at hq
    rw [hpres1.2.2.2.1]
    exact htags q hq
  obtain ⟨hre2, hstats2⟩ := resolveHookBindings_order
    (resolveInheritance o1 st) o2 p2 ho2 hq2 hm2 htags1
  obtain ⟨hre3, hstats3⟩ := resolveSeeReferences_equiv
    (resolveHookBindings o2 (resolveInheritance o1 st))
    (resolveHookBindings p2 (resolveInheritance o1 st)) o3 p3 ho3 hq3 hm3
    hre2 hstats2
  have hwf3 : (resolveSeeReferences o3
      (resolveHookBindings o2 (resolveInheritance o1 st))).reg.WF :=
    ((hpres1.rtrans (resolveHookBindings_preserved o2
      (resolveInheritance o1 st))).rtrans (resolveSeeReferences_preserved o3
      (resolveHookBindings o2 (resolveInheritance o1 st)))).rwf hwf
  obtain ⟨hre4, hstats4⟩ := resolveMethodOverrides_equiv
    (resolveSeeReferences o3
      (resolveHookBindings o2 (resolveInheritance o1 st)))
    (resolveSeeReferences p3
      (resolveHookBindings p2 (resolveInheritance o1 st))) o4 p4 ho4 hq4 hm4
    hre3 hstats3 hwf3
  have hB : ResolveAll p1 p2 p3 p4 st
      = resolveMethodOverrides p4 (resolveSeeReferences p3
          (resolveHookBindings p2 (resolveInheritance o1 st))) := by
    rw [ResolveAll, e1]
  have hA : ResolveAll o1 o2 o3 o4 st
      = resolveMethodOverrides o4 (resolveSeeReferences o3
          (resolveHookBindings o2 (resolveInheritance o1 st))) := Eq.refl _
  rw [hA, hB]
  exact ⟨hstats4, hre4⟩

/-- Counterexample to the literal C9: with one hook used by two functions,
the hook's final `UsedBy` list depends on the enumeration order, so the
resolved fields are not identical across runs. -/
theorem C9_counterexample :
    let hookInit : Symbol := { id := "hook:init", name := "init",
                               kind := "hook", hookTag := "init" }
    let fA : Symbol := { id := "fA", name := "fA", kind := "function",
                         uses := ["init"] }
    let fB : Symbol := { id := "fB", name := "fB", kind := "function",
                         uses := ["init"] }
    let r := ofSymbols [hookInit, fA, fB]
    ([0, 1, 2] : List Nat).Perm r.allRefs ∧
    ([2, 1, 0] : List Nat).Perm r.allRefs ∧
    ((ResolveAll [0, 1, 2] [0, 1, 2] [0, 1, 2] [0, 1, 2]
        { reg := r }).reg.read 0).usedBy = ["fA", "fB"] ∧
    ((ResolveAll [2, 1, 0] [2, 1, 0] [2, 1, 0] [2, 1, 0]
        { reg := r }).reg.read 0).usedBy = ["fB", "fA"] ∧
    (["fA", "fB"] : List String) ≠ ["fB", "fA"] := by
  intro hookInit fA fB r
  exact ⟨by decide, by decide, by decide, by decide, by decide⟩

/-- Witness for the corrected C9 at the counterexample registry: the two
runs' stats agree and the registries agree up to `UsedBy` permutation. -/
theorem C9_witness :
    let hookInit : Symbol := { id := "hook:init", name := "init",
                               kind := "hook", hookTag := "init" }
    let fA : Symbol := { id := "fA", name := "fA", kind := "function",
                         uses := ["init"] }
    let fB : Symbol := { id := "fB", name := "fB", kind := "function",
                         uses := ["init"] }
    let r := ofSymbols [hookInit, fA, fB]
    (ResolveAll [0, 1, 2] [0, 1, 2] [0, 1, 2] [0, 1, 2]
        { reg := r }).stats
      = (ResolveAll [2, 1, 0] [2, 1, 0] [2, 1, 0] [2, 1, 0]
        { reg := r }).stats ∧
    REquiv (ResolveAll [0, 1, 2] [0, 1, 2] [0, 1, 2] [0, 1, 2]
        { reg := r }).reg
      (ResolveAll [2, 1, 0] [2, 1, 0] [2, 1, 0] [2, 1, 0]
        { reg := r }).reg := by
  intro hookInit fA fB r
  exact C9_resolution_determinism { reg := r } [0, 1, 2] [0, 1, 2] [0, 1, 2]
    [0, 1, 2] [2, 1, 0] [2, 1, 0] [2, 1, 0] [2, 1, 0] (by decide) (by decide)
    (by decide) (by decide) (by decide) (by decide) (by decide) (by decide)
    (by decide) (by decide)

/-- **C3.**  In the override pass, a method whose owner was ingested has
its owner's superclass entries scanned in order; the first superclass that
is registered and owns `<superclassID>::<methodName>` wins: `Overrides` is
set to that parent method's ID, the method's ID is added to the parent
method's `UsedBy`, and the search stops (first match, via `find?`).  A
method whose `ParentID` was never ingested is skipped: its `Overrides` is
untouched. -/
theorem C3_method_override_resolution (st0 : RState) (order : List Nat)
    (hnd : order.Nodup) (hwf : st0.reg.WF) :
    let r0 := st0.reg
    let fin := resolveMethodOverrides order st0
    (∀ exts nm, overrideTarget r0 exts nm =
      (exts.find? (fun e => (r0.getRef e).isSome &&
        (r0.getRef (e ++ "::" ++ nm)).isSome)).map (fun e => e ++ "::" ++ nm)) ∧
    (∀ i ∈ order,
      ((r0.read i).kind = KindMethod → (r0.read i).parentID ≠ "" →
        (r0.get (r0.read i).parentID = none →
          (fin.reg.read i).overrides = (r0.read i).overrides) ∧
        (∀ parent, r0.get (r0.read i).parentID = some parent →
          (overrideTarget r0 parent.extends_ (r0.read i).name = none →
            (fin.reg.read i).overrides = (r0.read i).overrides) ∧
          (∀ pmID, overrideTarget r0 parent.extends_ (r0.read i).name = some pmID →
            (fin.reg.read i).overrides = pmID ∧
            (∀ pm, fin.reg.get pmID = some pm → (r0.read i).id ∈ pm.usedBy)))) ∧
      (¬((r0.read i).kind = KindMethod ∧ (r0.read i).parentID ≠ "") →
        (fin.reg.read i).overrides = (r0.read i).overrides)) := by
  intro r0 fin
  obtain ⟨t1, t2, t3, t4, t5, t6, t7, t8, t9⟩ :=
    resolveMethodOverrides_fold r0 hwf order st0 hnd (OvAgree.ovrfl r0)
      (fun _ _ => Eq.refl _)
  refine ⟨fun exts nm => overrideTarget_eq_find r0 nm exts, ?_⟩
  intro i hi
  have hbase := t2 i hi
  refine ⟨?_, ?_⟩
  · intro hk hpid
    constructor
    · intro hpnone
      have hdec : overrideDecision r0 i = none := by
        simp only [overrideDecision]
        rw [if_pos ⟨hk, hpid⟩, hpnone]
      rw [hbase, hdec]
      rfl
    · intro parent hpsome
      constructor
      · intro htnone
        have hdec : overrideDecision r0 i = none := by
          simp only [overrideDecision]
          rw [if_pos ⟨hk, hpid⟩, hpsome]
          exact htnone
        rw [hbase, hdec]
        rfl
      · intro pmID htsome
        have hdec : overrideDecision r0 i = some pmID := by
          simp only [overrideDecision]
          rw [if_pos ⟨hk, hpid⟩, hpsome]
          exact htsome
        refine ⟨by rw [hbase, hdec]; rfl, ?_⟩
        intro pm hpm
        have hsymseq : fin.reg.symbols = r0.symbols := t1.1
        rcases hgr : r0.getRef pmID with _ | pref
        · have : fin.reg.getRef pmID = none := by
            show lookupA fin.reg.symbols pmID = none
            rw [hsymseq]
            exact hgr
          rw [show fin.reg.get pmID = none from by
            show (fin.reg.getRef pmID).map fin.reg.read = none
            rw [this]
            rfl] at hpm
          cases hpm
        · have hgf : fin.reg.get pmID = some (fin.reg.read pref) := by
            show (fin.reg.getRef pmID).map fin.reg.read = _
            rw [show fin.reg.getRef pmID = some pref from by
              show lookupA fin.reg.symbols pmID = some pref
              rw [hsymseq]
              exact hgr]
            rfl
          rw [hgf] at hpm
          have hpmeq : pm = fin.reg.read pref := (Option.some.inj hpm).symm
          rw [hpmeq]
          exact t5 i hi pmID hdec pref hgr
  · intro hnc
    have hdec : overrideDecision r0 i = none := by
      simp only [overrideDecision]
      rw [if_neg hnc]
    rw [hbase, hdec]
    rfl

/-- Witness for C3: scenario B — `Child extends Base`, both define `save`;
after the pass `Child::save` overrides `Base::save` and `Base::save` is
used by `Child::save`; a method whose owner was never ingested is
skipped. -/
theorem C3_witness :
    let baseC : Symbol := { id := "Base", name := "Base", kind := "class" }
    let childC : Symbol := { id := "Child", name := "Child", kind := "class",
                             extends_ := ["Base"] }
    let baseSave : Symbol := { id := "Base::save", name := "save",
                               kind := "method", parentID := "Base" }
    let childSave : Symbol := { id := "Child::save", name := "save",
                                kind := "method", parentID := "Child" }
    let orphan : Symbol := { id := "Ghost::m", name := "m", kind := "method",
                             parentID := "Ghost", overrides := "" }
    let r := ofSymbols [baseC, childC, baseSave, childSave, orphan]
    let fin := resolveMethodOverrides r.allRefs { reg := r }
    (fin.reg.read 3).overrides = "Base::save" ∧
    (∃ pm, fin.reg.get "Base::save" = some pm ∧ "Child::save" ∈ pm.usedBy) ∧
    (fin.reg.read 4).overrides = "" := by
  intro baseC childC baseSave childSave orphan r fin
  have h := C3_method_override_resolution { reg := r } r.allRefs (by decide)
    (by decide)
  obtain ⟨-, h2⟩ := h
  refine ⟨?_, ?_, ?_⟩
  · have hc := ((h2 3 (by decide)).1 (by decide) (by decide)).2 childC (by decide)
    have := (hc.2 "Base::save" (by decide)).1
    rw [this]
  · have hc := ((h2 3 (by decide)).1 (by decide) (by decide)).2 childC (by decide)
    refine ⟨fin.reg.read 2, by decide, ?_⟩
    exact (hc.2 "Base::save" (by decide)).2 (fin.reg.read 2) (by decide)
  · have hc := ((h2 4 (by decide)).1 (by decide) (by decide)).1 (by decide)
    rw [hc]
    decide

/-- Witness for C10 at concrete records. -/
theorem C10_witness :
    let s1 : Symbol := { id := "dup", name := "one", kind := "function" }
    let s2 : Symbol := { id := "dup", name := "two", kind := "function" }
    let r2 := (Registry.empty.add s1).add s2
    r2.get "dup" = some s2 ∧ r2.count = 1 ∧
      ((r2.byKindRefs "function").map r2.read).length = 2 := by
  intro s1 s2 r2
  have h := C10_duplicate_add_shadowing Registry.empty s1 s2 rfl
  refine ⟨h.1, ?_, by decide⟩
  · have := h.2.1
    simpa using this

end WPDocs
